import Mathlib

/-!
Shallow embedding of the chain-processing core of `src/node/processor.cpp`
(beam NodeProcessor): the UTXO multiset and kernel set accumulators, the
block interpreter (`HandleValidatedTx` / `HandleValidatedBlock` /
`HandleBlock` and the per-element handlers), transaction context
validation, the reorg loop `TryGoUp`, pruning (`PruneOld` / `PruneAt`)
and block templating (`GenerateNewBlock`).

Machine integers are modelled as `Nat` with explicit `% 2^w` where the
source wraps (UTXO counts are `uint32`, the subsidy accumulator is a
128-bit pair, the offset is a scalar mod the secp256k1 group order).
Merkle hashes are modelled by the canonical contents they commit to: the
UTXO tree root by the sorted leaf list, the kernel tree root by the
sorted id list, `Merkle::Interpret` by pairing.
-/

namespace Beam

/-- Heights (`beam::Height`, a `uint64`; blocks never reach the wrap). -/
abbrev Height := Nat

/-! Consensus constants (`Rules`), fixed as in the source's defaults. -/

namespace Rules

/-- `Rules::HeightGenesis`. -/
def HeightGenesis : Height := 1

/-- `Rules::MaturityCoinbase` (maturity lock of coinbase outputs). -/
def MaturityCoinbase : Height := 60

/-- `Rules::MaturityStd` (maturity lock of ordinary outputs). -/
def MaturityStd : Height := 0

/-- `Rules::WindowForMedian` (timestamp moving-median window). -/
def WindowForMedian : Nat := 25

/-- `Rules::CoinbaseEmission`. -/
def CoinbaseEmission : Nat := 800000000

/-- `Rules::MaxBodySize`. -/
def MaxBodySize : Nat := 1048576

end Rules

/-- The modulus of `Input::Count` (`uint32_t`). -/
def countMod : Nat := 2 ^ 32

/-- The modulus of the subsidy accumulator (`AmountBig`, a 128-bit Hi/Lo pair). -/
def subsidyMod : Nat := 2 ^ 128

/-- The order of the secp256k1 scalar field (`ECC::Scalar::Native` arithmetic). -/
def scalarOrder : Nat := 0xFFFFFFFFFFFFFFFFFFFFFFFFFFFFFFFEBAAEDCE6AF48A03BBFD25E8CD0364141

/-! ## The UTXO tree (`UtxoTree`)

A persistent ordered map over keys `(commitment ‖ maturity)` to a
positive 32-bit count.  The authenticated radix tree is modelled by its
canonical content: the association list sorted strictly by key.  Range
traversal in ascending key order is first-match search on the sorted
list. -/

/-- A UTXO key: `(commitment, maturity)`; commitments (Pedersen points)
are abstracted to `Nat`.  Ordered lexicographically, as the concatenated
byte representation is in the source. -/
abbrev UtxoKey := Nat × Height

/-- Strict lexicographic order on UTXO keys. -/
def uLt (a b : UtxoKey) : Prop := a.1 < b.1 ∨ (a.1 = b.1 ∧ a.2 < b.2)

instance (a b : UtxoKey) : Decidable (uLt a b) := by
  unfold uLt; exact inferInstance

/-- The UTXO tree content: association list from key to count, kept
sorted strictly ascending by key. -/
abbrev UtxoMap := List (UtxoKey × Nat)

/-- Key-sortedness invariant of the canonical leaf list. -/
def uSorted (m : UtxoMap) : Prop := List.Pairwise (fun a b => uLt a.1 b.1) m

/-- Lookup of a key's count (`UtxoTree::Find` without creation). -/
def utxoFind : UtxoMap → UtxoKey → Option Nat
  | [], _ => none
  | e :: t, k => if k = e.1 then some e.2 else utxoFind t k

/-- Insert-or-replace preserving sortedness (`Find` with `bCreate`
followed by storing the count). -/
def utxoSet : UtxoMap → UtxoKey → Nat → UtxoMap
  | [], k, c => [(k, c)]
  | e :: t, k, c =>
    if uLt k e.1 then (k, c) :: e :: t
    else if k = e.1 then (k, c) :: t
    else e :: utxoSet t k c

/-- Delete a key (`UtxoTree::Delete` at a cursor positioned on it). -/
def utxoDel : UtxoMap → UtxoKey → UtxoMap
  | [], _ => []
  | e :: t, k => if k = e.1 then t else e :: utxoDel t k

/-- The count a key holds, `0` when absent (zero counts are never stored). -/
def uCount (m : UtxoMap) (k : UtxoKey) : Nat := (utxoFind m k).getD 0

/-- First leaf of the range `[(c,0), (c,bound)]` in ascending key order:
the `Traveler` of the forward input handler, which stops at the first
visited leaf.  On a sorted list this is the first entry whose commitment
is `c` and whose maturity is at most `bound`. -/
def utxoFindRangeFirst : UtxoMap → Nat → Height → Option (UtxoKey × Nat)
  | [], _, _ => none
  | e :: t, c, bound =>
    if e.1.1 = c ∧ e.1.2 ≤ bound then some e else utxoFindRangeFirst t c bound

/-- The Merkle root of the UTXO tree, modelled by the canonical sorted
leaf list it is computed from (equal contents, equal root). -/
def utxoRoot (m : UtxoMap) : UtxoMap := m

/-! ## The kernel set (`RadixHashOnlyTree`)

Presence-only set of kernel-id hashes (abstracted to `Nat`; the all-zero
hash is `0`), modelled by its sorted element list. -/

/-- Kernel set content: strictly ascending list of ids. -/
abbrev KernelSet := List Nat

/-- Sortedness invariant of the kernel set. -/
def kSorted (s : KernelSet) : Prop := List.Pairwise (· < ·) s

/-- Membership test (`Find` with `bCreate = false`). -/
def kFind : KernelSet → Nat → Bool
  | [], _ => false
  | x :: t, k => if k = x then true else kFind t k

/-- Insertion preserving sortedness (`Find` with `bCreate = true`); a
present id is left as is. -/
def kInsert : KernelSet → Nat → KernelSet
  | [], k => [k]
  | x :: t, k =>
    if k < x then k :: x :: t
    else if k = x then x :: t
    else x :: kInsert t k

/-- Deletion (`Delete` at a cursor positioned on the id). -/
def kDelete : KernelSet → Nat → KernelSet
  | [], _ => []
  | x :: t, k => if k = x then t else x :: kDelete t k

/-- The Merkle root of the kernel tree, modelled by the sorted id list. -/
def kernelRoot (s : KernelSet) : KernelSet := s

/-! ## Processor state

The in-memory accumulators plus the `Extra` struct of `NodeProcessor`:
`m_Utxos`, `m_Kernels`, and `m_Extra = { m_SubsidyOpen, m_Subsidy,
m_Offset }`. -/

/-- The mutable accumulator state of the processor. -/
@[ext]
structure PState where
  m_Utxos : UtxoMap
  m_Kernels : KernelSet
  m_SubsidyOpen : Bool
  m_Subsidy : Nat
  m_Offset : Nat
deriving DecidableEq, Repr

/-! ## Block body data -/

/-- A transaction input: a commitment plus the maturity slot (`m_Maturity`
is filled in by the forward handler when `bAdjustInputMaturity`). -/
structure Input where
  m_Commitment : Nat
  m_Maturity : Height
deriving DecidableEq, Repr

/-- A transaction output.  The cryptographic payload is abstracted; the
fields that the processor reads are the commitment, the optional explicit
maturity (`0`, i.e. below `HeightGenesis`, means unset) and the inputs of
`get_MinMaturity`. -/
structure Output where
  m_Commitment : Nat
  m_Maturity : Height
  m_Coinbase : Bool
  m_Incubation : Height
deriving DecidableEq, Repr

/-- Modelled from the spec: `Output::get_MinMaturity(h)` (core block code,
not under `src/`) is a pure function of the output and the height — the
height plus the coinbase/standard lock plus the incubation period. -/
def Output.get_MinMaturity (v : Output) (h : Height) : Height :=
  h + (if v.m_Coinbase then Rules.MaturityCoinbase else Rules.MaturityStd) + v.m_Incubation

/-- A transaction kernel; `get_ID` (a hash of the kernel) is abstracted
to the stored `m_ID`, and the kernel's height range is kept for
`ValidateTxWrtHeight`. -/
structure TxKernel where
  m_ID : Nat
  m_HeightMin : Height
  m_HeightMax : Height
deriving DecidableEq, Repr

/-- `HeightRange::IsInRange`. -/
def TxKernel.heightInRange (v : TxKernel) (h : Height) : Bool :=
  v.m_HeightMin ≤ h ∧ h ≤ v.m_HeightMax

/-- A block body (`Block::Body` = `TxVectors` + `BodyBase`).  A plain
transaction (`Transaction`) is the same shape with `m_SubsidyClosing =
false` and `m_Subsidy` unused. -/
structure BlockBody where
  m_vInputs : List Input
  m_vOutputs : List Output
  m_vKernelsInput : List TxKernel
  m_vKernelsOutput : List TxKernel
  m_SubsidyClosing : Bool
  m_Subsidy : Nat
  m_Offset : Nat
deriving DecidableEq, Repr

/-! ## Per-element handlers (`NodeProcessor::HandleBlockElement`)

Each handler returns `none` where the source returns `false`; the source
never mutates the accumulators on a `false` return, so `none` carries no
state. -/

/-- `HandleBlockElement(const Input&, Height, const Height*, bool, bool)`.
Forward with `bAdjustInputMaturity`: range-traverse `[(c,0),(c,hMax)]`,
stop at the first leaf, record its maturity back into the input,
decrement the count and delete the leaf at zero.  Forward without: the
input carries an explicit maturity, which must be `≤ *pHMax` and present
exactly.  Reverse: re-insert `(c, m_Maturity)`, creating at count 1.
The decrement/increment is `uint32` arithmetic (the source asserts that
a stored count is never zero). -/
def HandleBlockElementInput (st : PState) (v : Input) (h : Height)
    (pHMax : Option Height) (bFwd bAdjustInputMaturity : Bool) :
    Option (PState × Input) :=
  if bFwd then
    let deleteOrDec : UtxoKey → Nat → UtxoMap := fun k cnt =>
      let c2 := (cnt + (countMod - 1)) % countMod
      if c2 = 0 then utxoDel st.m_Utxos k else utxoSet st.m_Utxos k c2
    if bAdjustInputMaturity then
      match utxoFindRangeFirst st.m_Utxos v.m_Commitment (pHMax.getD h) with
      | none => none
      | some (k, cnt) =>
        some ({ st with m_Utxos := deleteOrDec k cnt }, { v with m_Maturity := k.2 })
    else
      match pHMax with
      | none => none
      | some hMax =>
        if v.m_Maturity > hMax then none
        else
          match utxoFind st.m_Utxos (v.m_Commitment, v.m_Maturity) with
          | none => none
          | some cnt =>
            some ({ st with m_Utxos := deleteOrDec (v.m_Commitment, v.m_Maturity) cnt }, v)
  else
    let k : UtxoKey := (v.m_Commitment, v.m_Maturity)
    let utxos :=
      match utxoFind st.m_Utxos k with
      | none => utxoSet st.m_Utxos k 1
      | some cnt => utxoSet st.m_Utxos k ((cnt + 1) % countMod)
    some ({ st with m_Utxos := utxos }, v)

/-- The key an output is applied at, together with the explicit-maturity
screen: `d.m_Maturity = get_MinMaturity(h)`, and an explicit maturity
(`≥ HeightGenesis`) is allowed only in macroblock mode (`pHMax` set) and
must not decrease the minimum. -/
def outputKeyOf (v : Output) (h : Height) (pHMax : Option Height) : Option UtxoKey :=
  let dm := v.get_MinMaturity h
  if v.m_Maturity ≥ Rules.HeightGenesis then
    match pHMax with
    | none => none
    | some _ => if v.m_Maturity < dm then none else some (v.m_Commitment, v.m_Maturity)
  else some (v.m_Commitment, dm)

/-- `HandleBlockElement(const Output&, Height, const Height*, bool)`.
Forward: create at count 1, or increment the `uint32` count, failing when
the incremented count wraps to zero.  Reverse: delete at count 1, else
decrement.  (In reverse on an absent key the source reads the
uninitialized count of a just-created leaf; that branch is unreachable
after a successful forward apply and is modelled as a no-op.) -/
def HandleBlockElementOutput (st : PState) (v : Output) (h : Height)
    (pHMax : Option Height) (bFwd : Bool) : Option PState :=
  match outputKeyOf v h pHMax with
  | none => none
  | some k =>
    match utxoFind st.m_Utxos k with
    | none =>
      if bFwd then some { st with m_Utxos := utxoSet st.m_Utxos k 1 }
      else some st
    | some cnt =>
      if bFwd then
        let nCountInc := (cnt + 1) % countMod
        if nCountInc = 0 then none
        else some { st with m_Utxos := utxoSet st.m_Utxos k nCountInc }
      else
        if cnt = 1 then some { st with m_Utxos := utxoDel st.m_Utxos k }
        else some { st with m_Utxos := utxoSet st.m_Utxos k ((cnt + (countMod - 1)) % countMod) }

/-- `HandleBlockElement(const TxKernel&, bool, bool)`: insert when
`bFwd != bIsInput` (duplicate insert fails), else delete (missing id
fails). -/
def HandleBlockElementKernel (st : PState) (v : TxKernel) (bFwd bIsInput : Bool) :
    Option PState :=
  let bAdd := bFwd != bIsInput
  if bAdd then
    if kFind st.m_Kernels v.m_ID then none
    else some { st with m_Kernels := kInsert st.m_Kernels v.m_ID }
  else
    if kFind st.m_Kernels v.m_ID then some { st with m_Kernels := kDelete st.m_Kernels v.m_ID }
    else none

/-- `NodeProcessor::ToggleSubsidyOpened`: find-or-create the zero-hash
sentinel in the kernel set; if it was present, delete it and set the flag
open, else leave it inserted and set the flag closed.  (The source
asserts `m_SubsidyOpen == bCreate`.) -/
def ToggleSubsidyOpened (st : PState) : PState :=
  if kFind st.m_Kernels 0 then
    { st with m_Kernels := kDelete st.m_Kernels 0, m_SubsidyOpen := true }
  else
    { st with m_Kernels := kInsert st.m_Kernels 0, m_SubsidyOpen := false }

/-! ## `NodeProcessor::HandleValidatedTx`

The four element loops of the interpreter, in reader order (input UTXOs,
output UTXOs, input kernels, output kernels).  On a failure the loop
stops with the counts `nInp, nOut, nKrnInp, nKrnOut` of elements already
handled; the source then unapplies exactly those — resetting the reader,
so each already-handled group is walked again from its start — in
reverse group order (output kernels, input kernels, outputs, inputs),
discarding the per-element results.  A failure in reverse direction is
`OnCorrupted` (fatal). -/

/-- One element loop over the inputs.  Returns the final state, the
handled elements (with maturities adjusted in place by the forward
handler), the unhandled suffix starting at the failing element, and the
loop's success. -/
def runInputs (st : PState) (l : List Input) (h : Height) (pHMax : Option Height)
    (bFwd bAdjustInputMaturity : Bool) : PState × List Input × List Input × Bool :=
  match l with
  | [] => (st, [], [], true)
  | v :: t =>
    match HandleBlockElementInput st v h pHMax bFwd bAdjustInputMaturity with
    | none => (st, [], v :: t, false)
    | some (st1, v1) =>
      let r := runInputs st1 t h pHMax bFwd bAdjustInputMaturity
      (r.1, v1 :: r.2.1, r.2.2.1, r.2.2.2)

/-- One element loop over the outputs. -/
def runOutputs (st : PState) (l : List Output) (h : Height) (pHMax : Option Height)
    (bFwd : Bool) : PState × List Output × List Output × Bool :=
  match l with
  | [] => (st, [], [], true)
  | v :: t =>
    match HandleBlockElementOutput st v h pHMax bFwd with
    | none => (st, [], v :: t, false)
    | some st1 =>
      let r := runOutputs st1 t h pHMax bFwd
      (r.1, v :: r.2.1, r.2.2.1, r.2.2.2)

/-- One element loop over a kernel vector. -/
def runKernels (st : PState) (l : List TxKernel) (bFwd bIsInput : Bool) :
    PState × List TxKernel × List TxKernel × Bool :=
  match l with
  | [] => (st, [], [], true)
  | v :: t =>
    match HandleBlockElementKernel st v bFwd bIsInput with
    | none => (st, [], v :: t, false)
    | some st1 =>
      let r := runKernels st1 t bFwd bIsInput
      (r.1, v :: r.2.1, r.2.2.1, r.2.2.2)

/-- The rollback walk over the first `nInp` inputs (the reader is reset,
so the walk is in list order), the reverse handler's result being
discarded (`HandleBlockElement(*r.m_pUtxoIn, h, pHMax, false, false)`). -/
def rollbackInputs (st : PState) (l : List Input) (h : Height) (pHMax : Option Height) :
    PState :=
  l.foldl (fun s v => ((HandleBlockElementInput s v h pHMax false false).map Prod.fst).getD s) st

/-- The rollback walk over the first `nOut` outputs. -/
def rollbackOutputs (st : PState) (l : List Output) (h : Height) (pHMax : Option Height) :
    PState :=
  l.foldl (fun s v => (HandleBlockElementOutput s v h pHMax false).getD s) st

/-- The rollback walk over the first elements of a kernel vector. -/
def rollbackKernels (st : PState) (l : List TxKernel) (bIsInput : Bool) : PState :=
  l.foldl (fun s v => (HandleBlockElementKernel s v false bIsInput).getD s) st

/-- Result of `HandleValidatedTx` / `HandleValidatedBlock`: the boolean
result together with the accumulator state and the (possibly
maturity-adjusted) body the call leaves behind; `corrupted` is
`OnCorrupted` (an unapply failed). -/
inductive TxResult where
  | ok (st : PState) (body : BlockBody)
  | failed (st : PState) (body : BlockBody)
  | corrupted
deriving DecidableEq, Repr

/-- `NodeProcessor::HandleValidatedTx`. -/
def HandleValidatedTx (st : PState) (body : BlockBody) (h : Height)
    (bFwd bAdjustInputMaturity : Bool) (pHMax : Option Height) : TxResult :=
  let (st1, insPre, insRest, okI) := runInputs st body.m_vInputs h pHMax bFwd bAdjustInputMaturity
  let body1 := { body with m_vInputs := insPre ++ insRest }
  if okI then
    let (st2, outsPre, _outsRest, okO) := runOutputs st1 body.m_vOutputs h pHMax bFwd
    if okO then
      let (st3, kinPre, _kinRest, okKI) := runKernels st2 body.m_vKernelsInput bFwd true
      if okKI then
        let (st4, koutPre, _koutRest, okKO) := runKernels st3 body.m_vKernelsOutput bFwd false
        if okKO then TxResult.ok st4 body1
        else if !bFwd then TxResult.corrupted
        else
          let su1 := rollbackKernels st4 koutPre false
          let su2 := rollbackKernels su1 kinPre true
          let su3 := rollbackOutputs su2 outsPre h pHMax
          let su4 := rollbackInputs su3 insPre h pHMax
          TxResult.failed su4 body1
      else if !bFwd then TxResult.corrupted
      else
        let su2 := rollbackKernels st3 kinPre true
        let su3 := rollbackOutputs su2 outsPre h pHMax
        let su4 := rollbackInputs su3 insPre h pHMax
        TxResult.failed su4 body1
    else if !bFwd then TxResult.corrupted
    else
      let su3 := rollbackOutputs st2 outsPre h pHMax
      let su4 := rollbackInputs su3 insPre h pHMax
      TxResult.failed su4 body1
  else if !bFwd then TxResult.corrupted
  else
    let su4 := rollbackInputs st1 insPre h pHMax
    TxResult.failed su4 body1

/-- `NodeProcessor::HandleValidatedBlock`: gate a subsidy-closing body on
the direction agreeing with the current flag, run the transaction, then
toggle the sentinel and accumulate the subsidy (128-bit) and the offset
(scalar, negated on reverse). -/
def HandleValidatedBlock (st : PState) (body : BlockBody) (h : Height)
    (bFwd bAdjustInputMaturity : Bool) (pHMax : Option Height) : TxResult :=
  if body.m_SubsidyClosing ∧ st.m_SubsidyOpen ≠ bFwd then TxResult.failed st body
  else
    match HandleValidatedTx st body h bFwd bAdjustInputMaturity pHMax with
    | TxResult.corrupted => TxResult.corrupted
    | TxResult.failed st1 body1 => TxResult.failed st1 body1
    | TxResult.ok st1 body1 =>
      let st2 := if body.m_SubsidyClosing then ToggleSubsidyOpened st1 else st1
      let st3 :=
        if bFwd then
          { st2 with m_Subsidy := (st2.m_Subsidy + body.m_Subsidy) % subsidyMod,
                     m_Offset := (st2.m_Offset + body.m_Offset % scalarOrder) % scalarOrder }
        else
          { st2 with
              m_Subsidy := (st2.m_Subsidy + (subsidyMod - body.m_Subsidy % subsidyMod)) % subsidyMod,
              m_Offset :=
                (st2.m_Offset + (scalarOrder - body.m_Offset % scalarOrder) % scalarOrder) % scalarOrder }
      TxResult.ok st3 body1

/-! ## Lemmas: the sorted UTXO leaf list -/

theorem uLt_irrefl (a : UtxoKey) : ¬ uLt a a := by
  intro h
  have h' : a.1 < a.1 ∨ (a.1 = a.1 ∧ a.2 < a.2) := h
  rcases h' with h' | ⟨_, h'⟩ <;> exact lt_irrefl _ h'

theorem uLt_trans {a b c : UtxoKey} (h1 : uLt a b) (h2 : uLt b c) : uLt a c := by
  have h1' : a.1 < b.1 ∨ (a.1 = b.1 ∧ a.2 < b.2) := h1
  have h2' : b.1 < c.1 ∨ (b.1 = c.1 ∧ b.2 < c.2) := h2
  rcases h1' with h1' | ⟨h1a, h1b⟩ <;> rcases h2' with h2' | ⟨h2a, h2b⟩
  · exact Or.inl (lt_trans h1' h2')
  · exact Or.inl (h2a ▸ h1')
  · exact Or.inl (h1a ▸ h2')
  · exact Or.inr ⟨h1a.trans h2a, lt_trans h1b h2b⟩

theorem uLt_total {a b : UtxoKey} (h : a ≠ b) : uLt a b ∨ uLt b a := by
  rcases Nat.lt_trichotomy a.1 b.1 with h1 | h1 | h1
  · exact Or.inl (Or.inl h1)
  · rcases Nat.lt_trichotomy a.2 b.2 with h2 | h2 | h2
    · exact Or.inl (Or.inr ⟨h1, h2⟩)
    · exact absurd (Prod.ext h1 h2) h
    · exact Or.inr (Or.inr ⟨h1.symm, h2⟩)
  · exact Or.inr (Or.inl h1)

theorem uLt_ne {a b : UtxoKey} (h : uLt a b) : a ≠ b := by
  rintro rfl; exact uLt_irrefl a h

theorem utxoFind_cons (e : UtxoKey × Nat) (t : UtxoMap) (k : UtxoKey) :
    utxoFind (e :: t) k = if k = e.1 then some e.2 else utxoFind t k := rfl

theorem utxoFind_head (e : UtxoKey × Nat) (t : UtxoMap) :
    utxoFind (e :: t) e.1 = some e.2 := by
  simp [utxoFind_cons]

theorem utxoFind_eq_none_of_not_memKey {m : UtxoMap} {k : UtxoKey}
    (h : ∀ e ∈ m, k ≠ e.1) : utxoFind m k = none := by
  induction m with
  | nil => rfl
  | cons e t ih =>
    rw [utxoFind_cons, if_neg (h e (List.mem_cons_self e t))]
    exact ih fun e' he' => h e' (List.mem_cons_of_mem e he')

theorem utxoFind_mem {m : UtxoMap} {k : UtxoKey} {c : Nat}
    (h : utxoFind m k = some c) : (k, c) ∈ m := by
  induction m with
  | nil => simp [utxoFind] at h
  | cons e t ih =>
    rcases e with ⟨k1, c1⟩
    rw [utxoFind_cons] at h
    by_cases hk : k = (k1, c1).1
    · rw [if_pos hk] at h
      obtain rfl : c1 = c := by simpa using h
      simp [hk]
    · rw [if_neg hk] at h
      exact List.mem_cons_of_mem _ (ih h)

theorem uSorted_cons {e : UtxoKey × Nat} {t : UtxoMap} :
    uSorted (e :: t) ↔ (∀ e' ∈ t, uLt e.1 e'.1) ∧ uSorted t := by
  simp [uSorted, List.pairwise_cons]

theorem utxoFind_tail_of_sorted {e : UtxoKey × Nat} {t : UtxoMap}
    (h : uSorted (e :: t)) : utxoFind t e.1 = none := by
  refine utxoFind_eq_none_of_not_memKey fun e' he' hk => ?_
  have h1 := (uSorted_cons.1 h).1 e' he'
  rw [← hk] at h1
  exact uLt_irrefl _ h1

theorem utxoFind_sorted_mem {m : UtxoMap} (hs : uSorted m) {k : UtxoKey} {c : Nat}
    (h : (k, c) ∈ m) : utxoFind m k = some c := by
  induction m with
  | nil => cases h
  | cons e t ih =>
    rcases List.mem_cons.1 h with h | h
    · subst h; exact utxoFind_head _ _
    · have hne : k ≠ e.1 := by
        have := (uSorted_cons.1 hs).1 (k, c) h
        exact fun hk => uLt_irrefl e.1 (hk ▸ this)
      rw [utxoFind_cons, if_neg hne]
      exact ih (uSorted_cons.1 hs).2 h

theorem utxoFind_set_self (m : UtxoMap) (k : UtxoKey) (c : Nat) :
    utxoFind (utxoSet m k c) k = some c := by
  induction m with
  | nil => simp [utxoSet, utxoFind]
  | cons e t ih =>
    by_cases h1 : uLt k e.1
    · simp [utxoSet, if_pos h1, utxoFind]
    · by_cases h2 : k = e.1
      · simp [utxoSet, if_neg h1, if_pos h2, utxoFind]
      · simpa [utxoSet, if_neg h1, if_neg h2, utxoFind_cons, h2] using ih

theorem utxoFind_set_ne (m : UtxoMap) {k k' : UtxoKey} (c : Nat) (h : k' ≠ k) :
    utxoFind (utxoSet m k c) k' = utxoFind m k' := by
  induction m with
  | nil => simp [utxoSet, utxoFind, h]
  | cons e t ih =>
    by_cases h1 : uLt k e.1
    · simp [utxoSet, if_pos h1, utxoFind_cons, h]
    · by_cases h2 : k = e.1
      · subst h2; simp [utxoSet, if_neg h1, utxoFind_cons, h]
      · simp only [utxoSet, if_neg h1, if_neg h2, utxoFind_cons]
        by_cases h3 : k' = e.1 <;> simp [h3, ih]

theorem utxoFind_del_self {m : UtxoMap} (hs : uSorted m) (k : UtxoKey) :
    utxoFind (utxoDel m k) k = none := by
  induction m with
  | nil => rfl
  | cons e t ih =>
    by_cases h1 : k = e.1
    · subst h1
      simpa [utxoDel] using utxoFind_tail_of_sorted hs
    · simpa [utxoDel, if_neg h1, utxoFind_cons, h1] using ih (uSorted_cons.1 hs).2

theorem utxoFind_del_ne (m : UtxoMap) {k k' : UtxoKey} (h : k' ≠ k) :
    utxoFind (utxoDel m k) k' = utxoFind m k' := by
  induction m with
  | nil => rfl
  | cons e t ih =>
    by_cases h1 : k = e.1
    · subst h1; simp [utxoDel, utxoFind_cons, h]
    · simp only [utxoDel, if_neg h1, utxoFind_cons]
      by_cases h3 : k' = e.1 <;> simp [h3, ih]

theorem utxoSet_mem {m : UtxoMap} {k : UtxoKey} {c : Nat} {e : UtxoKey × Nat}
    (h : e ∈ utxoSet m k c) : e ∈ m ∨ e = (k, c) := by
  induction m with
  | nil => simpa [utxoSet] using h
  | cons e' t ih =>
    by_cases h1 : uLt k e'.1
    · rcases (by simpa [utxoSet, if_pos h1] using h : e = (k, c) ∨ e ∈ e' :: t) with h2 | h2
      · exact Or.inr h2
      · exact Or.inl h2
    · by_cases h2 : k = e'.1
      · rcases (by simpa [utxoSet, if_neg h1, if_pos h2] using h :
            e = (k, c) ∨ e ∈ t) with h3 | h3
        · exact Or.inr h3
        · exact Or.inl (List.mem_cons_of_mem e' h3)
      · rcases (by simpa [utxoSet, if_neg h1, if_neg h2] using h :
            e = e' ∨ e ∈ utxoSet t k c) with h3 | h3
        · exact Or.inl (h3 ▸ List.mem_cons_self e' t)
        · rcases ih h3 with h4 | h4
          · exact Or.inl (List.mem_cons_of_mem e' h4)
          · exact Or.inr h4

theorem uSorted_set {m : UtxoMap} (hs : uSorted m) (k : UtxoKey) (c : Nat) :
    uSorted (utxoSet m k c) := by
  induction m with
  | nil => simp [utxoSet, uSorted]
  | cons e t ih =>
    rcases uSorted_cons.1 hs with ⟨hhead, htail⟩
    by_cases h1 : uLt k e.1
    · rw [utxoSet, if_pos h1]
      refine uSorted_cons.2 ⟨?_, hs⟩
      intro e' h2
      rcases List.mem_cons.1 h2 with h3 | h3
      · exact h3 ▸ h1
      · exact uLt_trans h1 (hhead e' h3)
    · by_cases h2 : k = e.1
      · rw [utxoSet, if_neg h1, if_pos h2]
        exact uSorted_cons.2 ⟨fun e' h3 => h2 ▸ hhead e' h3, htail⟩
      · rw [utxoSet, if_neg h1, if_neg h2]
        refine uSorted_cons.2 ⟨?_, ih htail⟩
        intro e' h3
        rcases utxoSet_mem h3 with h4 | h4
        · exact hhead e' h4
        · have : uLt e.1 k := (uLt_total h2).resolve_left h1
          exact h4 ▸ this

theorem utxoDel_sublist (m : UtxoMap) (k : UtxoKey) : (utxoDel m k).Sublist m := by
  induction m with
  | nil => simp [utxoDel]
  | cons e t ih =>
    by_cases h1 : k = e.1
    · rw [utxoDel, if_pos h1]
      exact List.sublist_cons_self e t
    · rw [utxoDel, if_neg h1]
      exact List.Sublist.cons₂ e ih

theorem uSorted_del {m : UtxoMap} (hs : uSorted m) (k : UtxoKey) :
    uSorted (utxoDel m k) :=
  List.Pairwise.sublist (utxoDel_sublist m k) hs

theorem utxoDel_mem {m : UtxoMap} {k : UtxoKey} {e : UtxoKey × Nat}
    (h : e ∈ utxoDel m k) : e ∈ m :=
  (utxoDel_sublist m k).subset h

/-- Extensionality of the canonical leaf list: two sorted,
positive-count lists that hold the same count at every key are equal. -/
theorem utxo_ext {m m' : UtxoMap} (hs : uSorted m) (hs' : uSorted m')
    (hp : ∀ e ∈ m, e.2 ≠ 0) (hp' : ∀ e ∈ m', e.2 ≠ 0)
    (h : ∀ k, uCount m k = uCount m' k) : m = m' := by
  induction m generalizing m' with
  | nil =>
    cases m' with
    | nil => rfl
    | cons e' t' =>
      have h1 := h e'.1
      rw [uCount, uCount, utxoFind_head] at h1
      exact absurd h1.symm (by simpa [utxoFind] using hp' e' (List.mem_cons_self e' t'))
  | cons e t ih =>
    cases m' with
    | nil =>
      have h1 := h e.1
      rw [uCount, uCount, utxoFind_head] at h1
      exact absurd h1 (by simpa [utxoFind] using hp e (List.mem_cons_self e t))
    | cons e' t' =>
      have hkey : e.1 = e'.1 := by
        by_contra hne
        rcases uLt_total hne with hlt | hlt
        · have h1 := h e.1
          have h2 : utxoFind (e' :: t') e.1 = none := by
            refine utxoFind_eq_none_of_not_memKey ?_
            intro x hx
            rcases List.mem_cons.1 hx with h3 | h3
            · subst h3; exact uLt_ne hlt
            · exact uLt_ne (uLt_trans hlt ((uSorted_cons.1 hs').1 x h3))
          rw [uCount, uCount, utxoFind_head, h2] at h1
          exact hp e (List.mem_cons_self e t) h1
        · have h1 := h e'.1
          have h2 : utxoFind (e :: t) e'.1 = none := by
            refine utxoFind_eq_none_of_not_memKey ?_
            intro x hx
            rcases List.mem_cons.1 hx with h3 | h3
            · subst h3; exact uLt_ne hlt
            · exact uLt_ne (uLt_trans hlt ((uSorted_cons.1 hs).1 x h3))
          rw [uCount, uCount, utxoFind_head, h2] at h1
          exact hp' e' (List.mem_cons_self e' t') h1.symm
      have hval : e.2 = e'.2 := by
        have h1 := h e.1
        rw [uCount, uCount, utxoFind_head, hkey, utxoFind_head] at h1
        simpa using h1
      have hee : e = e' := Prod.ext hkey hval
      subst hee
      have htt : t = t' := by
        refine ih (uSorted_cons.1 hs).2 (uSorted_cons.1 hs').2
          (fun x hx => hp x (List.mem_cons_of_mem e hx))
          (fun x hx => hp' x (List.mem_cons_of_mem e hx)) ?_
        intro k
        by_cases hk : k = e.1
        · subst hk
          rw [uCount, uCount, utxoFind_tail_of_sorted hs, utxoFind_tail_of_sorted hs']
        · have h1 := h k
          rwa [uCount, uCount, utxoFind_cons, if_neg hk, utxoFind_cons, if_neg hk] at h1
      rw [htt]

/-! ## Lemmas: the sorted kernel id list -/

theorem kFind_cons (x : Nat) (t : KernelSet) (k : Nat) :
    kFind (x :: t) k = if k = x then true else kFind t k := rfl

theorem kFind_eq_true_iff_mem {s : KernelSet} {k : Nat} : kFind s k = true ↔ k ∈ s := by
  induction s with
  | nil => simp [kFind]
  | cons x t ih =>
    rw [kFind_cons]
    by_cases h : k = x
    · simp [h]
    · simp [h, ih]

theorem kSorted_cons {x : Nat} {t : KernelSet} :
    kSorted (x :: t) ↔ (∀ y ∈ t, x < y) ∧ kSorted t := by
  simp [kSorted, List.pairwise_cons]

theorem kFind_insert_self (s : KernelSet) (k : Nat) : kFind (kInsert s k) k = true := by
  induction s with
  | nil => simp [kInsert, kFind]
  | cons x t ih =>
    by_cases h1 : k < x
    · simp [kInsert, if_pos h1, kFind]
    · by_cases h2 : k = x
      · simp [kInsert, if_neg h1, if_pos h2, kFind, h2]
      · simpa [kInsert, if_neg h1, if_neg h2, kFind_cons, h2] using ih

theorem kFind_insert_ne (s : KernelSet) {k k' : Nat} (h : k' ≠ k) :
    kFind (kInsert s k) k' = kFind s k' := by
  induction s with
  | nil => simp [kInsert, kFind, h]
  | cons x t ih =>
    by_cases h1 : k < x
    · simp [kInsert, if_pos h1, kFind_cons, h]
    · by_cases h2 : k = x
      · subst h2; simp [kInsert, if_neg h1, kFind_cons, h]
      · simp only [kInsert, if_neg h1, if_neg h2, kFind_cons]
        by_cases h3 : k' = x <;> simp [h3, ih]

theorem kFind_eq_false_of_not_mem {s : KernelSet} {k : Nat}
    (h : ∀ y ∈ s, k ≠ y) : kFind s k = false := by
  induction s with
  | nil => rfl
  | cons x t ih =>
    rw [kFind_cons, if_neg (h x (List.mem_cons_self x t))]
    exact ih fun y hy => h y (List.mem_cons_of_mem x hy)

theorem kFind_tail_of_sorted {x : Nat} {t : KernelSet} (h : kSorted (x :: t)) :
    kFind t x = false := by
  refine kFind_eq_false_of_not_mem fun y hy hk => ?_
  exact lt_irrefl x (hk ▸ (kSorted_cons.1 h).1 y hy)

theorem kFind_delete_self {s : KernelSet} (hs : kSorted s) (k : Nat) :
    kFind (kDelete s k) k = false := by
  induction s with
  | nil => rfl
  | cons x t ih =>
    by_cases h1 : k = x
    · subst h1
      simpa [kDelete] using kFind_tail_of_sorted hs
    · simpa [kDelete, if_neg h1, kFind_cons, h1] using ih (kSorted_cons.1 hs).2

theorem kFind_delete_ne (s : KernelSet) {k k' : Nat} (h : k' ≠ k) :
    kFind (kDelete s k) k' = kFind s k' := by
  induction s with
  | nil => rfl
  | cons x t ih =>
    by_cases h1 : k = x
    · subst h1; simp [kDelete, kFind_cons, h]
    · simp only [kDelete, if_neg h1, kFind_cons]
      by_cases h3 : k' = x <;> simp [h3, ih]

theorem kInsert_mem {s : KernelSet} {k y : Nat} (h : y ∈ kInsert s k) : y ∈ s ∨ y = k := by
  induction s with
  | nil => simpa [kInsert] using h
  | cons x t ih =>
    by_cases h1 : k < x
    · rcases (by simpa [kInsert, if_pos h1] using h : y = k ∨ y ∈ x :: t) with h2 | h2
      · exact Or.inr h2
      · exact Or.inl h2
    · by_cases h2 : k = x
      · rcases (by simpa [kInsert, if_neg h1, if_pos h2] using h : y = x ∨ y ∈ t) with h3 | h3
        · exact Or.inl (h3 ▸ List.mem_cons_self x t)
        · exact Or.inl (List.mem_cons_of_mem x h3)
      · rcases (by simpa [kInsert, if_neg h1, if_neg h2] using h :
            y = x ∨ y ∈ kInsert t k) with h3 | h3
        · exact Or.inl (h3 ▸ List.mem_cons_self x t)
        · rcases ih h3 with h4 | h4
          · exact Or.inl (List.mem_cons_of_mem x h4)
          · exact Or.inr h4

theorem kSorted_insert {s : KernelSet} (hs : kSorted s) (k : Nat) :
    kSorted (kInsert s k) := by
  induction s with
  | nil => simp [kInsert, kSorted]
  | cons x t ih =>
    rcases kSorted_cons.1 hs with ⟨hhead, htail⟩
    by_cases h1 : k < x
    · rw [kInsert, if_pos h1]
      refine kSorted_cons.2 ⟨?_, hs⟩
      intro y hy
      rcases List.mem_cons.1 hy with h3 | h3
      · exact h3 ▸ h1
      · exact lt_trans h1 (hhead y h3)
    · by_cases h2 : k = x
      · rw [kInsert, if_neg h1, if_pos h2]
        exact hs
      · rw [kInsert, if_neg h1, if_neg h2]
        refine kSorted_cons.2 ⟨?_, ih htail⟩
        intro y hy
        rcases kInsert_mem hy with h4 | h4
        · exact hhead y h4
        · have h5 : x < k := by omega
          exact h4 ▸ h5

theorem kDelete_sublist (s : KernelSet) (k : Nat) : (kDelete s k).Sublist s := by
  induction s with
  | nil => simp [kDelete]
  | cons x t ih =>
    by_cases h1 : k = x
    · rw [kDelete, if_pos h1]
      exact List.sublist_cons_self x t
    · rw [kDelete, if_neg h1]
      exact List.Sublist.cons₂ x ih

theorem kSorted_delete {s : KernelSet} (hs : kSorted s) (k : Nat) :
    kSorted (kDelete s k) :=
  List.Pairwise.sublist (kDelete_sublist s k) hs

/-- Extensionality of the kernel set: two sorted id lists with the same
membership are equal. -/
theorem kernel_ext {s s' : KernelSet} (hs : kSorted s) (hs' : kSorted s')
    (h : ∀ k, kFind s k = kFind s' k) : s = s' := by
  induction s generalizing s' with
  | nil =>
    cases s' with
    | nil => rfl
    | cons x t =>
      have h1 := h x
      simp [kFind, kFind_cons] at h1
  | cons x t ih =>
    cases s' with
    | nil =>
      have h1 := h x
      simp [kFind, kFind_cons] at h1
    | cons x' t' =>
      have hkey : x = x' := by
        by_contra hne
        rcases Nat.lt_or_ge x x' with hlt | hge
        · have h1 := h x
          have h2 : kFind (x' :: t') x = false := by
            refine kFind_eq_false_of_not_mem ?_
            intro y hy
            rcases List.mem_cons.1 hy with h3 | h3
            · omega
            · have := (kSorted_cons.1 hs').1 y h3
              omega
          rw [h2] at h1
          simp [kFind_cons] at h1
        · have hlt : x' < x := by omega
          have h1 := h x'
          have h2 : kFind (x :: t) x' = false := by
            refine kFind_eq_false_of_not_mem ?_
            intro y hy
            rcases List.mem_cons.1 hy with h3 | h3
            · omega
            · have := (kSorted_cons.1 hs).1 y h3
              omega
          rw [h2] at h1
          simp [kFind_cons] at h1
      subst hkey
      have htt : t = t' := by
        refine ih (kSorted_cons.1 hs).2 (kSorted_cons.1 hs').2 ?_
        intro k
        by_cases hk : k = x
        · subst hk
          rw [kFind_tail_of_sorted hs, kFind_tail_of_sorted hs']
        · have h1 := h k
          rwa [kFind_cons, if_neg hk, kFind_cons, if_neg hk] at h1
      rw [htt]

/-! ## Pointwise specifications of the element handlers -/

/-- Validity of the stored leaf list: sorted, and every count is a
nonzero `uint32` value (invariant I4 plus the storage width). -/
def uValid (m : UtxoMap) : Prop :=
  uSorted m ∧ ∀ e ∈ m, 1 ≤ e.2 ∧ e.2 < countMod

/-- Multiplicity of a key among a list of inputs (keyed by their
commitment and current maturity field). -/
def inMult : List Input → UtxoKey → Nat
  | [], _ => 0
  | v :: t, k => (if (v.m_Commitment, v.m_Maturity) = k then 1 else 0) + inMult t k

/-- Multiplicity of a key among a list of outputs (keyed by
`outputKeyOf`). -/
def outMult (h : Height) (pHMax : Option Height) : List Output → UtxoKey → Nat
  | [], _ => 0
  | v :: t, k => (if outputKeyOf v h pHMax = some k then 1 else 0) + outMult h pHMax t k

/-- The ids of a kernel vector. -/
def kIds (l : List TxKernel) : List Nat := l.map TxKernel.m_ID

theorem outMult_le_length (h : Height) (pHMax : Option Height) (l : List Output)
    (k : UtxoKey) : outMult h pHMax l k ≤ l.length := by
  induction l with
  | nil => simp [outMult]
  | cons v t ih =>
    simp only [outMult, List.length_cons]
    by_cases hv : outputKeyOf v h pHMax = some k <;> simp [hv] <;> omega

theorem uCount_lt {m : UtxoMap} (hv : uValid m) (k : UtxoKey) : uCount m k < countMod := by
  rw [uCount]
  cases hf : utxoFind m k with
  | none => simp [countMod]
  | some c =>
    have := hv.2 _ (utxoFind_mem hf)
    simpa using this.2

theorem uCount_find_pos {m : UtxoMap} (hv : uValid m) {k : UtxoKey} {c : Nat}
    (hf : utxoFind m k = some c) : 1 ≤ c ∧ c < countMod :=
  hv.2 _ (utxoFind_mem hf)

theorem uCount_pos_find {m : UtxoMap} {k : UtxoKey} (h : 1 ≤ uCount m k) :
    utxoFind m k = some (uCount m k) := by
  rw [uCount] at *
  cases hf : utxoFind m k with
  | none => rw [hf] at h; simp at h
  | some c => simp [hf]

theorem uCount_set_self (m : UtxoMap) (k : UtxoKey) (c : Nat) :
    uCount (utxoSet m k c) k = c := by
  rw [uCount, utxoFind_set_self]; rfl

theorem uCount_set_ne (m : UtxoMap) {k k' : UtxoKey} (c : Nat) (h : k' ≠ k) :
    uCount (utxoSet m k c) k' = uCount m k' := by
  rw [uCount, utxoFind_set_ne m c h, uCount]

theorem uCount_del_self {m : UtxoMap} (hs : uSorted m) (k : UtxoKey) :
    uCount (utxoDel m k) k = 0 := by
  rw [uCount, utxoFind_del_self hs]; rfl

theorem uCount_del_ne (m : UtxoMap) {k k' : UtxoKey} (h : k' ≠ k) :
    uCount (utxoDel m k) k' = uCount m k' := by
  rw [uCount, utxoFind_del_ne m h, uCount]

theorem uValid_set {m : UtxoMap} (hv : uValid m) {c : Nat} (k : UtxoKey)
    (hc : 1 ≤ c ∧ c < countMod) : uValid (utxoSet m k c) := by
  refine ⟨uSorted_set hv.1 k c, fun e he => ?_⟩
  rcases utxoSet_mem he with h1 | h1
  · exact hv.2 e h1
  · rw [h1]; exact hc

theorem uValid_del {m : UtxoMap} (hv : uValid m) (k : UtxoKey) : uValid (utxoDel m k) :=
  ⟨uSorted_del hv.1 k, fun e he => hv.2 e (utxoDel_mem he)⟩

theorem countMod_pos : 0 < countMod := by decide

/-- The `uint32` decrement `--count` on a valid stored count. -/
theorem decr_mod {c : Nat} (h1 : 1 ≤ c) (h2 : c < countMod) :
    (c + (countMod - 1)) % countMod = c - 1 := by
  have : c + (countMod - 1) = (c - 1) + countMod := by omega
  rw [this, Nat.add_mod_right, Nat.mod_eq_of_lt (by omega)]

/-- Cancellation of a modular addition by the modular complement
(`AmountBig` subtraction after addition). -/
theorem add_mod_inv {M s : Nat} (b : Nat) (hM : 0 < M) (hs : s < M) :
    ((s + b) % M + (M - b % M)) % M = s := by
  have hb : b % M < M := Nat.mod_lt _ hM
  have h1 : (s + b) % M = (s + b % M) % M := by
    conv_lhs => rw [Nat.add_mod]
    conv_rhs => rw [Nat.add_mod, Nat.mod_mod_of_dvd b (dvd_refl M)]
  rw [h1, Nat.mod_add_mod]
  have h2 : s + b % M + (M - b % M) = s + M := by omega
  rw [h2, Nat.add_mod_right, Nat.mod_eq_of_lt hs]

/-- Cancellation of a scalar addition by the scalar negation
(`kOffset = -kOffset` on reverse). -/
theorem add_mod_inv' {M s : Nat} (b : Nat) (hM : 0 < M) (hs : s < M) :
    ((s + b % M) % M + (M - b % M) % M) % M = s := by
  by_cases h0 : b % M = 0
  · rw [h0]
    simp [Nat.mod_eq_of_lt hs, Nat.mod_self]
  · have hb : b % M < M := Nat.mod_lt _ hM
    rw [Nat.mod_eq_of_lt (a := M - b % M) (by omega), Nat.mod_add_mod]
    have h2 : s + b % M + (M - b % M) = s + M := by omega
    rw [h2, Nat.add_mod_right, Nat.mod_eq_of_lt hs]

/-- The first leaf found by the range traversal is in the tree, matches
the commitment, and respects the maturity bound. -/
theorem utxoFindRangeFirst_mem {m : UtxoMap} {c : Nat} {bound : Height}
    {e : UtxoKey × Nat} (h : utxoFindRangeFirst m c bound = some e) :
    e ∈ m ∧ e.1.1 = c ∧ e.1.2 ≤ bound := by
  induction m with
  | nil => simp [utxoFindRangeFirst] at h
  | cons e' t ih =>
    rw [utxoFindRangeFirst] at h
    by_cases h1 : e'.1.1 = c ∧ e'.1.2 ≤ bound
    · rw [if_pos h1] at h
      obtain rfl : e' = e := by simpa using h
      exact ⟨List.mem_cons_self _ _, h1⟩
    · rw [if_neg h1] at h
      have := ih h
      exact ⟨List.mem_cons_of_mem _ this.1, this.2⟩

/-- The `uint32` decrement-or-delete of the forward input handler. -/
def decCountAt (st : PState) (kk : UtxoKey) (cnt : Nat) : PState :=
  { st with m_Utxos :=
      if (cnt + (countMod - 1)) % countMod = 0 then utxoDel st.m_Utxos kk
      else utxoSet st.m_Utxos kk ((cnt + (countMod - 1)) % countMod) }

set_option maxRecDepth 4096 in
theorem hbeInput_fwd_adj_eq (st : PState) (v : Input) (h : Height) (pHMax : Option Height) :
    HandleBlockElementInput st v h pHMax true true =
      match utxoFindRangeFirst st.m_Utxos v.m_Commitment (pHMax.getD h) with
      | none => none
      | some (kk, cnt) => some (decCountAt st kk cnt, { v with m_Maturity := kk.2 }) := by
  simp only [HandleBlockElementInput, decCountAt, if_true]

set_option maxRecDepth 4096 in
theorem hbeInput_fwd_noadj_eq (st : PState) (v : Input) (h : Height) (pHMax : Option Height) :
    HandleBlockElementInput st v h pHMax true false =
      match pHMax with
      | none => none
      | some hMax =>
        if v.m_Maturity > hMax then none
        else
          match utxoFind st.m_Utxos (v.m_Commitment, v.m_Maturity) with
          | none => none
          | some cnt => some (decCountAt st (v.m_Commitment, v.m_Maturity) cnt, v) := by
  simp only [HandleBlockElementInput, decCountAt, if_true, Bool.false_eq_true, if_false]

set_option maxRecDepth 4096 in
theorem hbeInput_rev_eq (st : PState) (v : Input) (h : Height) (pHMax : Option Height)
    (adj : Bool) :
    HandleBlockElementInput st v h pHMax false adj =
      some ({ st with m_Utxos :=
        match utxoFind st.m_Utxos (v.m_Commitment, v.m_Maturity) with
        | none => utxoSet st.m_Utxos (v.m_Commitment, v.m_Maturity) 1
        | some cnt => utxoSet st.m_Utxos (v.m_Commitment, v.m_Maturity) ((cnt + 1) % countMod) },
        v) := by
  simp only [HandleBlockElementInput, Bool.false_eq_true, if_false]

/-- Effect of the decrement-or-delete step on a valid tree holding
`cnt` at `kk`. -/
theorem decCountAt_spec {st : PState} {kk : UtxoKey} {cnt : Nat}
    (hv : uValid st.m_Utxos) (hf : utxoFind st.m_Utxos kk = some cnt) :
    uValid (decCountAt st kk cnt).m_Utxos ∧
    1 ≤ uCount st.m_Utxos kk ∧
    (∀ k, uCount st.m_Utxos k =
      uCount (decCountAt st kk cnt).m_Utxos k + (if k = kk then 1 else 0)) ∧
    (decCountAt st kk cnt).m_Kernels = st.m_Kernels ∧
    (decCountAt st kk cnt).m_SubsidyOpen = st.m_SubsidyOpen ∧
    (decCountAt st kk cnt).m_Subsidy = st.m_Subsidy ∧
    (decCountAt st kk cnt).m_Offset = st.m_Offset := by
  have hcb := uCount_find_pos hv hf
  have hcnt : uCount st.m_Utxos kk = cnt := by rw [uCount, hf]; rfl
  have hdec : (cnt + (countMod - 1)) % countMod = cnt - 1 := decr_mod hcb.1 hcb.2
  have hflds : (decCountAt st kk cnt).m_Kernels = st.m_Kernels ∧
      (decCountAt st kk cnt).m_SubsidyOpen = st.m_SubsidyOpen ∧
      (decCountAt st kk cnt).m_Subsidy = st.m_Subsidy ∧
      (decCountAt st kk cnt).m_Offset = st.m_Offset := by
    refine ⟨?_, ?_, ?_, ?_⟩ <;> rw [decCountAt]
  by_cases h1 : (cnt + (countMod - 1)) % countMod = 0
  · have hc1 : cnt = 1 := by omega
    refine ⟨?_, by omega, fun k => ?_, hflds.1, hflds.2.1, hflds.2.2.1, hflds.2.2.2⟩
    · rw [decCountAt]
      simp only [if_pos h1]
      exact uValid_del hv kk
    · rw [decCountAt]
      simp only [if_pos h1]
      by_cases hk : k = kk
      · subst hk; rw [uCount_del_self hv.1, hcnt, if_pos rfl, hc1]
      · rw [uCount_del_ne _ hk, if_neg hk]
        omega
  · refine ⟨?_, by omega, fun k => ?_, hflds.1, hflds.2.1, hflds.2.2.1, hflds.2.2.2⟩
    · rw [decCountAt]
      simp only [if_neg h1]
      rw [hdec] at h1 ⊢
      exact uValid_set hv kk (by omega)
    · rw [decCountAt]
      simp only [if_neg h1]
      rw [hdec] at h1 ⊢
      by_cases hk : k = kk
      · subst hk; rw [uCount_set_self, hcnt, if_pos rfl]; omega
      · rw [uCount_set_ne _ _ hk, if_neg hk]
        omega

/-- Forward input handler: on success it decrements (or deletes at one)
the key it settled on, which is the commitment paired with the maturity
it recorded into the input. -/
theorem hbeInput_fwd_spec {st : PState} {v : Input} {h : Height}
    {pHMax : Option Height} {adj : Bool} {st1 : PState} {v1 : Input}
    (hv : uValid st.m_Utxos)
    (heq : HandleBlockElementInput st v h pHMax true adj = some (st1, v1)) :
    uValid st1.m_Utxos ∧
    1 ≤ uCount st.m_Utxos (v1.m_Commitment, v1.m_Maturity) ∧
    (∀ k, uCount st.m_Utxos k =
      uCount st1.m_Utxos k + (if k = (v1.m_Commitment, v1.m_Maturity) then 1 else 0)) ∧
    st1.m_Kernels = st.m_Kernels ∧ st1.m_SubsidyOpen = st.m_SubsidyOpen ∧
    st1.m_Subsidy = st.m_Subsidy ∧ st1.m_Offset = st.m_Offset := by
  cases adj with
  | true =>
    rw [hbeInput_fwd_adj_eq] at heq
    cases hr : utxoFindRangeFirst st.m_Utxos v.m_Commitment (pHMax.getD h) with
    | none => rw [hr] at heq; simp at heq
    | some e =>
      rcases e with ⟨kk, cnt⟩
      rw [hr] at heq
      obtain ⟨he, hec, _heb⟩ := utxoFindRangeFirst_mem hr
      have hf : utxoFind st.m_Utxos kk = some cnt := utxoFind_sorted_mem hv.1 he
      simp only [Option.some.injEq, Prod.mk.injEq] at heq
      obtain ⟨hst1, hv1⟩ := heq
      have hkey : (v1.m_Commitment, v1.m_Maturity) = kk := by
        rw [← hv1]
        show (v.m_Commitment, kk.2) = kk
        rw [← hec]
      have hmain := decCountAt_spec hv hf
      rw [hst1] at hmain
      refine ⟨hmain.1, ?_, fun k => ?_, hmain.2.2.2.1, hmain.2.2.2.2.1,
        hmain.2.2.2.2.2.1, hmain.2.2.2.2.2.2⟩
      · rw [hkey]; exact hmain.2.1
      · rw [hkey]; exact hmain.2.2.1 k
  | false =>
    rw [hbeInput_fwd_noadj_eq] at heq
    cases pHMax with
    | none => simp at heq
    | some hMax =>
      dsimp only at heq
      by_cases hmat : v.m_Maturity > hMax
      · rw [if_pos hmat] at heq; simp at heq
      · rw [if_neg hmat] at heq
        cases hf : utxoFind st.m_Utxos (v.m_Commitment, v.m_Maturity) with
        | none => rw [hf] at heq; simp at heq
        | some cnt =>
          rw [hf] at heq
          simp only [Option.some.injEq, Prod.mk.injEq] at heq
          obtain ⟨hst1, hv1⟩ := heq
          have hmain := decCountAt_spec hv hf
          rw [hst1] at hmain
          subst hv1
          exact hmain

theorem countMod_gt_one : 1 < countMod := by norm_num [countMod]

set_option maxRecDepth 4096 in
theorem hbeOutput_fwd_eq (st : PState) (v : Output) (h : Height) (pHMax : Option Height) :
    HandleBlockElementOutput st v h pHMax true =
      match outputKeyOf v h pHMax with
      | none => none
      | some k =>
        match utxoFind st.m_Utxos k with
        | none => some { st with m_Utxos := utxoSet st.m_Utxos k 1 }
        | some cnt =>
          if (cnt + 1) % countMod = 0 then none
          else some { st with m_Utxos := utxoSet st.m_Utxos k ((cnt + 1) % countMod) } := by
  simp only [HandleBlockElementOutput, if_true]

set_option maxRecDepth 4096 in
theorem hbeOutput_rev_eq (st : PState) (v : Output) (h : Height) (pHMax : Option Height) :
    HandleBlockElementOutput st v h pHMax false =
      match outputKeyOf v h pHMax with
      | none => none
      | some k =>
        match utxoFind st.m_Utxos k with
        | none => some st
        | some cnt =>
          if cnt = 1 then some { st with m_Utxos := utxoDel st.m_Utxos k }
          else some { st with m_Utxos := utxoSet st.m_Utxos k ((cnt + (countMod - 1)) % countMod) } := by
  simp only [HandleBlockElementOutput, Bool.false_eq_true, if_false]

/-- Forward output handler: on success it increments (or creates at one)
the count at the screened key, and the incremented count did not wrap. -/
theorem hbeOutput_fwd_spec {st : PState} {v : Output} {h : Height}
    {pHMax : Option Height} {st1 : PState}
    (hv : uValid st.m_Utxos)
    (heq : HandleBlockElementOutput st v h pHMax true = some st1) :
    ∃ kk, outputKeyOf v h pHMax = some kk ∧ uValid st1.m_Utxos ∧
      uCount st.m_Utxos kk + 1 < countMod ∧
      (∀ k, uCount st1.m_Utxos k = uCount st.m_Utxos k + (if k = kk then 1 else 0)) ∧
      st1.m_Kernels = st.m_Kernels ∧ st1.m_SubsidyOpen = st.m_SubsidyOpen ∧
      st1.m_Subsidy = st.m_Subsidy ∧ st1.m_Offset = st.m_Offset := by
  rw [hbeOutput_fwd_eq] at heq
  cases hkk : outputKeyOf v h pHMax with
  | none => rw [hkk] at heq; simp at heq
  | some kk =>
    rw [hkk] at heq
    dsimp only at heq
    refine ⟨kk, rfl, ?_⟩
    cases hf : utxoFind st.m_Utxos kk with
    | none =>
      rw [hf] at heq
      have hcnt : uCount st.m_Utxos kk = 0 := by rw [uCount, hf]; rfl
      obtain rfl : ({ st with m_Utxos := utxoSet st.m_Utxos kk 1 } : PState) = st1 := by
        simpa using heq
      refine ⟨uValid_set hv kk ⟨le_refl 1, countMod_gt_one⟩, by
        rw [hcnt]; exact countMod_gt_one, fun k => ?_, rfl, rfl, rfl, rfl⟩
      by_cases hk : k = kk
      · subst hk; rw [uCount_set_self, hcnt, if_pos rfl]
      · rw [uCount_set_ne _ _ hk, if_neg hk]
        omega
    | some cnt =>
      rw [hf] at heq
      dsimp only at heq
      have hcb := uCount_find_pos hv hf
      have hcnt : uCount st.m_Utxos kk = cnt := by rw [uCount, hf]; rfl
      by_cases h0 : (cnt + 1) % countMod = 0
      · rw [if_pos h0] at heq; simp at heq
      · rw [if_neg h0] at heq
        have hlt : cnt + 1 < countMod := by
          rcases Nat.lt_or_ge (cnt + 1) countMod with hx | hx
          · exact hx
          · have : cnt + 1 = countMod := by omega
            rw [this, Nat.mod_self] at h0
            exact absurd rfl h0
        have hmod : (cnt + 1) % countMod = cnt + 1 := Nat.mod_eq_of_lt hlt
        obtain rfl :
            ({ st with m_Utxos := utxoSet st.m_Utxos kk ((cnt + 1) % countMod) } : PState)
              = st1 := by simpa using heq
        refine ⟨uValid_set hv kk (by omega), by omega, fun k => ?_, rfl, rfl, rfl, rfl⟩
        by_cases hk : k = kk
        · subst hk; rw [uCount_set_self, hcnt, hmod, if_pos rfl]
        · rw [uCount_set_ne _ _ hk, if_neg hk]
          omega

/-- Reverse output handler on a key that is present: decrement, deleting
at count one. -/
theorem hbeOutput_rev_spec {st : PState} {v : Output} {h : Height}
    {pHMax : Option Height} {kk : UtxoKey}
    (hv : uValid st.m_Utxos)
    (hkk : outputKeyOf v h pHMax = some kk)
    (hpos : 1 ≤ uCount st.m_Utxos kk) :
    ∃ st1, HandleBlockElementOutput st v h pHMax false = some st1 ∧
      uValid st1.m_Utxos ∧
      (∀ k, uCount st.m_Utxos k = uCount st1.m_Utxos k + (if k = kk then 1 else 0)) ∧
      st1.m_Kernels = st.m_Kernels ∧ st1.m_SubsidyOpen = st.m_SubsidyOpen ∧
      st1.m_Subsidy = st.m_Subsidy ∧ st1.m_Offset = st.m_Offset := by
  have hf : utxoFind st.m_Utxos kk = some (uCount st.m_Utxos kk) := uCount_pos_find hpos
  have hcb := uCount_find_pos hv hf
  rw [hbeOutput_rev_eq, hkk]
  dsimp only
  rw [hf]
  dsimp only
  by_cases h1 : uCount st.m_Utxos kk = 1
  · rw [if_pos h1]
    refine ⟨_, rfl, uValid_del hv kk, fun k => ?_, rfl, rfl, rfl, rfl⟩
    by_cases hk : k = kk
    · subst hk; rw [uCount_del_self hv.1, h1, if_pos rfl]
    · rw [uCount_del_ne _ hk, if_neg hk]
      omega
  · rw [if_neg h1]
    have hdec := decr_mod hcb.1 hcb.2
    refine ⟨_, rfl, ?_, fun k => ?_, rfl, rfl, rfl, rfl⟩
    · rw [hdec]
      exact uValid_set hv kk (by omega)
    · by_cases hk : k = kk
      · subst hk; rw [hdec, uCount_set_self, if_pos rfl]
        omega
      · rw [uCount_set_ne _ _ hk, if_neg hk]
        omega

/-! ## Kernel handler specifications -/

theorem kFind_insert_point (s : KernelSet) (k x : Nat) :
    kFind (kInsert s k) x = (kFind s x || decide (x = k)) := by
  by_cases h : x = k
  · subst h; rw [kFind_insert_self]; simp
  · rw [kFind_insert_ne s h]; simp [h]

theorem kFind_delete_point {s : KernelSet} (hs : kSorted s) (k x : Nat) :
    kFind (kDelete s k) x = (kFind s x && !decide (x = k)) := by
  by_cases h : x = k
  · subst h; rw [kFind_delete_self hs]; simp
  · rw [kFind_delete_ne s h]; simp [h]

theorem hbek_add_some {st : PState} {v : TxKernel} {bFwd bIsInput : Bool}
    (hd : (bFwd != bIsInput) = true) (hf : kFind st.m_Kernels v.m_ID = false) :
    HandleBlockElementKernel st v bFwd bIsInput =
      some { st with m_Kernels := kInsert st.m_Kernels v.m_ID } := by
  simp only [HandleBlockElementKernel, hd, hf, if_true, Bool.false_eq_true, if_false]

theorem hbek_add_none {st : PState} {v : TxKernel} {bFwd bIsInput : Bool}
    (hd : (bFwd != bIsInput) = true) (hf : kFind st.m_Kernels v.m_ID = true) :
    HandleBlockElementKernel st v bFwd bIsInput = none := by
  simp only [HandleBlockElementKernel, hd, hf, if_true]

theorem hbek_rem_some {st : PState} {v : TxKernel} {bFwd bIsInput : Bool}
    (hd : (bFwd != bIsInput) = false) (hf : kFind st.m_Kernels v.m_ID = true) :
    HandleBlockElementKernel st v bFwd bIsInput =
      some { st with m_Kernels := kDelete st.m_Kernels v.m_ID } := by
  simp only [HandleBlockElementKernel, hd, hf, if_true, Bool.false_eq_true, if_false]

theorem hbek_rem_none {st : PState} {v : TxKernel} {bFwd bIsInput : Bool}
    (hd : (bFwd != bIsInput) = false) (hf : kFind st.m_Kernels v.m_ID = false) :
    HandleBlockElementKernel st v bFwd bIsInput = none := by
  simp only [HandleBlockElementKernel, hd, hf, Bool.false_eq_true, if_false]

/-! ## Phase-level specifications of the element loops -/

theorem inMult_nil (k : UtxoKey) : inMult [] k = 0 := rfl

theorem inMult_cons (v : Input) (t : List Input) (k : UtxoKey) :
    inMult (v :: t) k =
      (if (v.m_Commitment, v.m_Maturity) = k then 1 else 0) + inMult t k := rfl

theorem outMult_nil (h : Height) (pHMax : Option Height) (k : UtxoKey) :
    outMult h pHMax [] k = 0 := rfl

theorem outMult_cons (h : Height) (pHMax : Option Height) (v : Output) (t : List Output)
    (k : UtxoKey) :
    outMult h pHMax (v :: t) k =
      (if outputKeyOf v h pHMax = some k then 1 else 0) + outMult h pHMax t k := rfl

/-- Reverse input handler: unconditional re-insertion, exact when the
incremented count does not wrap. -/
theorem hbeInput_rev_spec {st : PState} {v : Input} {h : Height}
    {pHMax : Option Height} (adj : Bool)
    (hv : uValid st.m_Utxos)
    (hb : uCount st.m_Utxos (v.m_Commitment, v.m_Maturity) + 1 < countMod) :
    ∃ stA, HandleBlockElementInput st v h pHMax false adj = some (stA, v) ∧
      uValid stA.m_Utxos ∧
      (∀ k, uCount stA.m_Utxos k =
        uCount st.m_Utxos k + (if k = (v.m_Commitment, v.m_Maturity) then 1 else 0)) ∧
      stA.m_Kernels = st.m_Kernels ∧ stA.m_SubsidyOpen = st.m_SubsidyOpen ∧
      stA.m_Subsidy = st.m_Subsidy ∧ stA.m_Offset = st.m_Offset := by
  rw [hbeInput_rev_eq]
  cases hf : utxoFind st.m_Utxos (v.m_Commitment, v.m_Maturity) with
  | none =>
    dsimp only
    have hcnt : uCount st.m_Utxos (v.m_Commitment, v.m_Maturity) = 0 := by
      rw [uCount, hf]; rfl
    refine ⟨_, rfl, uValid_set hv _ ⟨le_refl 1, countMod_gt_one⟩, fun k => ?_, rfl, rfl, rfl, rfl⟩
    by_cases hk : k = (v.m_Commitment, v.m_Maturity)
    · subst hk; rw [uCount_set_self, hcnt, if_pos rfl]
    · rw [uCount_set_ne _ _ hk, if_neg hk]
      omega
  | some cnt =>
    dsimp only
    have hcnt : uCount st.m_Utxos (v.m_Commitment, v.m_Maturity) = cnt := by
      rw [uCount, hf]; rfl
    have hcb := uCount_find_pos hv hf
    have hmod : (cnt + 1) % countMod = cnt + 1 := Nat.mod_eq_of_lt (by omega)
    refine ⟨_, rfl, ?_, fun k => ?_, rfl, rfl, rfl, rfl⟩
    · rw [hmod]
      exact uValid_set hv _ (by omega)
    · by_cases hk : k = (v.m_Commitment, v.m_Maturity)
    
      · subst hk; rw [hmod, uCount_set_self, hcnt, if_pos rfl]
      · rw [uCount_set_ne _ _ hk, if_neg hk]
        omega

/-- The forward input loop: the state drops exactly the multiset of
keys recorded in the handled inputs. -/
theorem runInputs_fwd_spec {st : PState} {l : List Input} {h : Height}
    {pHMax : Option Height} {adj : Bool} {st1 : PState} {pre rest : List Input} {ok : Bool}
    (hv : uValid st.m_Utxos)
    (heq : runInputs st l h pHMax true adj = (st1, pre, rest, ok)) :
    uValid st1.m_Utxos ∧
    (∀ k, uCount st.m_Utxos k = uCount st1.m_Utxos k + inMult pre k) ∧
    (ok = true → rest = []) ∧
    st1.m_Kernels = st.m_Kernels ∧ st1.m_SubsidyOpen = st.m_SubsidyOpen ∧
    st1.m_Subsidy = st.m_Subsidy ∧ st1.m_Offset = st.m_Offset := by
  induction l generalizing st pre rest ok with
  | nil =>
    rw [runInputs] at heq
    obtain ⟨rfl, rfl, rfl, rfl⟩ :
        st = st1 ∧ ([] : List Input) = pre ∧ ([] : List Input) = rest ∧ true = ok := by
      simpa [Prod.ext_iff] using heq
    exact ⟨hv, fun k => by simp [inMult_nil], fun _ => rfl, rfl, rfl, rfl, rfl⟩
  | cons v t ih =>
    rw [runInputs] at heq
    cases hstep : HandleBlockElementInput st v h pHMax true adj with
    | none =>
      rw [hstep] at heq
      dsimp only at heq
      obtain ⟨rfl, rfl, rfl, rfl⟩ :
          st = st1 ∧ ([] : List Input) = pre ∧ v :: t = rest ∧ false = ok := by
        simpa [Prod.ext_iff] using heq
      refine ⟨hv, fun k => by simp [inMult_nil], ?_, rfl, rfl, rfl, rfl⟩
      intro hx
      exact absurd hx (by decide)
    | some p =>
      rcases p with ⟨stA, v1⟩
      rw [hstep] at heq
      dsimp only at heq
      rcases hr : runInputs stA t h pHMax true adj with ⟨stB, preB, restB, okB⟩
      rw [hr] at heq
      dsimp only at heq
      obtain ⟨rfl, rfl, rfl, rfl⟩ :
          stB = st1 ∧ v1 :: preB = pre ∧ restB = rest ∧ okB = ok := by
        simpa [Prod.ext_iff] using heq
      have hstep_spec := hbeInput_fwd_spec hv hstep
      have ihh := ih hstep_spec.1 hr
      refine ⟨ihh.1, fun k => ?_, ihh.2.2.1, ?_, ?_, ?_, ?_⟩
      · have h1 := hstep_spec.2.2.1 k
        have h2 := ihh.2.1 k
        rw [inMult_cons]
        by_cases hk : k = (v1.m_Commitment, v1.m_Maturity)
        · rw [hk] at h1 h2 ⊢
          rw [if_pos rfl] at h1
          rw [if_pos rfl]
          omega
        · rw [if_neg hk] at h1
          rw [if_neg (fun hx => hk hx.symm)]
          omega
      · rw [ihh.2.2.2.1, hstep_spec.2.2.2.1]
      · rw [ihh.2.2.2.2.1, hstep_spec.2.2.2.2.1]
      · rw [ihh.2.2.2.2.2.1, hstep_spec.2.2.2.2.2.1]
      · rw [ihh.2.2.2.2.2.2, hstep_spec.2.2.2.2.2.2]

/-- The reverse input loop never fails and re-adds exactly the recorded
keys. -/
theorem runInputs_rev_spec {st : PState} (l : List Input) {h : Height}
    {pHMax : Option Height} (adj : Bool)
    (hv : uValid st.m_Utxos)
    (hb : ∀ k, uCount st.m_Utxos k + inMult l k < countMod) :
    ∃ st1, runInputs st l h pHMax false adj = (st1, l, [], true) ∧
      uValid st1.m_Utxos ∧
      (∀ k, uCount st1.m_Utxos k = uCount st.m_Utxos k + inMult l k) ∧
      st1.m_Kernels = st.m_Kernels ∧ st1.m_SubsidyOpen = st.m_SubsidyOpen ∧
      st1.m_Subsidy = st.m_Subsidy ∧ st1.m_Offset = st.m_Offset := by
  induction l generalizing st with
  | nil =>
    exact ⟨st, by rw [runInputs], hv, fun k => by simp [inMult_nil], rfl, rfl, rfl, rfl⟩
  | cons v t ih =>
    have hb1 : uCount st.m_Utxos (v.m_Commitment, v.m_Maturity) + 1 < countMod := by
      have := hb (v.m_Commitment, v.m_Maturity)
      rw [inMult_cons, if_pos rfl] at this
      omega
    obtain ⟨stA, hstep, hvA, hptA, hkA, hoA, hsA, hfA⟩ := hbeInput_rev_spec adj hv hb1
    have hbA : ∀ k, uCount stA.m_Utxos k + inMult t k < countMod := by
      intro k
      have h1 := hptA k
      have h2 := hb k
      rw [inMult_cons] at h2
      by_cases hk : k = (v.m_Commitment, v.m_Maturity)
      · rw [hk] at h1 h2 ⊢
        rw [if_pos rfl] at h1
        rw [if_pos rfl] at h2
        omega
      · rw [if_neg hk] at h1
        rw [if_neg (fun hx => hk hx.symm)] at h2
        omega
    obtain ⟨stB, hrec, hvB, hptB, hkB, hoB, hsB, hfB⟩ := ih hvA hbA
    refine ⟨stB, ?_, hvB, fun k => ?_, by rw [hkB, hkA], by rw [hoB, hoA],
      by rw [hsB, hsA], by rw [hfB, hfA]⟩
    · rw [runInputs, hstep]
      dsimp only
      rw [hrec]
    · have h1 := hptA k
      have h2 := hptB k
      rw [inMult_cons]
      by_cases hk : k = (v.m_Commitment, v.m_Maturity)
      · rw [hk] at h1 h2 ⊢
        rw [if_pos rfl] at h1
        rw [if_pos rfl]
        omega
      · rw [if_neg hk] at h1
        rw [if_neg (fun hx => hk hx.symm)]
        omega

/-- The forward output loop: the state gains exactly the multiset of
screened output keys of the handled outputs. -/
theorem runOutputs_fwd_spec {st : PState} {l : List Output} {h : Height}
    {pHMax : Option Height} {st1 : PState} {pre rest : List Output} {ok : Bool}
    (hv : uValid st.m_Utxos)
    (heq : runOutputs st l h pHMax true = (st1, pre, rest, ok)) :
    uValid st1.m_Utxos ∧
    (∀ v ∈ pre, ∃ kk, outputKeyOf v h pHMax = some kk) ∧
    (∀ k, uCount st1.m_Utxos k = uCount st.m_Utxos k + outMult h pHMax pre k) ∧
    (ok = true → pre = l ∧ rest = []) ∧
    st1.m_Kernels = st.m_Kernels ∧ st1.m_SubsidyOpen = st.m_SubsidyOpen ∧
    st1.m_Subsidy = st.m_Subsidy ∧ st1.m_Offset = st.m_Offset := by
  induction l generalizing st pre rest ok with
  | nil =>
    rw [runOutputs] at heq
    obtain ⟨rfl, rfl, rfl, rfl⟩ :
        st = st1 ∧ ([] : List Output) = pre ∧ ([] : List Output) = rest ∧ true = ok := by
      simpa [Prod.ext_iff] using heq
    exact ⟨hv, by simp, fun k => by simp [outMult_nil], fun _ => ⟨rfl, rfl⟩, rfl, rfl, rfl, rfl⟩
  | cons v t ih =>
    rw [runOutputs] at heq
    cases hstep : HandleBlockElementOutput st v h pHMax true with
    | none =>
      rw [hstep] at heq
      dsimp only at heq
      obtain ⟨rfl, rfl, rfl, rfl⟩ :
          st = st1 ∧ ([] : List Output) = pre ∧ v :: t = rest ∧ false = ok := by
        simpa [Prod.ext_iff] using heq
      refine ⟨hv, by simp, fun k => by simp [outMult_nil], ?_, rfl, rfl, rfl, rfl⟩
      intro hx
      exact absurd hx (by decide)
    | some stA =>
      rw [hstep] at heq
      dsimp only at heq
      rcases hr : runOutputs stA t h pHMax true with ⟨stB, preB, restB, okB⟩
      rw [hr] at heq
      dsimp only at heq
      obtain ⟨rfl, rfl, rfl, rfl⟩ :
          stB = st1 ∧ v :: preB = pre ∧ restB = rest ∧ okB = ok := by
        simpa [Prod.ext_iff] using heq
      obtain ⟨kk, hkk, hvA, _hbnd, hptA, hkerA, hoA, hsA, hfA⟩ := hbeOutput_fwd_spec hv hstep
      have ihh := ih hvA hr
      refine ⟨ihh.1, ?_, fun k => ?_, ?_, ?_, ?_, ?_, ?_⟩
      · intro w hw
        rcases List.mem_cons.1 hw with hw1 | hw1
        · exact ⟨kk, hw1 ▸ hkk⟩
        · exact ihh.2.1 w hw1
      · have h1 := hptA k
        have h2 := ihh.2.2.1 k
        rw [outMult_cons]
        by_cases hk : k = kk
        · rw [hk] at h1 h2 ⊢
          rw [if_pos rfl] at h1
          rw [if_pos hkk]
          omega
        · rw [if_neg hk] at h1
          have hne : ¬ outputKeyOf v h pHMax = some k := by
            rw [hkk]
            intro hx
            exact hk (by injection hx with hx; exact hx.symm ▸ rfl)
          rw [if_neg hne]
          omega
      · intro hx
        obtain ⟨h1, h2⟩ := ihh.2.2.2.1 hx
        exact ⟨by rw [h1], h2⟩
      · rw [ihh.2.2.2.2.1, hkerA]
      · rw [ihh.2.2.2.2.2.1, hoA]
      · rw [ihh.2.2.2.2.2.2.1, hsA]
      · rw [ihh.2.2.2.2.2.2.2, hfA]

/-- The reverse output loop never fails when every screened key holds
enough count, and removes exactly the multiset of output keys. -/
theorem runOutputs_rev_spec {st : PState} (l : List Output) {h : Height}
    {pHMax : Option Height}
    (hv : uValid st.m_Utxos)
    (hkeys : ∀ v ∈ l, ∃ kk, outputKeyOf v h pHMax = some kk)
    (hb : ∀ k, outMult h pHMax l k ≤ uCount st.m_Utxos k) :
    ∃ st1, runOutputs st l h pHMax false = (st1, l, [], true) ∧
      uValid st1.m_Utxos ∧
      (∀ k, uCount st.m_Utxos k = uCount st1.m_Utxos k + outMult h pHMax l k) ∧
      st1.m_Kernels = st.m_Kernels ∧ st1.m_SubsidyOpen = st.m_SubsidyOpen ∧
      st1.m_Subsidy = st.m_Subsidy ∧ st1.m_Offset = st.m_Offset := by
  induction l generalizing st with
  | nil =>
    exact ⟨st, by rw [runOutputs], hv, fun k => by simp [outMult_nil], rfl, rfl, rfl, rfl⟩
  | cons v t ih =>
    obtain ⟨kk, hkk⟩ := hkeys v (List.mem_cons_self v t)
    have hpos : 1 ≤ uCount st.m_Utxos kk := by
      have := hb kk
      rw [outMult_cons, if_pos hkk] at this
      omega
    obtain ⟨stA, hstep, hvA, hptA, hkerA, hoA, hsA, hfA⟩ := hbeOutput_rev_spec hv hkk hpos
    have hbA : ∀ k, outMult h pHMax t k ≤ uCount stA.m_Utxos k := by
      intro k
      have h1 := hptA k
      have h2 := hb k
      rw [outMult_cons] at h2
      by_cases hk : k = kk
      · rw [hk] at h1 h2 ⊢
        rw [if_pos rfl] at h1
        rw [if_pos hkk] at h2
        omega
      · rw [if_neg hk] at h1
        have hne : ¬ outputKeyOf v h pHMax = some k := by
          rw [hkk]
          intro hx
          exact hk (by injection hx with hx; exact hx.symm ▸ rfl)
        rw [if_neg hne] at h2
        omega
    obtain ⟨stB, hrec, hvB, hptB, hkerB, hoB, hsB, hfB⟩ :=
      ih hvA (fun w hw => hkeys w (List.mem_cons_of_mem v hw)) hbA
    refine ⟨stB, ?_, hvB, fun k => ?_, by rw [hkerB, hkerA], by rw [hoB, hoA],
      by rw [hsB, hsA], by rw [hfB, hfA]⟩
    · rw [runOutputs, hstep]
      dsimp only
      rw [hrec]
    · have h1 := hptA k
      have h2 := hptB k
      rw [outMult_cons]
      by_cases hk : k = kk
      · rw [hk] at h1 h2 ⊢
        rw [if_pos rfl] at h1
        rw [if_pos hkk]
        omega
      · rw [if_neg hk] at h1
        have hne : ¬ outputKeyOf v h pHMax = some k := by
          rw [hkk]
          intro hx
          exact hk (by injection hx with hx; exact hx.symm ▸ rfl)
        rw [if_neg hne]
        omega

theorem kIds_nil : kIds [] = [] := rfl

theorem kIds_cons (v : TxKernel) (t : List TxKernel) :
    kIds (v :: t) = v.m_ID :: kIds t := rfl

/-- The kernel loop in insertion direction (`bFwd != bIsInput`): the
handled ids are fresh, mutually distinct, and all inserted. -/
theorem runKernels_add_spec {st : PState} {l : List TxKernel} {bFwd bIsInput : Bool}
    {st1 : PState} {pre rest : List TxKernel} {ok : Bool}
    (hs : kSorted st.m_Kernels) (hd : (bFwd != bIsInput) = true)
    (heq : runKernels st l bFwd bIsInput = (st1, pre, rest, ok)) :
    kSorted st1.m_Kernels ∧ (kIds pre).Nodup ∧
    (∀ x ∈ kIds pre, kFind st.m_Kernels x = false) ∧
    (∀ x, kFind st1.m_Kernels x = (kFind st.m_Kernels x || decide (x ∈ kIds pre))) ∧
    (ok = true → pre = l ∧ rest = []) ∧
    st1.m_Utxos = st.m_Utxos ∧ st1.m_SubsidyOpen = st.m_SubsidyOpen ∧
    st1.m_Subsidy = st.m_Subsidy ∧ st1.m_Offset = st.m_Offset := by
  induction l generalizing st pre rest ok with
  | nil =>
    rw [runKernels] at heq
    obtain ⟨rfl, rfl, rfl, rfl⟩ :
        st = st1 ∧ ([] : List TxKernel) = pre ∧ ([] : List TxKernel) = rest ∧ true = ok := by
      simpa [Prod.ext_iff] using heq
    exact ⟨hs, by simp [kIds_nil], by simp [kIds_nil], fun x => by simp [kIds_nil],
      fun _ => ⟨rfl, rfl⟩, rfl, rfl, rfl, rfl⟩
  | cons v t ih =>
    rw [runKernels] at heq
    cases hfind : kFind st.m_Kernels v.m_ID with
    | true =>
      rw [hbek_add_none hd hfind] at heq
      dsimp only at heq
      obtain ⟨rfl, rfl, rfl, rfl⟩ :
          st = st1 ∧ ([] : List TxKernel) = pre ∧ v :: t = rest ∧ false = ok := by
        simpa [Prod.ext_iff] using heq
      refine ⟨hs, by simp [kIds_nil], by simp [kIds_nil], fun x => by simp [kIds_nil],
        ?_, rfl, rfl, rfl, rfl⟩
      intro hx
      exact absurd hx (by decide)
    | false =>
      rw [hbek_add_some hd hfind] at heq
      dsimp only at heq
      rcases hr : runKernels { st with m_Kernels := kInsert st.m_Kernels v.m_ID } t bFwd bIsInput
        with ⟨stB, preB, restB, okB⟩
      rw [hr] at heq
      dsimp only at heq
      obtain ⟨rfl, rfl, rfl, rfl⟩ :
          stB = st1 ∧ v :: preB = pre ∧ restB = rest ∧ okB = ok := by
        simpa [Prod.ext_iff] using heq
      have hsA : kSorted (kInsert st.m_Kernels v.m_ID) := kSorted_insert hs v.m_ID
      have ihh := ih hsA hr
      have hpointA : ∀ x, kFind (kInsert st.m_Kernels v.m_ID) x =
          (kFind st.m_Kernels x || decide (x = v.m_ID)) :=
        fun x => kFind_insert_point st.m_Kernels v.m_ID x
      have hfresh : ∀ x ∈ kIds preB, kFind st.m_Kernels x = false ∧ x ≠ v.m_ID := by
        intro x hx
        have h1 := ihh.2.2.1 x hx
        rw [hpointA x] at h1
        constructor
        · cases hx2 : kFind st.m_Kernels x
          · rfl
          · rw [hx2] at h1; simp at h1
        · intro hx2
          rw [hx2] at h1
          simp at h1
      refine ⟨ihh.1, ?_, ?_, fun x => ?_, ?_, ?_, ?_, ?_, ?_⟩
      · rw [kIds_cons]
        refine List.Nodup.cons ?_ ihh.2.1
        intro hx
        exact (hfresh v.m_ID hx).2 rfl
      · intro x hx
        rw [kIds_cons] at hx
        rcases List.mem_cons.1 hx with hx1 | hx1
        · exact hx1 ▸ hfind
        · exact (hfresh x hx1).1
      · have h1 := ihh.2.2.2.1 x
        rw [hpointA x] at h1
        rw [h1, kIds_cons]
        by_cases hx1 : x = v.m_ID
        · simp [hx1]
        · by_cases hx2 : x ∈ kIds preB <;> simp [hx1, hx2]
      · intro hx
        obtain ⟨h1, h2⟩ := ihh.2.2.2.2.1 hx
        exact ⟨by rw [h1], h2⟩
      · exact ihh.2.2.2.2.2.1
      · exact ihh.2.2.2.2.2.2.1
      · exact ihh.2.2.2.2.2.2.2.1
      · exact ihh.2.2.2.2.2.2.2.2

/-- The kernel loop in deletion direction (`bFwd == bIsInput`): the
handled ids are present, mutually distinct, and all removed. -/
theorem runKernels_rem_spec {st : PState} {l : List TxKernel} {bFwd bIsInput : Bool}
    {st1 : PState} {pre rest : List TxKernel} {ok : Bool}
    (hs : kSorted st.m_Kernels) (hd : (bFwd != bIsInput) = false)
    (heq : runKernels st l bFwd bIsInput = (st1, pre, rest, ok)) :
    kSorted st1.m_Kernels ∧ (kIds pre).Nodup ∧
    (∀ x ∈ kIds pre, kFind st.m_Kernels x = true) ∧
    (∀ x, kFind st1.m_Kernels x = (kFind st.m_Kernels x && !decide (x ∈ kIds pre))) ∧
    (ok = true → pre = l ∧ rest = []) ∧
    st1.m_Utxos = st.m_Utxos ∧ st1.m_SubsidyOpen = st.m_SubsidyOpen ∧
    st1.m_Subsidy = st.m_Subsidy ∧ st1.m_Offset = st.m_Offset := by
  induction l generalizing st pre rest ok with
  | nil =>
    rw [runKernels] at heq
    obtain ⟨rfl, rfl, rfl, rfl⟩ :
        st = st1 ∧ ([] : List TxKernel) = pre ∧ ([] : List TxKernel) = rest ∧ true = ok := by
      simpa [Prod.ext_iff] using heq
    exact ⟨hs, by simp [kIds_nil], by simp [kIds_nil], fun x => by simp [kIds_nil],
      fun _ => ⟨rfl, rfl⟩, rfl, rfl, rfl, rfl⟩
  | cons v t ih =>
    rw [runKernels] at heq
    cases hfind : kFind st.m_Kernels v.m_ID with
    | false =>
      rw [hbek_rem_none hd hfind] at heq
      dsimp only at heq
      obtain ⟨rfl, rfl, rfl, rfl⟩ :
          st = st1 ∧ ([] : List TxKernel) = pre ∧ v :: t = rest ∧ false = ok := by
        simpa [Prod.ext_iff] using heq
      refine ⟨hs, by simp [kIds_nil], by simp [kIds_nil], fun x => by simp [kIds_nil],
        ?_, rfl, rfl, rfl, rfl⟩
      intro hx
      exact absurd hx (by decide)
    | true =>
      rw [hbek_rem_some hd hfind] at heq
      dsimp only at heq
      rcases hr : runKernels { st with m_Kernels := kDelete st.m_Kernels v.m_ID } t bFwd bIsInput
        with ⟨stB, preB, restB, okB⟩
      rw [hr] at heq
      dsimp only at heq
      obtain ⟨rfl, rfl, rfl, rfl⟩ :
          stB = st1 ∧ v :: preB = pre ∧ restB = rest ∧ okB = ok := by
        simpa [Prod.ext_iff] using heq
      have hsA : kSorted (kDelete st.m_Kernels v.m_ID) := kSorted_delete hs v.m_ID
      have ihh := ih hsA hr
      have hpointA : ∀ x, kFind (kDelete st.m_Kernels v.m_ID) x =
          (kFind st.m_Kernels x && !decide (x = v.m_ID)) :=
        fun x => kFind_delete_point hs v.m_ID x
      have hpres : ∀ x ∈ kIds preB, kFind st.m_Kernels x = true ∧ x ≠ v.m_ID := by
        intro x hx
        have h1 := ihh.2.2.1 x hx
        rw [hpointA x] at h1
        constructor
        · cases hx2 : kFind st.m_Kernels x
          · rw [hx2] at h1; simp at h1
          · rfl
        · intro hx2
          rw [hx2] at h1
          simp at h1
      refine ⟨ihh.1, ?_, ?_, fun x => ?_, ?_, ?_, ?_, ?_, ?_⟩
      · rw [kIds_cons]
        refine List.Nodup.cons ?_ ihh.2.1
        intro hx
        exact (hpres v.m_ID hx).2 rfl
      · intro x hx
        rw [kIds_cons] at hx
        rcases List.mem_cons.1 hx with hx1 | hx1
        · exact hx1 ▸ hfind
        · exact (hpres x hx1).1
      · have h1 := ihh.2.2.2.1 x
        rw [hpointA x] at h1
        rw [h1, kIds_cons]
        by_cases hx1 : x = v.m_ID
        · simp [hx1]
        · by_cases hx2 : x ∈ kIds preB <;> simp [hx1, hx2]
      · intro hx
        obtain ⟨h1, h2⟩ := ihh.2.2.2.2.1 hx
        exact ⟨by rw [h1], h2⟩
      · exact ihh.2.2.2.2.2.1
      · exact ihh.2.2.2.2.2.2.1
      · exact ihh.2.2.2.2.2.2.2.1
      · exact ihh.2.2.2.2.2.2.2.2

/-! ## The rollback walks -/

theorem rollbackInputs_nil (st : PState) (h : Height) (pHMax : Option Height) :
    rollbackInputs st [] h pHMax = st := rfl

theorem rollbackInputs_cons (st : PState) (v : Input) (t : List Input) (h : Height)
    (pHMax : Option Height) :
    rollbackInputs st (v :: t) h pHMax =
      rollbackInputs
        (((HandleBlockElementInput st v h pHMax false false).map Prod.fst).getD st)
        t h pHMax := rfl

theorem rollbackOutputs_nil (st : PState) (h : Height) (pHMax : Option Height) :
    rollbackOutputs st [] h pHMax = st := rfl

theorem rollbackOutputs_cons (st : PState) (v : Output) (t : List Output) (h : Height)
    (pHMax : Option Height) :
    rollbackOutputs st (v :: t) h pHMax =
      rollbackOutputs ((HandleBlockElementOutput st v h pHMax false).getD st) t h pHMax := rfl

theorem rollbackKernels_nil (st : PState) (bIsInput : Bool) :
    rollbackKernels st [] bIsInput = st := rfl

theorem rollbackKernels_cons (st : PState) (v : TxKernel) (t : List TxKernel)
    (bIsInput : Bool) :
    rollbackKernels st (v :: t) bIsInput =
      rollbackKernels ((HandleBlockElementKernel st v false bIsInput).getD st) t bIsInput := rfl

/-- The input rollback walk re-adds exactly the recorded keys. -/
theorem rollbackInputs_spec {st : PState} (l : List Input) {h : Height}
    {pHMax : Option Height}
    (hv : uValid st.m_Utxos)
    (hb : ∀ k, uCount st.m_Utxos k + inMult l k < countMod) :
    uValid (rollbackInputs st l h pHMax).m_Utxos ∧
    (∀ k, uCount (rollbackInputs st l h pHMax).m_Utxos k = uCount st.m_Utxos k + inMult l k) ∧
    (rollbackInputs st l h pHMax).m_Kernels = st.m_Kernels ∧
    (rollbackInputs st l h pHMax).m_SubsidyOpen = st.m_SubsidyOpen ∧
    (rollbackInputs st l h pHMax).m_Subsidy = st.m_Subsidy ∧
    (rollbackInputs st l h pHMax).m_Offset = st.m_Offset := by
  induction l generalizing st with
  | nil =>
    rw [rollbackInputs_nil]
    exact ⟨hv, fun k => by simp [inMult_nil], rfl, rfl, rfl, rfl⟩
  | cons v t ih =>
    have hb1 : uCount st.m_Utxos (v.m_Commitment, v.m_Maturity) + 1 < countMod := by
      have := hb (v.m_Commitment, v.m_Maturity)
      rw [inMult_cons, if_pos rfl] at this
      omega
    obtain ⟨stA, hstep, hvA, hptA, hkA, hoA, hsA, hfA⟩ :=
      hbeInput_rev_spec false hv hb1
    have hbA : ∀ k, uCount stA.m_Utxos k + inMult t k < countMod := by
      intro k
      have h1 := hptA k
      have h2 := hb k
      rw [inMult_cons] at h2
      by_cases hk : k = (v.m_Commitment, v.m_Maturity)
      · rw [hk] at h1 h2 ⊢
        rw [if_pos rfl] at h1
        rw [if_pos rfl] at h2
        omega
      · rw [if_neg hk] at h1
        rw [if_neg (fun hx => hk hx.symm)] at h2
        omega
    have ihh := ih hvA hbA
    rw [rollbackInputs_cons, hstep, Option.map_some', Option.getD_some]
    dsimp only
    refine ⟨ihh.1, fun k => ?_, by rw [ihh.2.2.1, hkA], by rw [ihh.2.2.2.1, hoA],
      by rw [ihh.2.2.2.2.1, hsA], by rw [ihh.2.2.2.2.2, hfA]⟩
    have h1 := hptA k
    have h2 := ihh.2.1 k
    rw [inMult_cons]
    by_cases hk : k = (v.m_Commitment, v.m_Maturity)
    · rw [hk] at h1 h2 ⊢
      rw [if_pos rfl] at h1
      rw [if_pos rfl]
      omega
    · rw [if_neg hk] at h1
      rw [if_neg (fun hx => hk hx.symm)]
      omega

/-- The output rollback walk removes exactly the screened output keys. -/
theorem rollbackOutputs_spec {st : PState} (l : List Output) {h : Height}
    {pHMax : Option Height}
    (hv : uValid st.m_Utxos)
    (hkeys : ∀ v ∈ l, ∃ kk, outputKeyOf v h pHMax = some kk)
    (hb : ∀ k, outMult h pHMax l k ≤ uCount st.m_Utxos k) :
    uValid (rollbackOutputs st l h pHMax).m_Utxos ∧
    (∀ k, uCount st.m_Utxos k =
      uCount (rollbackOutputs st l h pHMax).m_Utxos k + outMult h pHMax l k) ∧
    (rollbackOutputs st l h pHMax).m_Kernels = st.m_Kernels ∧
    (rollbackOutputs st l h pHMax).m_SubsidyOpen = st.m_SubsidyOpen ∧
    (rollbackOutputs st l h pHMax).m_Subsidy = st.m_Subsidy ∧
    (rollbackOutputs st l h pHMax).m_Offset = st.m_Offset := by
  induction l generalizing st with
  | nil =>
    rw [rollbackOutputs_nil]
    exact ⟨hv, fun k => by simp [outMult_nil], rfl, rfl, rfl, rfl⟩
  | cons v t ih =>
    obtain ⟨kk, hkk⟩ := hkeys v (List.mem_cons_self v t)
    have hpos : 1 ≤ uCount st.m_Utxos kk := by
      have := hb kk
      rw [outMult_cons, if_pos hkk] at this
      omega
    obtain ⟨stA, hstep, hvA, hptA, hkerA, hoA, hsA, hfA⟩ := hbeOutput_rev_spec hv hkk hpos
    have hbA : ∀ k, outMult h pHMax t k ≤ uCount stA.m_Utxos k := by
      intro k
      have h1 := hptA k
      have h2 := hb k
      rw [outMult_cons] at h2
      by_cases hk : k = kk
      · rw [hk] at h1 h2 ⊢
        rw [if_pos rfl] at h1
        rw [if_pos hkk] at h2
        omega
      · rw [if_neg hk] at h1
        have hne : ¬ outputKeyOf v h pHMax = some k := by
          rw [hkk]
          intro hx
          exact hk (by injection hx with hx; exact hx.symm ▸ rfl)
        rw [if_neg hne] at h2
        omega
    have ihh := ih hvA (fun w hw => hkeys w (List.mem_cons_of_mem v hw)) hbA
    rw [rollbackOutputs_cons, hstep, Option.getD_some]
    refine ⟨ihh.1, fun k => ?_, by rw [ihh.2.2.1, hkerA], by rw [ihh.2.2.2.1, hoA],
      by rw [ihh.2.2.2.2.1, hsA], by rw [ihh.2.2.2.2.2, hfA]⟩
    have h1 := hptA k
    have h2 := ihh.2.1 k
    rw [outMult_cons]
    by_cases hk : k = kk
    · rw [hk] at h1 h2 ⊢
      rw [if_pos rfl] at h1
      rw [if_pos hkk]
      omega
    · rw [if_neg hk] at h1
      have hne : ¬ outputKeyOf v h pHMax = some k := by
        rw [hkk]
        intro hx
        exact hk (by injection hx with hx; exact hx.symm ▸ rfl)
      rw [if_neg hne]
      omega

/-- The kernel rollback walk over an input-kernel group re-inserts all
the (fresh, distinct) ids. -/
theorem rollbackKernels_ins_spec {st : PState} (l : List TxKernel)
    (hs : kSorted st.m_Kernels) (hnd : (kIds l).Nodup)
    (habs : ∀ x ∈ kIds l, kFind st.m_Kernels x = false) :
    kSorted (rollbackKernels st l true).m_Kernels ∧
    (∀ x, kFind (rollbackKernels st l true).m_Kernels x =
      (kFind st.m_Kernels x || decide (x ∈ kIds l))) ∧
    (rollbackKernels st l true).m_Utxos = st.m_Utxos ∧
    (rollbackKernels st l true).m_SubsidyOpen = st.m_SubsidyOpen ∧
    (rollbackKernels st l true).m_Subsidy = st.m_Subsidy ∧
    (rollbackKernels st l true).m_Offset = st.m_Offset := by
  induction l generalizing st with
  | nil =>
    rw [rollbackKernels_nil]
    exact ⟨hs, fun x => by simp [kIds_nil], rfl, rfl, rfl, rfl⟩
  | cons v t ih =>
    have hfind : kFind st.m_Kernels v.m_ID = false :=
      habs v.m_ID (by rw [kIds_cons]; exact List.mem_cons_self _ _)
    rw [rollbackKernels_cons, hbek_add_some (by decide) hfind, Option.getD_some]
    have hsA : kSorted (kInsert st.m_Kernels v.m_ID) := kSorted_insert hs v.m_ID
    have hndA : (kIds t).Nodup := by
      rw [kIds_cons] at hnd
      exact hnd.of_cons
    have habsA : ∀ x ∈ kIds t, kFind (kInsert st.m_Kernels v.m_ID) x = false := by
      intro x hx
      rw [kFind_insert_point]
      have h1 : kFind st.m_Kernels x = false :=
        habs x (by rw [kIds_cons]; exact List.mem_cons_of_mem _ hx)
      have h2 : x ≠ v.m_ID := by
        intro hx2
        rw [kIds_cons] at hnd
        exact (List.nodup_cons.1 hnd).1 (hx2 ▸ hx)
      simp [h1, h2]
    have ihh := @ih { st with m_Kernels := kInsert st.m_Kernels v.m_ID } hsA hndA habsA
    refine ⟨ihh.1, fun x => ?_, by rw [ihh.2.2.1], by rw [ihh.2.2.2.1],
      by rw [ihh.2.2.2.2.1], by rw [ihh.2.2.2.2.2]⟩
    rw [ihh.2.1 x, kFind_insert_point, kIds_cons]
    by_cases hx1 : x = v.m_ID
    · simp [hx1]
    · by_cases hx2 : x ∈ kIds t <;> simp [hx1, hx2]

/-- The kernel rollback walk over an output-kernel group removes all the
(present, distinct) ids. -/
theorem rollbackKernels_rem_spec {st : PState} (l : List TxKernel)
    (hs : kSorted st.m_Kernels) (hnd : (kIds l).Nodup)
    (hpres : ∀ x ∈ kIds l, kFind st.m_Kernels x = true) :
    kSorted (rollbackKernels st l false).m_Kernels ∧
    (∀ x, kFind (rollbackKernels st l false).m_Kernels x =
      (kFind st.m_Kernels x && !decide (x ∈ kIds l))) ∧
    (rollbackKernels st l false).m_Utxos = st.m_Utxos ∧
    (rollbackKernels st l false).m_SubsidyOpen = st.m_SubsidyOpen ∧
    (rollbackKernels st l false).m_Subsidy = st.m_Subsidy ∧
    (rollbackKernels st l false).m_Offset = st.m_Offset := by
  induction l generalizing st with
  | nil =>
    rw [rollbackKernels_nil]
    exact ⟨hs, fun x => by simp [kIds_nil], rfl, rfl, rfl, rfl⟩
  | cons v t ih =>
    have hfind : kFind st.m_Kernels v.m_ID = true :=
      hpres v.m_ID (by rw [kIds_cons]; exact List.mem_cons_self _ _)
    rw [rollbackKernels_cons, hbek_rem_some (by decide) hfind, Option.getD_some]
    have hsA : kSorted (kDelete st.m_Kernels v.m_ID) := kSorted_delete hs v.m_ID
    have hndA : (kIds t).Nodup := by
      rw [kIds_cons] at hnd
      exact hnd.of_cons
    have hpresA : ∀ x ∈ kIds t, kFind (kDelete st.m_Kernels v.m_ID) x = true := by
      intro x hx
      rw [kFind_delete_point hs]
      have h1 : kFind st.m_Kernels x = true :=
        hpres x (by rw [kIds_cons]; exact List.mem_cons_of_mem _ hx)
      have h2 : x ≠ v.m_ID := by
        intro hx2
        rw [kIds_cons] at hnd
        exact (List.nodup_cons.1 hnd).1 (hx2 ▸ hx)
      simp [h1, h2]
    have ihh := @ih { st with m_Kernels := kDelete st.m_Kernels v.m_ID } hsA hndA hpresA
    refine ⟨ihh.1, fun x => ?_, by rw [ihh.2.2.1], by rw [ihh.2.2.2.1],
      by rw [ihh.2.2.2.2.1], by rw [ihh.2.2.2.2.2]⟩
    rw [ihh.2.1 x, kFind_delete_point hs, kIds_cons]
    by_cases hx1 : x = v.m_ID
    · simp [hx1]
    · by_cases hx2 : x ∈ kIds t <;> simp [hx1, hx2]

/-! ## Restoration after a failed forward apply -/

/-- Two states with valid accumulators, the same counts, the same kernel
membership and the same extras are equal. -/
theorem pstate_eq_of_pointwise {a b : PState}
    (hva : uValid a.m_Utxos) (hvb : uValid b.m_Utxos)
    (hka : kSorted a.m_Kernels) (hkb : kSorted b.m_Kernels)
    (hpu : ∀ k, uCount a.m_Utxos k = uCount b.m_Utxos k)
    (hpk : ∀ x, kFind a.m_Kernels x = kFind b.m_Kernels x)
    (ho : a.m_SubsidyOpen = b.m_SubsidyOpen) (hs : a.m_Subsidy = b.m_Subsidy)
    (hf : a.m_Offset = b.m_Offset) : a = b := by
  have h1 : a.m_Utxos = b.m_Utxos :=
    utxo_ext hva.1 hvb.1 (fun e he => by have := hva.2 e he; omega)
      (fun e he => by have := hvb.2 e he; omega) hpu
  have h2 : a.m_Kernels = b.m_Kernels := kernel_ext hka hkb hpk
  exact PState.ext h1 h2 ho hs hf

/-- The output-then-input rollback composite undoes exactly the handled
outputs and re-adds exactly the handled inputs. -/
theorem rollbackOutsIns_spec {stX st1 : PState} (outsPre : List Output)
    (insPre : List Input) {h : Height} {pHMax : Option Height}
    (hvX : uValid stX.m_Utxos)
    (hkeys : ∀ v ∈ outsPre, ∃ kk, outputKeyOf v h pHMax = some kk)
    (hXc : ∀ k, uCount stX.m_Utxos k = uCount st1.m_Utxos k + outMult h pHMax outsPre k)
    (hlow : ∀ k, uCount st1.m_Utxos k + inMult insPre k < countMod) :
    uValid (rollbackInputs (rollbackOutputs stX outsPre h pHMax) insPre h pHMax).m_Utxos ∧
    (∀ k, uCount (rollbackInputs (rollbackOutputs stX outsPre h pHMax) insPre h pHMax).m_Utxos k
      = uCount st1.m_Utxos k + inMult insPre k) ∧
    (rollbackInputs (rollbackOutputs stX outsPre h pHMax) insPre h pHMax).m_Kernels
      = stX.m_Kernels ∧
    (rollbackInputs (rollbackOutputs stX outsPre h pHMax) insPre h pHMax).m_SubsidyOpen
      = stX.m_SubsidyOpen ∧
    (rollbackInputs (rollbackOutputs stX outsPre h pHMax) insPre h pHMax).m_Subsidy
      = stX.m_Subsidy ∧
    (rollbackInputs (rollbackOutputs stX outsPre h pHMax) insPre h pHMax).m_Offset
      = stX.m_Offset := by
  have hbOuts : ∀ k, outMult h pHMax outsPre k ≤ uCount stX.m_Utxos k := by
    intro k
    have := hXc k
    omega
  obtain ⟨hvO, hptO, hkO, hoO, hsO, hfO⟩ := rollbackOutputs_spec outsPre hvX hkeys hbOuts
  have hptO' : ∀ k, uCount (rollbackOutputs stX outsPre h pHMax).m_Utxos k
      = uCount st1.m_Utxos k := by
    intro k
    have h1 := hptO k
    have h2 := hXc k
    omega
  have hbIns' : ∀ k,
      uCount (rollbackOutputs stX outsPre h pHMax).m_Utxos k + inMult insPre k < countMod := by
    intro k
    rw [hptO' k]
    exact hlow k
  obtain ⟨hvR, hptR, hkR, hoR, hsR, hfR⟩ := rollbackInputs_spec insPre hvO hbIns'
  refine ⟨hvR, fun k => ?_, by rw [hkR, hkO], by rw [hoR, hoO], by rw [hsR, hsO],
    by rw [hfR, hfO]⟩
  have h1 := hptR k
  have h2 := hptO' k
  omega

set_option maxHeartbeats 1000000 in
/-- A failed forward `HandleValidatedTx` call leaves the accumulators
exactly as they were: the elements handled before the failure are
unapplied by the rollback walks. -/
theorem hvtx_fwd_failed_restores {st : PState} {body : BlockBody} {h : Height}
    {adj : Bool} {pHMax : Option Height} {st' : PState} {body' : BlockBody}
    (hu : uValid st.m_Utxos) (hks : kSorted st.m_Kernels)
    (heq : HandleValidatedTx st body h true adj pHMax = TxResult.failed st' body') :
    st' = st := by
  rw [HandleValidatedTx] at heq
  rcases hri : runInputs st body.m_vInputs h pHMax true adj with ⟨st1, insPre, insRest, okI⟩
  rw [hri] at heq
  dsimp only at heq
  obtain ⟨hv1, hpt1, _, hker1, ho1, hs1, hf1⟩ := runInputs_fwd_spec hu hri
  have hbIns : ∀ k, uCount st1.m_Utxos k + inMult insPre k < countMod := by
    intro k
    have h1 := hpt1 k
    have h2 := uCount_lt hu k
    omega
  cases okI with
  | false =>
    simp only [Bool.false_eq_true, if_false, Bool.not_true] at heq
    injection heq with h1 _h2
    subst h1
    obtain ⟨hvR, hptR, hkR, hoR, hsR, hfR⟩ := rollbackInputs_spec insPre hv1 hbIns
    refine pstate_eq_of_pointwise hvR hu (by rw [hkR, hker1]; exact hks) hks
      (fun k => ?_) (fun x => by rw [hkR, hker1]) (by rw [hoR, ho1]) (by rw [hsR, hs1])
      (by rw [hfR, hf1])
    have h1 := hptR k
    have h2 := hpt1 k
    omega
  | true =>
    simp only [if_true] at heq
    rcases hro : runOutputs st1 body.m_vOutputs h pHMax true with ⟨st2, outsPre, outsRest, okO⟩
    rw [hro] at heq
    dsimp only at heq
    obtain ⟨hv2, hkeys2, hpt2, _hok2, hker2, ho2, hs2, hf2⟩ := runOutputs_fwd_spec hv1 hro
    cases okO with
    | false =>
      simp only [Bool.false_eq_true, if_false, Bool.not_true] at heq
      injection heq with h1 _h2
      subst h1
      obtain ⟨hvR, hptR, hkR, hoR, hsR, hfR⟩ :=
        rollbackOutsIns_spec outsPre insPre hv2 hkeys2 hpt2 hbIns
      refine pstate_eq_of_pointwise hvR hu
        (by rw [hkR, hker2, hker1]; exact hks) hks
        (fun k => ?_) (fun x => by rw [hkR, hker2, hker1]) (by rw [hoR, ho2, ho1])
        (by rw [hsR, hs2, hs1]) (by rw [hfR, hf2, hf1])
      have h1 := hptR k
      have h2 := hpt1 k
      omega
    | true =>
      simp only [if_true] at heq
      rcases hrki : runKernels st2 body.m_vKernelsInput true true
        with ⟨st3, kinPre, kinRest, okKI⟩
      rw [hrki] at heq
      dsimp only at heq
      have hks2 : kSorted st2.m_Kernels := by rw [hker2, hker1]; exact hks
      obtain ⟨hks3, hnd3, hpres3, hpk3, _hok3, hux3, ho3, hs3, hf3⟩ :=
        runKernels_rem_spec hks2 (by decide) hrki
      cases okKI with
      | false =>
        simp only [Bool.false_eq_true, if_false, Bool.not_true] at heq
        injection heq with h1 _h2
        subst h1
        have habs : ∀ x ∈ kIds kinPre, kFind st3.m_Kernels x = false := by
          intro x hx
          rw [hpk3 x]
          simp [hx]
        obtain ⟨hkSI, hpkSI, huxSI, hoSI, hsSI, hfSI⟩ :=
          rollbackKernels_ins_spec kinPre hks3 hnd3 habs
        have hkrest : ∀ x,
            kFind (rollbackKernels st3 kinPre true).m_Kernels x = kFind st2.m_Kernels x := by
          intro x
          rw [hpkSI x, hpk3 x]
          by_cases hx : x ∈ kIds kinPre
          · simp [hx, hpres3 x hx]
          · simp [hx]
        have hvSI : uValid (rollbackKernels st3 kinPre true).m_Utxos := by
          rw [huxSI, hux3]
          exact hv2
        have hXc : ∀ k, uCount (rollbackKernels st3 kinPre true).m_Utxos k
            = uCount st1.m_Utxos k + outMult h pHMax outsPre k := by
          intro k
          rw [huxSI, hux3]
          exact hpt2 k
        obtain ⟨hvR, hptR, hkR, hoR, hsR, hfR⟩ :=
          rollbackOutsIns_spec outsPre insPre hvSI hkeys2 hXc hbIns
        refine pstate_eq_of_pointwise hvR hu ?_ hks (fun k => ?_) (fun x => ?_) ?_ ?_ ?_
        · rw [hkR]
          have : (rollbackKernels st3 kinPre true).m_Kernels = st2.m_Kernels := by
            refine kernel_ext hkSI hks2 hkrest
          rw [this, hker2, hker1]
          exact hks
        · have h1 := hptR k
          have h2 := hpt1 k
          omega
        · rw [hkR]
          rw [hkrest x, hker2, hker1]
        · rw [hoR, hoSI, ho3, ho2, ho1]
        · rw [hsR, hsSI, hs3, hs2, hs1]
        · rw [hfR, hfSI, hf3, hf2, hf1]
      | true =>
        simp only [if_true] at heq
        rcases hrko : runKernels st3 body.m_vKernelsOutput true false
          with ⟨st4, koutPre, koutRest, okKO⟩
        rw [hrko] at heq
        dsimp only at heq
        obtain ⟨hks4, hnd4, habs4, hpk4, _hok4, hux4, ho4, hs4, hf4⟩ :=
          runKernels_add_spec hks3 (by decide) hrko
        cases okKO with
        | true =>
          simp only [if_true] at heq
          cases heq
        | false =>
          simp only [Bool.false_eq_true, if_false, Bool.not_true] at heq
          injection heq with h1 _h2
          subst h1
          have hpresO : ∀ x ∈ kIds koutPre, kFind st4.m_Kernels x = true := by
            intro x hx
            rw [hpk4 x]
            simp [hx]
          obtain ⟨hkS1, hpkS1, huxS1, hoS1, hsS1, hfS1⟩ :=
            rollbackKernels_rem_spec koutPre hks4 hnd4 hpresO
          have habsI : ∀ x ∈ kIds kinPre,
              kFind (rollbackKernels st4 koutPre false).m_Kernels x = false := by
            intro x hx
            rw [hpkS1 x, hpk4 x, hpk3 x]
            by_cases hout : x ∈ kIds koutPre <;> simp [hx, hout]
          obtain ⟨hkS2, hpkS2, huxS2, hoS2, hsS2, hfS2⟩ :=
            rollbackKernels_ins_spec kinPre hkS1 hnd3 habsI
          have hkrest : ∀ x,
              kFind (rollbackKernels (rollbackKernels st4 koutPre false) kinPre true).m_Kernels x
                = kFind st2.m_Kernels x := by
            intro x
            rw [hpkS2 x, hpkS1 x, hpk4 x, hpk3 x]
            by_cases hin : x ∈ kIds kinPre
            · simp [hin, hpres3 x hin]
            · by_cases hout : x ∈ kIds koutPre
              · have hf := habs4 x hout
                rw [hpk3 x] at hf
                simp [hin] at hf
                simp [hin, hout, hf]
              · simp [hin, hout]
          have hvS2 : uValid
              (rollbackKernels (rollbackKernels st4 koutPre false) kinPre true).m_Utxos := by
            rw [huxS2, huxS1, hux4, hux3]
            exact hv2
          have hXc : ∀ k,
              uCount (rollbackKernels (rollbackKernels st4 koutPre false) kinPre true).m_Utxos k
                = uCount st1.m_Utxos k + outMult h pHMax outsPre k := by
            intro k
            rw [huxS2, huxS1, hux4, hux3]
            exact hpt2 k
          obtain ⟨hvR, hptR, hkR, hoR, hsR, hfR⟩ :=
            rollbackOutsIns_spec outsPre insPre hvS2 hkeys2 hXc hbIns
          refine pstate_eq_of_pointwise hvR hu ?_ hks (fun k => ?_) (fun x => ?_) ?_ ?_ ?_
          · rw [hkR]
            have : (rollbackKernels (rollbackKernels st4 koutPre false) kinPre true).m_Kernels
                = st2.m_Kernels := kernel_ext hkS2 hks2 hkrest
            rw [this, hker2, hker1]
            exact hks
          · have h1 := hptR k
            have h2 := hpt1 k
            omega
          · rw [hkR, hkrest x, hker2, hker1]
          · rw [hoR, hoS2, hoS1, ho4, ho3, ho2, ho1]
          · rw [hsR, hsS2, hsS1, hs4, hs3, hs2, hs1]
          · rw [hfR, hfS2, hfS1, hf4, hf3, hf2, hf1]

instance (m : UtxoMap) : Decidable (uSorted m) := by
  unfold uSorted
  infer_instance

instance (m : UtxoMap) : Decidable (uValid m) := by
  unfold uValid
  infer_instance

instance (s : KernelSet) : Decidable (kSorted s) := by
  unfold kSorted
  infer_instance

/-! ## Claim C2 -/

/-- C2: if a forward `HandleValidatedTx` call fails at any element, it
unapplies exactly the elements already handled (the recorded counts of
input UTXOs, output UTXOs, input kernels and output kernels, the kernel
groups walked in reverse group order), so the UTXO tree and the kernel
tree — and with them their Merkle roots — are left exactly as before the
call; no partial mutation escapes the failed call. -/
theorem claim_C2_failed_forward_tx_restores {st : PState} {body : BlockBody} {h : Height}
    {adj : Bool} {pHMax : Option Height} {st' : PState} {body' : BlockBody}
    (hu : uValid st.m_Utxos) (hks : kSorted st.m_Kernels)
    (heq : HandleValidatedTx st body h true adj pHMax = TxResult.failed st' body') :
    st' = st ∧ utxoRoot st'.m_Utxos = utxoRoot st.m_Utxos ∧
    kernelRoot st'.m_Kernels = kernelRoot st.m_Kernels := by
  have hr := hvtx_fwd_failed_restores hu hks heq
  exact ⟨hr, by rw [hr], by rw [hr]⟩

/-- A state for the C2 witness run: empty accumulators, subsidy open. -/
def c2wSt : PState := ⟨[], [], true, 0, 0⟩

/-- A body for the C2 witness run: one output applies, then the second
of two equal-id output kernels fails, forcing the rollback. -/
def c2wBody : BlockBody :=
  { m_vInputs := [], m_vOutputs := [⟨1, 0, false, 0⟩], m_vKernelsInput := [],
    m_vKernelsOutput := [⟨7, 0, 0⟩, ⟨7, 0, 0⟩], m_SubsidyClosing := false,
    m_Subsidy := 0, m_Offset := 0 }

/-- Witness for C2: the concrete failing run above returns the start
state bit-identically. -/
theorem claim_C2_failed_forward_tx_restores_witness :
    (uValid c2wSt.m_Utxos ∧ kSorted c2wSt.m_Kernels ∧
      HandleValidatedTx c2wSt c2wBody 1 true true none = TxResult.failed c2wSt c2wBody) ∧
    (c2wSt = c2wSt ∧ utxoRoot c2wSt.m_Utxos = utxoRoot c2wSt.m_Utxos ∧
      kernelRoot c2wSt.m_Kernels = kernelRoot c2wSt.m_Kernels) :=
  ⟨⟨by decide, by decide, by decide⟩,
    @claim_C2_failed_forward_tx_restores c2wSt c2wBody 1 true none c2wSt c2wBody
      (by decide) (by decide) (by decide)⟩

/-! ## Forward-success decomposition and reverse reconstruction -/

/-- The kernel loop in insertion direction succeeds on fresh distinct
ids and inserts them all. -/
theorem runKernels_add_run {st : PState} (l : List TxKernel) {bFwd bIsInput : Bool}
    (hs : kSorted st.m_Kernels) (hd : (bFwd != bIsInput) = true)
    (hnd : (kIds l).Nodup) (habs : ∀ x ∈ kIds l, kFind st.m_Kernels x = false) :
    ∃ st1, runKernels st l bFwd bIsInput = (st1, l, [], true) ∧
      kSorted st1.m_Kernels ∧
      (∀ x, kFind st1.m_Kernels x = (kFind st.m_Kernels x || decide (x ∈ kIds l))) ∧
      st1.m_Utxos = st.m_Utxos ∧ st1.m_SubsidyOpen = st.m_SubsidyOpen ∧
      st1.m_Subsidy = st.m_Subsidy ∧ st1.m_Offset = st.m_Offset := by
  induction l generalizing st with
  | nil =>
    exact ⟨st, by rw [runKernels], hs, fun x => by simp [kIds_nil], rfl, rfl, rfl, rfl⟩
  | cons v t ih =>
    have hfind : kFind st.m_Kernels v.m_ID = false :=
      habs v.m_ID (by rw [kIds_cons]; exact List.mem_cons_self _ _)
    have hsA : kSorted (kInsert st.m_Kernels v.m_ID) := kSorted_insert hs v.m_ID
    have hndA : (kIds t).Nodup := by
      rw [kIds_cons] at hnd
      exact hnd.of_cons
    have habsA : ∀ x ∈ kIds t, kFind (kInsert st.m_Kernels v.m_ID) x = false := by
      intro x hx
      rw [kFind_insert_point]
      have h1 : kFind st.m_Kernels x = false :=
        habs x (by rw [kIds_cons]; exact List.mem_cons_of_mem _ hx)
      have h2 : x ≠ v.m_ID := by
        intro hx2
        rw [kIds_cons] at hnd
        exact (List.nodup_cons.1 hnd).1 (hx2 ▸ hx)
      simp [h1, h2]
    obtain ⟨stB, hrec, hksB, hpkB, huxB, hoB, hsB, hfB⟩ :=
      @ih { st with m_Kernels := kInsert st.m_Kernels v.m_ID } hsA hndA habsA
    refine ⟨stB, ?_, hksB, fun x => ?_, by rw [huxB], by rw [hoB], by rw [hsB], by rw [hfB]⟩
    · rw [runKernels, hbek_add_some hd hfind]
      dsimp only
      rw [hrec]
    · rw [hpkB x]
      dsimp only
      rw [kFind_insert_point, kIds_cons]
      by_cases hx1 : x = v.m_ID
      · simp [hx1]
      · by_cases hx2 : x ∈ kIds t <;> simp [hx1, hx2]

/-- The kernel loop in deletion direction succeeds on present distinct
ids and removes them all. -/
theorem runKernels_rem_run {st : PState} (l : List TxKernel) {bFwd bIsInput : Bool}
    (hs : kSorted st.m_Kernels) (hd : (bFwd != bIsInput) = false)
    (hnd : (kIds l).Nodup) (hpres : ∀ x ∈ kIds l, kFind st.m_Kernels x = true) :
    ∃ st1, runKernels st l bFwd bIsInput = (st1, l, [], true) ∧
      kSorted st1.m_Kernels ∧
      (∀ x, kFind st1.m_Kernels x = (kFind st.m_Kernels x && !decide (x ∈ kIds l))) ∧
      st1.m_Utxos = st.m_Utxos ∧ st1.m_SubsidyOpen = st.m_SubsidyOpen ∧
      st1.m_Subsidy = st.m_Subsidy ∧ st1.m_Offset = st.m_Offset := by
  induction l generalizing st with
  | nil =>
    exact ⟨st, by rw [runKernels], hs, fun x => by simp [kIds_nil], rfl, rfl, rfl, rfl⟩
  | cons v t ih =>
    have hfind : kFind st.m_Kernels v.m_ID = true :=
      hpres v.m_ID (by rw [kIds_cons]; exact List.mem_cons_self _ _)
    have hsA : kSorted (kDelete st.m_Kernels v.m_ID) := kSorted_delete hs v.m_ID
    have hndA : (kIds t).Nodup := by
      rw [kIds_cons] at hnd
      exact hnd.of_cons
    have hpresA : ∀ x ∈ kIds t, kFind (kDelete st.m_Kernels v.m_ID) x = true := by
      intro x hx
      rw [kFind_delete_point hs]
      have h1 : kFind st.m_Kernels x = true :=
        hpres x (by rw [kIds_cons]; exact List.mem_cons_of_mem _ hx)
      have h2 : x ≠ v.m_ID := by
        intro hx2
        rw [kIds_cons] at hnd
        exact (List.nodup_cons.1 hnd).1 (hx2 ▸ hx)
      simp [h1, h2]
    obtain ⟨stB, hrec, hksB, hpkB, huxB, hoB, hsB, hfB⟩ :=
      @ih { st with m_Kernels := kDelete st.m_Kernels v.m_ID } hsA hndA hpresA
    refine ⟨stB, ?_, hksB, fun x => ?_, by rw [huxB], by rw [hoB], by rw [hsB], by rw [hfB]⟩
    · rw [runKernels, hbek_rem_some hd hfind]
      dsimp only
      rw [hrec]
    · rw [hpkB x]
      dsimp only
      rw [kFind_delete_point hs, kIds_cons]
      by_cases hx1 : x = v.m_ID
      · simp [hx1]
      · by_cases hx2 : x ∈ kIds t <;> simp [hx1, hx2]

set_option maxHeartbeats 1000000 in
/-- Decomposition of a successful forward `HandleValidatedTx` call: the
returned body differs only in the adjusted input maturities, the count
change factors through a common remainder `g`, and the kernel change is
remove-inputs-then-add-outputs with distinct ids. -/
theorem hvtx_fwd_ok_spec {st : PState} {body : BlockBody} {h : Height}
    {adj : Bool} {pHMax : Option Height} {st4 : PState} {body1 : BlockBody}
    (hu : uValid st.m_Utxos) (hks : kSorted st.m_Kernels)
    (heq : HandleValidatedTx st body h true adj pHMax = TxResult.ok st4 body1) :
    uValid st4.m_Utxos ∧ kSorted st4.m_Kernels ∧
    body1.m_vOutputs = body.m_vOutputs ∧
    body1.m_vKernelsInput = body.m_vKernelsInput ∧
    body1.m_vKernelsOutput = body.m_vKernelsOutput ∧
    body1.m_SubsidyClosing = body.m_SubsidyClosing ∧
    body1.m_Subsidy = body.m_Subsidy ∧ body1.m_Offset = body.m_Offset ∧
    (∀ v ∈ body.m_vOutputs, ∃ kk, outputKeyOf v h pHMax = some kk) ∧
    (∃ g : UtxoKey → Nat,
      (∀ k, uCount st.m_Utxos k = g k + inMult body1.m_vInputs k) ∧
      (∀ k, uCount st4.m_Utxos k = g k + outMult h pHMax body.m_vOutputs k)) ∧
    (kIds body.m_vKernelsInput).Nodup ∧ (kIds body.m_vKernelsOutput).Nodup ∧
    (∀ x ∈ kIds body.m_vKernelsInput, kFind st.m_Kernels x = true) ∧
    (∀ x ∈ kIds body.m_vKernelsOutput,
      (kFind st.m_Kernels x && !decide (x ∈ kIds body.m_vKernelsInput)) = false) ∧
    (∀ x, kFind st4.m_Kernels x =
      ((kFind st.m_Kernels x && !decide (x ∈ kIds body.m_vKernelsInput))
        || decide (x ∈ kIds body.m_vKernelsOutput))) ∧
    st4.m_SubsidyOpen = st.m_SubsidyOpen ∧ st4.m_Subsidy = st.m_Subsidy ∧
    st4.m_Offset = st.m_Offset := by
  rw [HandleValidatedTx] at heq
  rcases hri : runInputs st body.m_vInputs h pHMax true adj with ⟨st1, insPre, insRest, okI⟩
  rw [hri] at heq
  dsimp only at heq
  obtain ⟨hv1, hpt1, hok1, hker1, ho1, hs1, hf1⟩ := runInputs_fwd_spec hu hri
  cases okI with
  | false =>
    simp only [Bool.false_eq_true, if_false, Bool.not_true] at heq
    cases heq
  | true =>
    simp only [if_true] at heq
    rcases hro : runOutputs st1 body.m_vOutputs h pHMax true with ⟨st2, outsPre, outsRest, okO⟩
    rw [hro] at heq
    dsimp only at heq
    obtain ⟨hv2, hkeys2, hpt2, hok2, hker2, ho2, hs2, hf2⟩ := runOutputs_fwd_spec hv1 hro
    cases okO with
    | false =>
      simp only [Bool.false_eq_true, if_false, Bool.not_true] at heq
      cases heq
    | true =>
      simp only [if_true] at heq
      rcases hrki : runKernels st2 body.m_vKernelsInput true true
        with ⟨st3, kinPre, kinRest, okKI⟩
      rw [hrki] at heq
      dsimp only at heq
      have hks2 : kSorted st2.m_Kernels := by rw [hker2, hker1]; exact hks
      obtain ⟨hks3, hnd3, hpres3, hpk3, hok3, hux3, ho3, hs3, hf3⟩ :=
        runKernels_rem_spec hks2 (by decide) hrki
      cases okKI with
      | false =>
        simp only [Bool.false_eq_true, if_false, Bool.not_true] at heq
        cases heq
      | true =>
        simp only [if_true] at heq
        rcases hrko : runKernels st3 body.m_vKernelsOutput true false
          with ⟨st4x, koutPre, koutRest, okKO⟩
        rw [hrko] at heq
        dsimp only at heq
        obtain ⟨hks4, hnd4, habs4, hpk4, hok4, hux4, ho4, hs4, hf4⟩ :=
          runKernels_add_spec hks3 (by decide) hrko
        cases okKO with
        | false =>
          simp only [Bool.false_eq_true, if_false, Bool.not_true] at heq
          cases heq
        | true =>
          simp only [if_true] at heq
          injection heq with h1 h2
          subst h1
          obtain ⟨hkiAll, _⟩ := hok3 rfl
          obtain ⟨hkoAll, _⟩ := hok4 rfl
          obtain ⟨hoAll, _⟩ := hok2 rfl
          obtain hrest1 := hok1 rfl
          subst hkiAll
          subst hkoAll
          subst hoAll
          subst hrest1
          have hbody1 : body1 = { body with m_vInputs := insPre ++ [] } := h2.symm
          subst hbody1
          refine ⟨by rw [hux4, hux3]; exact hv2, hks4, rfl, rfl, rfl, rfl, rfl, rfl,
            hkeys2, ⟨fun k => uCount st1.m_Utxos k, fun k => ?_, fun k => ?_⟩,
            hnd3, hnd4, ?_, ?_, fun x => ?_, ?_, ?_, ?_⟩
          · rw [List.append_nil]
            exact hpt1 k
          · have h3 : uCount st4x.m_Utxos k = uCount st2.m_Utxos k := by rw [hux4, hux3]
            rw [h3]
            exact hpt2 k
          · intro x hx
            have := hpres3 x hx
            rw [hker2, hker1] at this
            exact this
          · intro x hx
            have := habs4 x hx
            rw [hpk3 x, hker2, hker1] at this
            exact this
          · rw [hpk4 x, hpk3 x, hker2, hker1]
          · rw [ho4, ho3, ho2, ho1]
          · rw [hs4, hs3, hs2, hs1]
          · rw [hf4, hf3, hf2, hf1]

set_option maxHeartbeats 1000000 in
/-- Reconstruction of a reverse `HandleValidatedTx` run: with the input
keys re-insertable without wrap, the output keys covered, the input
kernel ids absent and the output kernel ids present, the reverse call
succeeds and its effect is the pointwise inverse of a forward apply. -/
theorem hvtx_rev_run {stF : PState} {body1 : BlockBody} {h : Height}
    (hvF : uValid stF.m_Utxos) (hksF : kSorted stF.m_Kernels)
    (hkeys : ∀ v ∈ body1.m_vOutputs, ∃ kk, outputKeyOf v h (none : Option Height) = some kk)
    (hndI : (kIds body1.m_vKernelsInput).Nodup)
    (hndO : (kIds body1.m_vKernelsOutput).Nodup)
    (habsI : ∀ x ∈ kIds body1.m_vKernelsInput, kFind stF.m_Kernels x = false)
    (hpresO : ∀ x ∈ kIds body1.m_vKernelsOutput, kFind stF.m_Kernels x = true)
    (hbin : ∀ k, uCount stF.m_Utxos k + inMult body1.m_vInputs k < countMod)
    (houts : ∀ k, outMult h none body1.m_vOutputs k
      ≤ uCount stF.m_Utxos k + inMult body1.m_vInputs k) :
    ∃ stR body2, HandleValidatedTx stF body1 h false false none = TxResult.ok stR body2 ∧
      uValid stR.m_Utxos ∧ kSorted stR.m_Kernels ∧
      (∀ k, uCount stR.m_Utxos k + outMult h none body1.m_vOutputs k
          = uCount stF.m_Utxos k + inMult body1.m_vInputs k) ∧
      (∀ x, kFind stR.m_Kernels x =
        ((kFind stF.m_Kernels x || decide (x ∈ kIds body1.m_vKernelsInput))
          && !decide (x ∈ kIds body1.m_vKernelsOutput))) ∧
      stR.m_SubsidyOpen = stF.m_SubsidyOpen ∧ stR.m_Subsidy = stF.m_Subsidy ∧
      stR.m_Offset = stF.m_Offset := by
  obtain ⟨su1, hrin, hv1, hpt1, hk1, ho1, hs1, hf1⟩ :=
    runInputs_rev_spec body1.m_vInputs false hvF hbin
  have houts' : ∀ k, outMult h none body1.m_vOutputs k ≤ uCount su1.m_Utxos k := by
    intro k
    rw [hpt1 k]
    exact houts k
  obtain ⟨su2, hrout, hv2, hpt2, hk2, ho2, hs2, hf2⟩ :=
    runOutputs_rev_spec body1.m_vOutputs hv1 hkeys houts'
  have hk21 : su2.m_Kernels = stF.m_Kernels := by rw [hk2, hk1]
  have hks2 : kSorted su2.m_Kernels := by rw [hk21]; exact hksF
  have habsI' : ∀ x ∈ kIds body1.m_vKernelsInput, kFind su2.m_Kernels x = false := by
    intro x hx
    rw [hk21]
    exact habsI x hx
  obtain ⟨su3, hrki, hks3, hpk3, hux3, ho3, hs3, hf3⟩ :=
    @runKernels_add_run su2 body1.m_vKernelsInput false true hks2 (by decide) hndI habsI'
  have hpresO' : ∀ x ∈ kIds body1.m_vKernelsOutput, kFind su3.m_Kernels x = true := by
    intro x hx
    rw [hpk3 x, hk21]
    simp [hpresO x hx]
  obtain ⟨su4, hrko, hks4, hpk4, hux4, ho4, hs4, hf4⟩ :=
    @runKernels_rem_run su3 body1.m_vKernelsOutput false false hks3 (by decide) hndO hpresO'
  refine ⟨su4, { body1 with m_vInputs := body1.m_vInputs ++ [] }, ?_, ?_, hks4,
    fun k => ?_, fun x => ?_, by rw [ho4, ho3, ho2, ho1], by rw [hs4, hs3, hs2, hs1],
    by rw [hf4, hf3, hf2, hf1]⟩
  · rw [HandleValidatedTx, hrin]
    dsimp only
    rw [hrout]
    dsimp only
    rw [hrki]
    dsimp only
    rw [hrko]
    simp only [if_true]
  · rw [hux4, hux3]
    exact hv2
  · have h1 : uCount su4.m_Utxos k = uCount su2.m_Utxos k := by rw [hux4, hux3]
    have h2 := hpt2 k
    have h3 := hpt1 k
    omega
  · rw [hpk4 x, hpk3 x, hk21]

theorem scalarOrder_pos : 0 < scalarOrder := by decide

theorem subsidyMod_pos : 0 < subsidyMod := by norm_num [subsidyMod]

set_option maxHeartbeats 2000000 in
/-- C1 (as forced by the counterexample, see the C1 counterexample
theorem): for a body whose kernel ids are nonzero and do not occur in
both kernel vectors, under the sentinel invariant I5 and with no
`uint32` count wrap possible, a successful forward
`HandleValidatedBlock` followed by a reverse call on the same body with
the recorded maturities succeeds and restores the UTXO root, the kernel
root, the subsidy-open flag, the subsidy total and the offset scalar
bit-identically. -/
theorem claim_C1_apply_unapply_inverse
    {st stF : PState} {body body1 : BlockBody} {h : Height}
    (hu : uValid st.m_Utxos) (hks : kSorted st.m_Kernels)
    (hI5 : st.m_SubsidyOpen = !(kFind st.m_Kernels 0))
    (hnzin : ∀ x ∈ kIds body.m_vKernelsInput, x ≠ 0)
    (hnzout : ∀ x ∈ kIds body.m_vKernelsOutput, x ≠ 0)
    (hdisj : ∀ x ∈ kIds body.m_vKernelsInput, ¬ x ∈ kIds body.m_vKernelsOutput)
    (hsub : st.m_Subsidy < subsidyMod) (hoff : st.m_Offset < scalarOrder)
    (hbnd : ∀ e ∈ st.m_Utxos, e.2 + body.m_vOutputs.length < countMod)
    (hbnd2 : body.m_vOutputs.length < countMod)
    (heq : HandleValidatedBlock st body h true true none = TxResult.ok stF body1) :
    ∃ st2 body2, HandleValidatedBlock stF body1 h false false none = TxResult.ok st2 body2 ∧
      utxoRoot st2.m_Utxos = utxoRoot st.m_Utxos ∧
      kernelRoot st2.m_Kernels = kernelRoot st.m_Kernels ∧
      st2.m_SubsidyOpen = st.m_SubsidyOpen ∧ st2.m_Subsidy = st.m_Subsidy ∧
      st2.m_Offset = st.m_Offset := by
  have hbnd' : ∀ k, uCount st.m_Utxos k + body.m_vOutputs.length < countMod := by
    intro k
    rw [uCount]
    cases hfk : utxoFind st.m_Utxos k with
    | none => simpa using hbnd2
    | some c =>
      have := hbnd _ (utxoFind_mem hfk)
      simpa using this
  rw [HandleValidatedBlock] at heq
  by_cases hgate : body.m_SubsidyClosing = true ∧ st.m_SubsidyOpen ≠ true
  · rw [if_pos hgate] at heq
    cases heq
  · rw [if_neg hgate] at heq
    cases htx : HandleValidatedTx st body h true true none with
    | corrupted =>
      rw [htx] at heq
      cases heq
    | failed stx bodyx =>
      rw [htx] at heq
      dsimp only at heq
      cases heq
    | ok st4 bodyx =>
      rw [htx] at heq
      dsimp only at heq
      injection heq with hstF hbody1
      subst hbody1
      obtain ⟨hv4, hks4, hOuts, hKin, hKout, hCl, hSub, hOff, hkeys, ⟨g, hg1, hg2⟩,
        hndI, hndO, hpresI, habsO, hpk4, ho4, hs4, hf4⟩ := hvtx_fwd_ok_spec hu hks htx
      by_cases hcl : body.m_SubsidyClosing = true
      · -- subsidy-closing body: the forward pass inserted the sentinel
        have hopen : st.m_SubsidyOpen = true := by
          by_contra hx
          exact hgate ⟨hcl, hx⟩
        have hk0 : kFind st.m_Kernels 0 = false := by
          rw [hopen] at hI5
          cases hx : kFind st.m_Kernels 0
          · rfl
          · rw [hx] at hI5
            simp at hI5
        have h0in : ¬ (0 ∈ kIds body.m_vKernelsInput) := fun hx => hnzin 0 hx rfl
        have h0out : ¬ (0 ∈ kIds body.m_vKernelsOutput) := fun hx => hnzout 0 hx rfl
        have hk04 : kFind st4.m_Kernels 0 = false := by
          rw [hpk4 0]
          simp [hk0, h0out]
        have hk04' : ¬ (kFind st4.m_Kernels 0 = true) := by
          rw [hk04]
          exact Bool.false_ne_true
        have hTog : ToggleSubsidyOpened st4 =
            { st4 with m_Kernels := kInsert st4.m_Kernels 0, m_SubsidyOpen := false } := by
          rw [ToggleSubsidyOpened, if_neg hk04']
        rw [if_pos hcl, hTog] at hstF
        rw [if_pos rfl] at hstF
        dsimp only at hstF
        subst hstF
        -- kernels of the forward result, with the sentinel inserted
        have hksF : kSorted (kInsert st4.m_Kernels 0) := kSorted_insert hks4 0
        have hpkF : ∀ x, kFind (kInsert st4.m_Kernels 0) x =
            (kFind st4.m_Kernels x || decide (x = 0)) :=
          fun x => kFind_insert_point st4.m_Kernels 0 x
        obtain ⟨stR, body2, hrev, hvR, hksR, hptR, hpkR, hoR, hsR, hfR⟩ :=
          @hvtx_rev_run
            { m_Utxos := st4.m_Utxos, m_Kernels := kInsert st4.m_Kernels 0,
              m_SubsidyOpen := false,
              m_Subsidy := (st4.m_Subsidy + body.m_Subsidy) % subsidyMod,
              m_Offset := (st4.m_Offset + body.m_Offset % scalarOrder) % scalarOrder }
            bodyx h hv4 hksF
            (by rw [hOuts]; exact hkeys)
            (by rw [hKin]; exact hndI)
            (by rw [hKout]; exact hndO)
            (by
              intro x hx
              rw [hKin] at hx
              show kFind (kInsert st4.m_Kernels 0) x = false
              have hxz : x ≠ 0 := hnzin x hx
              rw [hpkF x, hpk4 x]
              simp [hx, hxz, hdisj x hx])
            (by
              intro x hx
              rw [hKout] at hx
              show kFind (kInsert st4.m_Kernels 0) x = true
              rw [hpkF x, hpk4 x]
              simp [hx])
            (by
              intro k
              show uCount st4.m_Utxos k + inMult bodyx.m_vInputs k < countMod
              have h1 := hg1 k
              have h2 := hg2 k
              have h3 := hbnd' k
              have h4 := outMult_le_length h none body.m_vOutputs k
              omega)
            (by
              intro k
              show outMult h none bodyx.m_vOutputs k
                ≤ uCount st4.m_Utxos k + inMult bodyx.m_vInputs k
              rw [hOuts]
              have h1 := hg1 k
              have h2 := hg2 k
              omega)
        have hptR' : ∀ k, uCount stR.m_Utxos k + outMult h none bodyx.m_vOutputs k
            = uCount st4.m_Utxos k + inMult bodyx.m_vInputs k := hptR
        have hpkR' : ∀ x, kFind stR.m_Kernels x =
            ((kFind (kInsert st4.m_Kernels 0) x || decide (x ∈ kIds bodyx.m_vKernelsInput))
              && !decide (x ∈ kIds bodyx.m_vKernelsOutput)) := hpkR
        have hclR : bodyx.m_SubsidyClosing = true := by rw [hCl]; exact hcl
        have hkR0 : kFind stR.m_Kernels 0 = true := by
          rw [hpkR 0]
          show ((kFind (kInsert st4.m_Kernels 0) 0
            || decide ((0 : Nat) ∈ kIds bodyx.m_vKernelsInput))
            && !decide ((0 : Nat) ∈ kIds bodyx.m_vKernelsOutput)) = true
          have h1 : kFind (kInsert st4.m_Kernels 0) 0 = true := kFind_insert_self _ 0
          have h2 : ¬ ((0 : Nat) ∈ kIds bodyx.m_vKernelsOutput) := by
            rw [hKout]
            exact h0out
          simp [h1, h2]
        have hTogR : ToggleSubsidyOpened stR =
            { stR with m_Kernels := kDelete stR.m_Kernels 0, m_SubsidyOpen := true } := by
          rw [ToggleSubsidyOpened, if_pos hkR0]
        have hgateR : ¬ (bodyx.m_SubsidyClosing = true ∧ (false : Bool) ≠ false) := by
          rintro ⟨_, hx⟩
          exact hx rfl
        have hmain : HandleValidatedBlock
            { m_Utxos := st4.m_Utxos, m_Kernels := kInsert st4.m_Kernels 0,
              m_SubsidyOpen := false,
              m_Subsidy := (st4.m_Subsidy + body.m_Subsidy) % subsidyMod,
              m_Offset := (st4.m_Offset + body.m_Offset % scalarOrder) % scalarOrder }
            bodyx h false false none =
            TxResult.ok
              { m_Utxos := stR.m_Utxos, m_Kernels := kDelete stR.m_Kernels 0,
                m_SubsidyOpen := true,
                m_Subsidy :=
                  (stR.m_Subsidy + (subsidyMod - bodyx.m_Subsidy % subsidyMod)) % subsidyMod,
                m_Offset :=
                  (stR.m_Offset
                    + (scalarOrder - bodyx.m_Offset % scalarOrder) % scalarOrder) % scalarOrder }
              body2 := by
          rw [HandleValidatedBlock]
          dsimp only
          rw [if_neg hgateR, hrev]
          dsimp only
          rw [if_pos hclR, hTogR, if_neg Bool.false_ne_true]
        refine ⟨_, body2, hmain, ?_, ?_, ?_, ?_, ?_⟩
        · show utxoRoot stR.m_Utxos = utxoRoot st.m_Utxos
          have hux : stR.m_Utxos = st.m_Utxos := by
            refine utxo_ext hvR.1 hu.1 (fun e he => by have := hvR.2 e he; omega)
              (fun e he => by have := hu.2 e he; omega) (fun k => ?_)
            have h1 := hptR' k
            have h2 := hg1 k
            have h3 := hg2 k
            rw [hOuts] at h1
            omega
          rw [hux]
        · show kernelRoot (kDelete stR.m_Kernels 0) = kernelRoot st.m_Kernels
          have hker : kDelete stR.m_Kernels 0 = st.m_Kernels := by
            refine kernel_ext (kSorted_delete hksR 0) hks (fun x => ?_)
            rw [kFind_delete_point hksR, hpkR' x]
            show (((kFind (kInsert st4.m_Kernels 0) x
              || decide (x ∈ kIds bodyx.m_vKernelsInput))
              && !decide (x ∈ kIds bodyx.m_vKernelsOutput)) && !decide (x = 0))
              = kFind st.m_Kernels x
            rw [hpkF x, hpk4 x, hKin, hKout]
            by_cases hx0 : x = 0
            · subst hx0
              simp [h0in, h0out, hk0]
            · by_cases hin : x ∈ kIds body.m_vKernelsInput
              · have hko : ¬ x ∈ kIds body.m_vKernelsOutput := hdisj x hin
                simp [hin, hko, hx0, hpresI x hin]
              · by_cases hout : x ∈ kIds body.m_vKernelsOutput
                · have hff := habsO x hout
                  simp [hin] at hff
                  simp [hin, hout, hx0, hff]
                · simp [hin, hout, hx0]
          rw [hker]
        · show true = st.m_SubsidyOpen
          rw [hopen]
        · show ((stR.m_Subsidy + (subsidyMod - bodyx.m_Subsidy % subsidyMod)) % subsidyMod)
            = st.m_Subsidy
          rw [hsR]
          show (((st4.m_Subsidy + body.m_Subsidy) % subsidyMod)
            + (subsidyMod - bodyx.m_Subsidy % subsidyMod)) % subsidyMod = st.m_Subsidy
          rw [hSub, hs4]
          exact add_mod_inv body.m_Subsidy subsidyMod_pos hsub
        · show ((stR.m_Offset + (scalarOrder - bodyx.m_Offset % scalarOrder) % scalarOrder)
            % scalarOrder) = st.m_Offset
          rw [hfR]
          show (((st4.m_Offset + body.m_Offset % scalarOrder) % scalarOrder)
            + (scalarOrder - bodyx.m_Offset % scalarOrder) % scalarOrder) % scalarOrder
            = st.m_Offset
          rw [hOff, hf4]
          exact add_mod_inv' body.m_Offset scalarOrder_pos hoff
      · -- body does not close the subsidy: no sentinel is involved
        rw [if_neg hcl] at hstF
        rw [if_pos rfl] at hstF
        subst hstF
        obtain ⟨stR, body2, hrev, hvR, hksR, hptR, hpkR, hoR, hsR, hfR⟩ :=
          @hvtx_rev_run
            { m_Utxos := st4.m_Utxos, m_Kernels := st4.m_Kernels,
              m_SubsidyOpen := st4.m_SubsidyOpen,
              m_Subsidy := (st4.m_Subsidy + body.m_Subsidy) % subsidyMod,
              m_Offset := (st4.m_Offset + body.m_Offset % scalarOrder) % scalarOrder }
            bodyx h hv4 hks4
            (by rw [hOuts]; exact hkeys)
            (by rw [hKin]; exact hndI)
            (by rw [hKout]; exact hndO)
            (by
              intro x hx
              rw [hKin] at hx
              show kFind st4.m_Kernels x = false
              rw [hpk4 x]
              simp [hx, hdisj x hx])
            (by
              intro x hx
              rw [hKout] at hx
              show kFind st4.m_Kernels x = true
              rw [hpk4 x]
              simp [hx])
            (by
              intro k
              show uCount st4.m_Utxos k + inMult bodyx.m_vInputs k < countMod
              have h1 := hg1 k
              have h2 := hg2 k
              have h3 := hbnd' k
              have h4 := outMult_le_length h none body.m_vOutputs k
              omega)
            (by
              intro k
              show outMult h none bodyx.m_vOutputs k
                ≤ uCount st4.m_Utxos k + inMult bodyx.m_vInputs k
              rw [hOuts]
              have h1 := hg1 k
              have h2 := hg2 k
              omega)
        have hptR' : ∀ k, uCount stR.m_Utxos k + outMult h none bodyx.m_vOutputs k
            = uCount st4.m_Utxos k + inMult bodyx.m_vInputs k := hptR
        have hpkR' : ∀ x, kFind stR.m_Kernels x =
            ((kFind st4.m_Kernels x || decide (x ∈ kIds bodyx.m_vKernelsInput))
              && !decide (x ∈ kIds bodyx.m_vKernelsOutput)) := hpkR
        have hgateR : ¬ (bodyx.m_SubsidyClosing = true ∧ st4.m_SubsidyOpen ≠ false) := by
          rintro ⟨hx, _⟩
          rw [hCl] at hx
          exact hcl hx
        have hmain : HandleValidatedBlock
            { m_Utxos := st4.m_Utxos, m_Kernels := st4.m_Kernels,
              m_SubsidyOpen := st4.m_SubsidyOpen,
              m_Subsidy := (st4.m_Subsidy + body.m_Subsidy) % subsidyMod,
              m_Offset := (st4.m_Offset + body.m_Offset % scalarOrder) % scalarOrder }
            bodyx h false false none =
            TxResult.ok
              { m_Utxos := stR.m_Utxos, m_Kernels := stR.m_Kernels,
                m_SubsidyOpen := stR.m_SubsidyOpen,
                m_Subsidy :=
                  (stR.m_Subsidy + (subsidyMod - bodyx.m_Subsidy % subsidyMod)) % subsidyMod,
                m_Offset :=
                  (stR.m_Offset
                    + (scalarOrder - bodyx.m_Offset % scalarOrder) % scalarOrder) % scalarOrder }
              body2 := by
          rw [HandleValidatedBlock]
          dsimp only
          rw [if_neg hgateR, hrev]
          dsimp only
          rw [if_neg (fun hx => hcl (hCl ▸ hx)), if_neg Bool.false_ne_true]
        refine ⟨_, body2, hmain, ?_, ?_, ?_, ?_, ?_⟩
        · show utxoRoot stR.m_Utxos = utxoRoot st.m_Utxos
          have hux : stR.m_Utxos = st.m_Utxos := by
            refine utxo_ext hvR.1 hu.1 (fun e he => by have := hvR.2 e he; omega)
              (fun e he => by have := hu.2 e he; omega) (fun k => ?_)
            have h1 := hptR' k
            have h2 := hg1 k
            have h3 := hg2 k
            rw [hOuts] at h1
            omega
          rw [hux]
        · show kernelRoot stR.m_Kernels = kernelRoot st.m_Kernels
          have hker : stR.m_Kernels = st.m_Kernels := by
            refine kernel_ext hksR hks (fun x => ?_)
            rw [hpkR' x]
            show ((kFind st4.m_Kernels x || decide (x ∈ kIds bodyx.m_vKernelsInput))
              && !decide (x ∈ kIds bodyx.m_vKernelsOutput)) = kFind st.m_Kernels x
            rw [hpk4 x, hKin, hKout]
            by_cases hin : x ∈ kIds body.m_vKernelsInput
            · have hko : ¬ x ∈ kIds body.m_vKernelsOutput := hdisj x hin
              simp [hin, hko, hpresI x hin]
            · by_cases hout : x ∈ kIds body.m_vKernelsOutput
              · have hff := habsO x hout
                simp [hin] at hff
                simp [hin, hout, hff]
              · simp [hin, hout]
          rw [hker]
        · show stR.m_SubsidyOpen = st.m_SubsidyOpen
          rw [hoR]
          show st4.m_SubsidyOpen = st.m_SubsidyOpen
          exact ho4
        · show ((stR.m_Subsidy + (subsidyMod - bodyx.m_Subsidy % subsidyMod)) % subsidyMod)
            = st.m_Subsidy
          rw [hsR]
          show (((st4.m_Subsidy + body.m_Subsidy) % subsidyMod)
            + (subsidyMod - bodyx.m_Subsidy % subsidyMod)) % subsidyMod = st.m_Subsidy
          rw [hSub, hs4]
          exact add_mod_inv body.m_Subsidy subsidyMod_pos hsub
        · show ((stR.m_Offset + (scalarOrder - bodyx.m_Offset % scalarOrder) % scalarOrder)
            % scalarOrder) = st.m_Offset
          rw [hfR]
          show (((st4.m_Offset + body.m_Offset % scalarOrder) % scalarOrder)
            + (scalarOrder - bodyx.m_Offset % scalarOrder) % scalarOrder) % scalarOrder
            = st.m_Offset
          rw [hOff, hf4]
          exact add_mod_inv' body.m_Offset scalarOrder_pos hoff

/-- A start state for the C1 counterexample: empty UTXO set, one kernel
with id 5, subsidy open (the sentinel invariant holds: no zero id). -/
def cx1St : PState := ⟨[], [5], true, 0, 0⟩

/-- A body whose kernel id 5 occurs in both kernel vectors: the forward
pass first consumes kernel 5 and then re-creates it, so the forward call
succeeds, but the reverse pass tries to re-insert id 5 while it is still
present and reports corruption. -/
def cx1Body : BlockBody :=
  { m_vInputs := [], m_vOutputs := [], m_vKernelsInput := [⟨5, 0, 0⟩],
    m_vKernelsOutput := [⟨5, 0, 0⟩], m_SubsidyClosing := false,
    m_Subsidy := 0, m_Offset := 0 }

/-- C1 counterexample: from a well-formed state (sorted UTXO set, sorted
kernel set, sentinel invariant), a body whose kernel id occurs in both
the input and the output kernel vector makes the forward
`HandleValidatedBlock` succeed while the reverse call on the returned
body reports corruption instead of restoring the state, refuting the
unconditional apply/unapply inverse claim. -/
theorem claim_C1_apply_unapply_counterexample :
    uValid cx1St.m_Utxos ∧ kSorted cx1St.m_Kernels ∧
    cx1St.m_SubsidyOpen = !(kFind cx1St.m_Kernels 0) ∧
    HandleValidatedBlock cx1St cx1Body 1 true true none = TxResult.ok cx1St cx1Body ∧
    HandleValidatedBlock cx1St cx1Body 1 false false none = TxResult.corrupted := by
  refine ⟨by decide, by decide, by decide, by decide, by decide⟩

/-- A start state for the C1 witness: one UTXO leaf, one kernel. -/
def c1wSt : PState := ⟨[((9, 0), 1)], [3], true, 0, 0⟩

/-- A body for the C1 witness with disjoint nonzero kernel ids. -/
def c1wBody : BlockBody :=
  { m_vInputs := [⟨9, 0⟩], m_vOutputs := [⟨2, 0, false, 0⟩], m_vKernelsInput := [⟨3, 0, 0⟩],
    m_vKernelsOutput := [⟨4, 0, 0⟩], m_SubsidyClosing := false,
    m_Subsidy := 5, m_Offset := 7 }

/-- The state the forward C1 witness run produces. -/
def c1wStF : PState := ⟨[((2, 1), 1)], [4], true, 5, 7⟩

/-- Witness for the amended C1: the concrete apply/unapply cycle above
restores every chain-state component. -/
theorem claim_C1_apply_unapply_inverse_witness :
    ∃ st2 body2,
      HandleValidatedBlock c1wStF c1wBody 1 false false none = TxResult.ok st2 body2 ∧
      utxoRoot st2.m_Utxos = utxoRoot c1wSt.m_Utxos ∧
      kernelRoot st2.m_Kernels = kernelRoot c1wSt.m_Kernels ∧
      st2.m_SubsidyOpen = c1wSt.m_SubsidyOpen ∧ st2.m_Subsidy = c1wSt.m_Subsidy ∧
      st2.m_Offset = c1wSt.m_Offset :=
  @claim_C1_apply_unapply_inverse c1wSt c1wStF c1wBody c1wBody 1
    (by decide) (by decide) (by decide) (by decide) (by decide) (by decide)
    (by decide) (by decide) (by decide) (by decide) (by decide)

/-- When the range traversal finds no leaf, no maturity within the bound
is present for the commitment. -/
theorem utxoFindRangeFirst_none {m : UtxoMap} {c : Nat} {bound : Height}
    (h : utxoFindRangeFirst m c bound = none) :
    ∀ m2, m2 ≤ bound → utxoFind m (c, m2) = none := by
  induction m with
  | nil => intro m2 _; rfl
  | cons e t ih =>
    rw [utxoFindRangeFirst] at h
    by_cases h1 : e.1.1 = c ∧ e.1.2 ≤ bound
    · rw [if_pos h1] at h
      cases h
    · rw [if_neg h1] at h
      intro m2 hm2
      rw [utxoFind_cons]
      by_cases hk : (c, m2) = e.1
      · exfalso
        apply h1
        rw [← hk]
        exact ⟨rfl, hm2⟩
      · rw [if_neg hk]
        exact ih h m2 hm2

/-- On a sorted tree the first leaf of the range carries the smallest
present maturity: every smaller maturity is absent. -/
theorem utxoFindRangeFirst_min {m : UtxoMap} (hs : uSorted m) {c : Nat} {bound : Height}
    {e : UtxoKey × Nat} (h : utxoFindRangeFirst m c bound = some e) :
    ∀ m2, m2 < e.1.2 → utxoFind m (c, m2) = none := by
  induction m with
  | nil => simp [utxoFindRangeFirst] at h
  | cons e0 t ih =>
    have hs' := List.pairwise_cons.1 hs
    rw [utxoFindRangeFirst] at h
    by_cases h1 : e0.1.1 = c ∧ e0.1.2 ≤ bound
    · rw [if_pos h1] at h
      obtain rfl : e0 = e := by simpa using h
      intro m2 hm2
      rw [utxoFind_cons]
      have hk : ¬ ((c, m2) = e0.1) := by
        intro hx
        have hx2 : m2 < m2 := by rw [← hx] at hm2; exact hm2
        exact lt_irrefl _ hx2
      rw [if_neg hk]
      cases hf : utxoFind t (c, m2) with
      | none => rfl
      | some x =>
        exfalso
        have hmem := utxoFind_mem hf
        have hlt : e0.1.1 < c ∨ (e0.1.1 = c ∧ e0.1.2 < m2) := hs'.1 _ hmem
        rcases hlt with hx | ⟨_, hx⟩
        · rw [h1.1] at hx
          exact lt_irrefl _ hx
        · exact lt_asymm hx hm2
    · rw [if_neg h1] at h
      intro m2 hm2
      rw [utxoFind_cons]
      by_cases hk : (c, m2) = e0.1
      · exfalso
        apply h1
        rw [← hk]
        refine ⟨rfl, ?_⟩
        have hb := (utxoFindRangeFirst_mem h).2.2
        show m2 ≤ bound
        exact le_trans hm2.le hb
      · rw [if_neg hk]
        exact ih hs'.2 h m2 hm2

set_option maxHeartbeats 400000 in
/-- C5: a forward input with maturity adjustment at height `h` fails
exactly when no maturity `≤ h` is present for the commitment; on success
it settles on the smallest present maturity `≤ h` (every smaller one is
absent), records it into the input, and decrements the leaf count,
deleting the leaf when the count was one. -/
theorem claim_C5_input_smallest_maturity {st : PState} {v : Input} {h : Height}
    (hv : uValid st.m_Utxos) :
    (HandleBlockElementInput st v h none true true = none ↔
      ∀ m2, m2 ≤ h → utxoFind st.m_Utxos (v.m_Commitment, m2) = none) ∧
    (∀ st1 v1, HandleBlockElementInput st v h none true true = some (st1, v1) →
      ∃ cnt, utxoFind st.m_Utxos (v.m_Commitment, v1.m_Maturity) = some cnt ∧ 1 ≤ cnt ∧
        v1.m_Maturity ≤ h ∧
        (∀ m2, m2 < v1.m_Maturity → utxoFind st.m_Utxos (v.m_Commitment, m2) = none) ∧
        v1.m_Commitment = v.m_Commitment ∧
        st1.m_Utxos = (if cnt = 1 then utxoDel st.m_Utxos (v.m_Commitment, v1.m_Maturity)
          else utxoSet st.m_Utxos (v.m_Commitment, v1.m_Maturity) (cnt - 1)) ∧
        st1.m_Kernels = st.m_Kernels) := by
  constructor
  · constructor
    · intro hnone m2 hm2
      rw [hbeInput_fwd_adj_eq] at hnone
      cases hr : utxoFindRangeFirst st.m_Utxos v.m_Commitment ((none : Option Height).getD h) with
      | none => exact utxoFindRangeFirst_none hr m2 hm2
      | some e =>
        rw [hr] at hnone
        cases hnone
    · intro hall
      rw [hbeInput_fwd_adj_eq]
      cases hr : utxoFindRangeFirst st.m_Utxos v.m_Commitment ((none : Option Height).getD h) with
      | none => rfl
      | some e =>
        exfalso
        obtain ⟨hmem, hc, hb⟩ := utxoFindRangeFirst_mem hr
        have hf : utxoFind st.m_Utxos e.1 = some e.2 := utxoFind_sorted_mem hv.1 hmem
        have hthis := hall e.1.2 hb
        rw [← hc] at hthis
        have h2 : (some e.2 : Option Nat) = none := by
          rw [← hf]
          exact hthis
        cases h2
  · intro st1 v1 heq
    rw [hbeInput_fwd_adj_eq] at heq
    cases hr : utxoFindRangeFirst st.m_Utxos v.m_Commitment ((none : Option Height).getD h) with
    | none =>
      rw [hr] at heq
      cases heq
    | some e =>
      rcases e with ⟨kk, cnt⟩
      rw [hr] at heq
      dsimp only at heq
      obtain ⟨hmem, hc, hb⟩ := utxoFindRangeFirst_mem hr
      have hf : utxoFind st.m_Utxos kk = some cnt := utxoFind_sorted_mem hv.1 hmem
      simp only [Option.some.injEq, Prod.mk.injEq] at heq
      obtain ⟨hst1, hv1⟩ := heq
      have hmat : v1.m_Maturity = kk.2 := by rw [← hv1]
      have hcom : v1.m_Commitment = v.m_Commitment := by rw [← hv1]
      have hkey : (v.m_Commitment, v1.m_Maturity) = kk := by rw [hmat, ← hc]
      have hcb := uCount_find_pos hv hf
      refine ⟨cnt, by rw [hkey]; exact hf, hcb.1, by rw [hmat]; exact hb, ?_, hcom, ?_, ?_⟩
      · intro m2 hm2
        rw [hmat] at hm2
        exact utxoFindRangeFirst_min hv.1 hr m2 hm2
      · rw [← hst1, decCountAt]
        dsimp only
        rw [decr_mod hcb.1 hcb.2, hkey]
        by_cases hc1 : cnt = 1
        · subst hc1
          rw [if_pos rfl, if_pos rfl]
        · have hne : ¬ (cnt - 1 = 0) := by omega
          rw [if_neg hne, if_neg hc1]
      · rw [← hst1, decCountAt]

/-- A UTXO set for the C5 witness: commitment 4 at maturities 2 and 5. -/
def c5wSt : PState := ⟨[((4, 2), 1), ((4, 5), 2)], [], true, 0, 0⟩

/-- The input consumed in the C5 witness run. -/
def c5wIn : Input := ⟨4, 0⟩

/-- Witness for C5 at the concrete state above. -/
theorem claim_C5_input_smallest_maturity_witness :
    (HandleBlockElementInput c5wSt c5wIn 9 none true true = none ↔
      ∀ m2, m2 ≤ 9 → utxoFind c5wSt.m_Utxos (c5wIn.m_Commitment, m2) = none) ∧
    (∀ st1 v1, HandleBlockElementInput c5wSt c5wIn 9 none true true = some (st1, v1) →
      ∃ cnt, utxoFind c5wSt.m_Utxos (c5wIn.m_Commitment, v1.m_Maturity) = some cnt ∧ 1 ≤ cnt ∧
        v1.m_Maturity ≤ 9 ∧
        (∀ m2, m2 < v1.m_Maturity → utxoFind c5wSt.m_Utxos (c5wIn.m_Commitment, m2) = none) ∧
        v1.m_Commitment = c5wIn.m_Commitment ∧
        st1.m_Utxos = (if cnt = 1 then utxoDel c5wSt.m_Utxos (c5wIn.m_Commitment, v1.m_Maturity)
          else utxoSet c5wSt.m_Utxos (c5wIn.m_Commitment, v1.m_Maturity) (cnt - 1)) ∧
        st1.m_Kernels = c5wSt.m_Kernels) :=
  @claim_C5_input_smallest_maturity c5wSt c5wIn 9 (by decide)

set_option maxHeartbeats 400000 in
/-- C8: on a leaf that already holds `cnt` (a stored `uint32`, so
`1 ≤ cnt < 2^32`), the forward output handler fails exactly when the
increment would wrap (`cnt = 2^32 - 1`) and otherwise stores `cnt + 1`;
the reverse handler deletes the leaf when `cnt = 1` and otherwise stores
`cnt - 1`. -/
theorem claim_C8_output_count_overflow {st : PState} {v : Output} {h : Height}
    {pHMax : Option Height} {k : UtxoKey} {cnt : Nat}
    (hkey : outputKeyOf v h pHMax = some k)
    (hf : utxoFind st.m_Utxos k = some cnt)
    (h1 : 1 ≤ cnt) (hlt : cnt < countMod) :
    (HandleBlockElementOutput st v h pHMax true =
      (if cnt = countMod - 1 then none
       else some { st with m_Utxos := utxoSet st.m_Utxos k (cnt + 1) })) ∧
    (HandleBlockElementOutput st v h pHMax false =
      (if cnt = 1 then some { st with m_Utxos := utxoDel st.m_Utxos k }
       else some { st with m_Utxos := utxoSet st.m_Utxos k (cnt - 1) })) := by
  constructor
  · rw [hbeOutput_fwd_eq, hkey]
    dsimp only
    rw [hf]
    dsimp only
    by_cases hw : cnt = countMod - 1
    · have hz : (cnt + 1) % countMod = 0 := by
        rw [hw]
        have : countMod - 1 + 1 = countMod := by
          have := countMod_pos
          omega
        rw [this, Nat.mod_self]
      rw [if_pos hz, if_pos hw]
    · have hnz : ¬ ((cnt + 1) % countMod = 0) := by
        have hsm : (cnt + 1) % countMod = cnt + 1 := Nat.mod_eq_of_lt (by omega)
        rw [hsm]
        omega
      have hsm : (cnt + 1) % countMod = cnt + 1 := Nat.mod_eq_of_lt (by omega)
      rw [if_neg hnz, if_neg hw, hsm]
  · rw [hbeOutput_rev_eq, hkey]
    dsimp only
    rw [hf]
    dsimp only
    by_cases hc1 : cnt = 1
    · rw [if_pos hc1, if_pos hc1]
    · rw [if_neg hc1, if_neg hc1, decr_mod h1 hlt]

/-- The state for the C8 witness: one leaf at the maximal count and one
ordinary leaf. -/
def c8wSt : PState := ⟨[((3, 61), countMod - 1)], [], true, 0, 0⟩

/-- The output applied in the C8 witness run (standard output at height
1, so its screened key is `(3, 61)`). -/
def c8wOut : Output := ⟨3, 0, true, 0⟩

/-- Witness for C8: at the concrete state above the forward increment
wraps and the handler fails, and the reverse handler decrements. -/
theorem claim_C8_output_count_overflow_witness :
    (HandleBlockElementOutput c8wSt c8wOut 1 none true =
      (if countMod - 1 = countMod - 1 then none
       else some { c8wSt with m_Utxos := utxoSet c8wSt.m_Utxos (3, 61) (countMod - 1 + 1) })) ∧
    (HandleBlockElementOutput c8wSt c8wOut 1 none false =
      (if countMod - 1 = 1 then some { c8wSt with m_Utxos := utxoDel c8wSt.m_Utxos (3, 61) }
       else some { c8wSt with
        m_Utxos := utxoSet c8wSt.m_Utxos (3, 61) (countMod - 1 - 1) })) :=
  @claim_C8_output_count_overflow c8wSt c8wOut 1 none (3, 61) (countMod - 1)
    (by decide) (by decide) (by decide) (by decide)

/-- The input handler only ever touches the UTXO tree. -/
theorem hbeInput_frame {st : PState} {v : Input} {h : Height} {pHMax : Option Height}
    {bFwd adj : Bool} {st1 : PState} {v1 : Input}
    (heq : HandleBlockElementInput st v h pHMax bFwd adj = some (st1, v1)) :
    st1.m_Kernels = st.m_Kernels ∧ st1.m_SubsidyOpen = st.m_SubsidyOpen ∧
    st1.m_Subsidy = st.m_Subsidy ∧ st1.m_Offset = st.m_Offset := by
  cases bFwd with
  | false =>
    rw [hbeInput_rev_eq] at heq
    simp only [Option.some.injEq, Prod.mk.injEq] at heq
    obtain ⟨hst, _⟩ := heq
    rw [← hst]
    exact ⟨rfl, rfl, rfl, rfl⟩
  | true =>
    cases adj with
    | true =>
      rw [hbeInput_fwd_adj_eq] at heq
      cases hr : utxoFindRangeFirst st.m_Utxos v.m_Commitment (pHMax.getD h) with
      | none => rw [hr] at heq; cases heq
      | some e =>
        rcases e with ⟨kk, cnt⟩
        rw [hr] at heq
        dsimp only at heq
        simp only [Option.some.injEq, Prod.mk.injEq] at heq
        obtain ⟨hst, _⟩ := heq
        rw [← hst]
        refine ⟨?_, ?_, ?_, ?_⟩ <;> rw [decCountAt]
    | false =>
      rw [hbeInput_fwd_noadj_eq] at heq
      cases pHMax with
      | none => cases heq
      | some hMax =>
        dsimp only at heq
        by_cases hmat : v.m_Maturity > hMax
        · rw [if_pos hmat] at heq
          cases heq
        · rw [if_neg hmat] at heq
          cases hf : utxoFind st.m_Utxos (v.m_Commitment, v.m_Maturity) with
          | none => rw [hf] at heq; cases heq
          | some cnt =>
            rw [hf] at heq
            dsimp only at heq
            simp only [Option.some.injEq, Prod.mk.injEq] at heq
            obtain ⟨hst, _⟩ := heq
            rw [← hst]
            refine ⟨?_, ?_, ?_, ?_⟩ <;> rw [decCountAt]

/-- The output handler only ever touches the UTXO tree. -/
theorem hbeOutput_frame {st : PState} {v : Output} {h : Height} {pHMax : Option Height}
    {bFwd : Bool} {st1 : PState}
    (heq : HandleBlockElementOutput st v h pHMax bFwd = some st1) :
    st1.m_Kernels = st.m_Kernels ∧ st1.m_SubsidyOpen = st.m_SubsidyOpen ∧
    st1.m_Subsidy = st.m_Subsidy ∧ st1.m_Offset = st.m_Offset := by
  cases bFwd with
  | true =>
    rw [hbeOutput_fwd_eq] at heq
    cases hk : outputKeyOf v h pHMax with
    | none => rw [hk] at heq; cases heq
    | some k =>
      rw [hk] at heq
      dsimp only at heq
      cases hf : utxoFind st.m_Utxos k with
      | none =>
        rw [hf] at heq
        dsimp only at heq
        simp only [Option.some.injEq] at heq
        rw [← heq]
        exact ⟨rfl, rfl, rfl, rfl⟩
      | some cnt =>
        rw [hf] at heq
        dsimp only at heq
        by_cases hw : (cnt + 1) % countMod = 0
        · rw [if_pos hw] at heq
          cases heq
        · rw [if_neg hw] at heq
          simp only [Option.some.injEq] at heq
          rw [← heq]
          exact ⟨rfl, rfl, rfl, rfl⟩
  | false =>
    rw [hbeOutput_rev_eq] at heq
    cases hk : outputKeyOf v h pHMax with
    | none => rw [hk] at heq; cases heq
    | some k =>
      rw [hk] at heq
      dsimp only at heq
      cases hf : utxoFind st.m_Utxos k with
      | none =>
        rw [hf] at heq
        dsimp only at heq
        simp only [Option.some.injEq] at heq
        rw [← heq]
        exact ⟨rfl, rfl, rfl, rfl⟩
      | some cnt =>
        rw [hf] at heq
        dsimp only at heq
        by_cases hc1 : cnt = 1
        · rw [if_pos hc1] at heq
          simp only [Option.some.injEq] at heq
          rw [← heq]
          exact ⟨rfl, rfl, rfl, rfl⟩
        · rw [if_neg hc1] at heq
          simp only [Option.some.injEq] at heq
          rw [← heq]
          exact ⟨rfl, rfl, rfl, rfl⟩

/-- The kernel handler touches only the kernel set, and, for a nonzero
kernel id, leaves membership of the zero sentinel unchanged. -/
theorem hbek_frame {st : PState} {v : TxKernel} {bFwd bIsInput : Bool} {st1 : PState}
    (hks : kSorted st.m_Kernels) (hnz : v.m_ID ≠ 0)
    (heq : HandleBlockElementKernel st v bFwd bIsInput = some st1) :
    kSorted st1.m_Kernels ∧ kFind st1.m_Kernels 0 = kFind st.m_Kernels 0 ∧
    st1.m_Utxos = st.m_Utxos ∧ st1.m_SubsidyOpen = st.m_SubsidyOpen ∧
    st1.m_Subsidy = st.m_Subsidy ∧ st1.m_Offset = st.m_Offset := by
  have hx0 : ¬ (0 = v.m_ID) := fun hx => hnz hx.symm
  cases hd : (bFwd != bIsInput) with
  | true =>
    cases hf : kFind st.m_Kernels v.m_ID with
    | true => rw [hbek_add_none hd hf] at heq; cases heq
    | false =>
      rw [hbek_add_some hd hf] at heq
      simp only [Option.some.injEq] at heq
      rw [← heq]
      refine ⟨kSorted_insert hks _, ?_, rfl, rfl, rfl, rfl⟩
      show kFind (kInsert st.m_Kernels v.m_ID) 0 = kFind st.m_Kernels 0
      rw [kFind_insert_point]
      simp [hx0]
  | false =>
    cases hf : kFind st.m_Kernels v.m_ID with
    | false => rw [hbek_rem_none hd hf] at heq; cases heq
    | true =>
      rw [hbek_rem_some hd hf] at heq
      simp only [Option.some.injEq] at heq
      rw [← heq]
      refine ⟨kSorted_delete hks _, ?_, rfl, rfl, rfl, rfl⟩
      show kFind (kDelete st.m_Kernels v.m_ID) 0 = kFind st.m_Kernels 0
      rw [kFind_delete_point hks]
      simp [hx0]

/-- The input loop only ever touches the UTXO tree, in both directions. -/
theorem runInputs_frame {st : PState} {l : List Input} {h : Height} {pHMax : Option Height}
    {bFwd adj : Bool} {st1 : PState} {pre rest : List Input} {ok : Bool}
    (heq : runInputs st l h pHMax bFwd adj = (st1, pre, rest, ok)) :
    st1.m_Kernels = st.m_Kernels ∧ st1.m_SubsidyOpen = st.m_SubsidyOpen ∧
    st1.m_Subsidy = st.m_Subsidy ∧ st1.m_Offset = st.m_Offset := by
  induction l generalizing st pre rest ok with
  | nil =>
    rw [runInputs] at heq
    obtain ⟨rfl, _, _, _⟩ :
        st = st1 ∧ ([] : List Input) = pre ∧ ([] : List Input) = rest ∧ true = ok := by
      simpa [Prod.ext_iff] using heq
    exact ⟨rfl, rfl, rfl, rfl⟩
  | cons v t ih =>
    rw [runInputs] at heq
    cases hstep : HandleBlockElementInput st v h pHMax bFwd adj with
    | none =>
      rw [hstep] at heq
      dsimp only at heq
      obtain ⟨rfl, _, _, _⟩ :
          st = st1 ∧ ([] : List Input) = pre ∧ v :: t = rest ∧ false = ok := by
        simpa [Prod.ext_iff] using heq
      exact ⟨rfl, rfl, rfl, rfl⟩
    | some p =>
      rcases p with ⟨stA, v1⟩
      rw [hstep] at heq
      dsimp only at heq
      rcases hrun : runInputs stA t h pHMax bFwd adj with ⟨stB, preB, restB, okB⟩
      rw [hrun] at heq
      dsimp only at heq
      obtain ⟨rfl, _, _, _⟩ :
          stB = st1 ∧ v1 :: preB = pre ∧ restB = rest ∧ okB = ok := by
        simpa [Prod.ext_iff] using heq
      obtain ⟨hk1, ho1, hs1, hf1⟩ := hbeInput_frame hstep
      obtain ⟨hk2, ho2, hs2, hf2⟩ := ih hrun
      exact ⟨hk2.trans hk1, ho2.trans ho1, hs2.trans hs1, hf2.trans hf1⟩

/-- The output loop only ever touches the UTXO tree, in both directions. -/
theorem runOutputs_frame {st : PState} {l : List Output} {h : Height} {pHMax : Option Height}
    {bFwd : Bool} {st1 : PState} {pre rest : List Output} {ok : Bool}
    (heq : runOutputs st l h pHMax bFwd = (st1, pre, rest, ok)) :
    st1.m_Kernels = st.m_Kernels ∧ st1.m_SubsidyOpen = st.m_SubsidyOpen ∧
    st1.m_Subsidy = st.m_Subsidy ∧ st1.m_Offset = st.m_Offset := by
  induction l generalizing st pre rest ok with
  | nil =>
    rw [runOutputs] at heq
    obtain ⟨rfl, _, _, _⟩ :
        st = st1 ∧ ([] : List Output) = pre ∧ ([] : List Output) = rest ∧ true = ok := by
      simpa [Prod.ext_iff] using heq
    exact ⟨rfl, rfl, rfl, rfl⟩
  | cons v t ih =>
    rw [runOutputs] at heq
    cases hstep : HandleBlockElementOutput st v h pHMax bFwd with
    | none =>
      rw [hstep] at heq
      dsimp only at heq
      obtain ⟨rfl, _, _, _⟩ :
          st = st1 ∧ ([] : List Output) = pre ∧ v :: t = rest ∧ false = ok := by
        simpa [Prod.ext_iff] using heq
      exact ⟨rfl, rfl, rfl, rfl⟩
    | some stA =>
      rw [hstep] at heq
      dsimp only at heq
      rcases hrun : runOutputs stA t h pHMax bFwd with ⟨stB, preB, restB, okB⟩
      rw [hrun] at heq
      dsimp only at heq
      obtain ⟨rfl, _, _, _⟩ :
          stB = st1 ∧ v :: preB = pre ∧ restB = rest ∧ okB = ok := by
        simpa [Prod.ext_iff] using heq
      obtain ⟨hk1, ho1, hs1, hf1⟩ := hbeOutput_frame hstep
      obtain ⟨hk2, ho2, hs2, hf2⟩ := ih hrun
      exact ⟨hk2.trans hk1, ho2.trans ho1, hs2.trans hs1, hf2.trans hf1⟩

/-- The kernel loop, in either direction, keeps the kernel set sorted,
never touches the other state components, and, when every handled id is
nonzero, leaves membership of the zero sentinel unchanged. -/
theorem runKernels_frame {st : PState} {l : List TxKernel} {bFwd bIsInput : Bool}
    {st1 : PState} {pre rest : List TxKernel} {ok : Bool}
    (hks : kSorted st.m_Kernels) (hnz : ∀ x ∈ kIds l, x ≠ 0)
    (heq : runKernels st l bFwd bIsInput = (st1, pre, rest, ok)) :
    kSorted st1.m_Kernels ∧ kFind st1.m_Kernels 0 = kFind st.m_Kernels 0 ∧
    st1.m_Utxos = st.m_Utxos ∧ st1.m_SubsidyOpen = st.m_SubsidyOpen ∧
    st1.m_Subsidy = st.m_Subsidy ∧ st1.m_Offset = st.m_Offset := by
  induction l generalizing st pre rest ok with
  | nil =>
    rw [runKernels] at heq
    obtain ⟨rfl, _, _, _⟩ :
        st = st1 ∧ ([] : List TxKernel) = pre ∧ ([] : List TxKernel) = rest ∧ true = ok := by
      simpa [Prod.ext_iff] using heq
    exact ⟨hks, rfl, rfl, rfl, rfl, rfl⟩
  | cons v t ih =>
    rw [runKernels] at heq
    cases hstep : HandleBlockElementKernel st v bFwd bIsInput with
    | none =>
      rw [hstep] at heq
      dsimp only at heq
      obtain ⟨rfl, _, _, _⟩ :
          st = st1 ∧ ([] : List TxKernel) = pre ∧ v :: t = rest ∧ false = ok := by
        simpa [Prod.ext_iff] using heq
      exact ⟨hks, rfl, rfl, rfl, rfl, rfl⟩
    | some stA =>
      rw [hstep] at heq
      dsimp only at heq
      rcases hrun : runKernels stA t bFwd bIsInput with ⟨stB, preB, restB, okB⟩
      rw [hrun] at heq
      dsimp only at heq
      obtain ⟨rfl, _, _, _⟩ :
          stB = st1 ∧ v :: preB = pre ∧ restB = rest ∧ okB = ok := by
        simpa [Prod.ext_iff] using heq
      have hnzv : v.m_ID ≠ 0 := hnz v.m_ID (by rw [kIds_cons]; exact List.mem_cons_self _ _)
      obtain ⟨hksA, hf0A, hu1, ho1, hs1, hfo1⟩ := hbek_frame hks hnzv hstep
      have hnzt : ∀ x ∈ kIds t, x ≠ 0 := fun x hx =>
        hnz x (by rw [kIds_cons]; exact List.mem_cons_of_mem _ hx)
      obtain ⟨hksB, hf0B, hu2, ho2, hs2, hfo2⟩ := ih hksA hnzt hrun
      exact ⟨hksB, hf0B.trans hf0A, hu2.trans hu1, ho2.trans ho1,
        hs2.trans hs1, hfo2.trans hfo1⟩

set_option maxHeartbeats 1000000 in
/-- A successful `HandleValidatedTx` in either direction keeps the kernel
set sorted, membership of the zero sentinel unchanged (all handled ids
being nonzero), and the subsidy-open flag untouched. -/
theorem hvtx_ok_frame {st : PState} {body : BlockBody} {h : Height}
    {bFwd bAdj : Bool} {pHMax : Option Height} {st1 : PState} {body1 : BlockBody}
    (hks : kSorted st.m_Kernels)
    (hnzin : ∀ x ∈ kIds body.m_vKernelsInput, x ≠ 0)
    (hnzout : ∀ x ∈ kIds body.m_vKernelsOutput, x ≠ 0)
    (heq : HandleValidatedTx st body h bFwd bAdj pHMax = TxResult.ok st1 body1) :
    kSorted st1.m_Kernels ∧ kFind st1.m_Kernels 0 = kFind st.m_Kernels 0 ∧
    st1.m_SubsidyOpen = st.m_SubsidyOpen := by
  rw [HandleValidatedTx] at heq
  rcases hrI : runInputs st body.m_vInputs h pHMax bFwd bAdj with ⟨sA, insPre, insRest, okI⟩
  rw [hrI] at heq
  dsimp only at heq
  cases okI with
  | false =>
    cases bFwd with
    | false => cases heq
    | true =>
      rw [if_neg (by decide)] at heq
      cases heq
  | true =>
    rw [if_pos rfl] at heq
    rcases hrO : runOutputs sA body.m_vOutputs h pHMax bFwd with ⟨sB, outsPre, outsRest, okO⟩
    rw [hrO] at heq
    dsimp only at heq
    cases okO with
    | false =>
      cases bFwd with
      | false => cases heq
      | true =>
        rw [if_neg (by decide)] at heq
        cases heq
    | true =>
      rw [if_pos rfl] at heq
      rcases hrKI : runKernels sB body.m_vKernelsInput bFwd true with ⟨sC, kinPre, kinRest, okKI⟩
      rw [hrKI] at heq
      dsimp only at heq
      cases okKI with
      | false =>
        cases bFwd with
        | false => cases heq
        | true =>
          rw [if_neg (by decide)] at heq
          cases heq
      | true =>
        rw [if_pos rfl] at heq
        rcases hrKO : runKernels sC body.m_vKernelsOutput bFwd false with
          ⟨sD, koutPre, koutRest, okKO⟩
        rw [hrKO] at heq
        dsimp only at heq
        cases okKO with
        | false =>
          cases bFwd with
          | false => cases heq
          | true =>
            rw [if_neg (by decide)] at heq
            cases heq
        | true =>
          rw [if_pos rfl] at heq
          injection heq with h1 h2
          subst h1
          obtain ⟨hkA, hoA, _, _⟩ := runInputs_frame hrI
          obtain ⟨hkB, hoB, _, _⟩ := runOutputs_frame hrO
          have hksB : kSorted sB.m_Kernels := by rw [hkB, hkA]; exact hks
          obtain ⟨hksC, hf0C, _, hoC, _, _⟩ := runKernels_frame hksB hnzin hrKI
          obtain ⟨hksD, hf0D, _, hoD, _, _⟩ := runKernels_frame hksC hnzout hrKO
          refine ⟨hksD, ?_, ?_⟩
          · rw [hf0D, hf0C, hkB, hkA]
          · rw [hoD, hoC, hoB, hoA]

set_option maxHeartbeats 1000000 in
/-- C6: a subsidy-closing body whose direction disagrees with the current
subsidy-open flag is rejected with the state untouched; and on every
successful `HandleValidatedBlock` (kernel ids nonzero) the sentinel
invariant I5 — the flag equals non-membership of the zero hash in the
kernel set — is preserved, and a closing body requires the flag to equal
the direction and flips it. -/
theorem claim_C6_subsidy_sentinel {st : PState} {body : BlockBody} {h : Height}
    {bFwd bAdj : Bool} {pHMax : Option Height}
    (hks : kSorted st.m_Kernels)
    (hI5 : st.m_SubsidyOpen = !(kFind st.m_Kernels 0))
    (hnzin : ∀ x ∈ kIds body.m_vKernelsInput, x ≠ 0)
    (hnzout : ∀ x ∈ kIds body.m_vKernelsOutput, x ≠ 0) :
    (body.m_SubsidyClosing = true → st.m_SubsidyOpen ≠ bFwd →
      HandleValidatedBlock st body h bFwd bAdj pHMax = TxResult.failed st body) ∧
    (∀ st1 body1, HandleValidatedBlock st body h bFwd bAdj pHMax = TxResult.ok st1 body1 →
      st1.m_SubsidyOpen = !(kFind st1.m_Kernels 0) ∧
      (body.m_SubsidyClosing = true →
        st.m_SubsidyOpen = bFwd ∧ st1.m_SubsidyOpen = (!bFwd))) := by
  constructor
  · intro hcl hne
    rw [HandleValidatedBlock, if_pos ⟨hcl, hne⟩]
  · intro st1 body1 heq
    rw [HandleValidatedBlock] at heq
    by_cases hgate : body.m_SubsidyClosing = true ∧ st.m_SubsidyOpen ≠ bFwd
    · rw [if_pos hgate] at heq
      cases heq
    · rw [if_neg hgate] at heq
      cases htx : HandleValidatedTx st body h bFwd bAdj pHMax with
      | corrupted => rw [htx] at heq; cases heq
      | failed stx bodyx =>
        rw [htx] at heq
        dsimp only at heq
        cases heq
      | ok stx bodyx =>
        rw [htx] at heq
        dsimp only at heq
        obtain ⟨hksx, hf0x, hox⟩ := hvtx_ok_frame hks hnzin hnzout htx
        by_cases hcl : body.m_SubsidyClosing = true
        · have hob : st.m_SubsidyOpen = bFwd := by
            by_contra hx
            exact hgate ⟨hcl, hx⟩
          rw [if_pos hcl] at heq
          cases hfv : kFind stx.m_Kernels 0 with
          | false =>
            have hfv' : ¬ (kFind stx.m_Kernels 0 = true) := by
              rw [hfv]
              exact Bool.false_ne_true
            have hTog : ToggleSubsidyOpened stx =
                { stx with m_Kernels := kInsert stx.m_Kernels 0, m_SubsidyOpen := false } := by
              rw [ToggleSubsidyOpened, if_neg hfv']
            rw [hTog] at heq
            have hopen : st.m_SubsidyOpen = true := by
              rw [hI5, ← hf0x, hfv]
              rfl
            have hfw : bFwd = true := by rw [← hob, hopen]
            subst hfw
            rw [if_pos rfl] at heq
            injection heq with h1 h2
            rw [← h1]
            refine ⟨?_, fun _ => ⟨hob, ?_⟩⟩
            · show false = !(kFind (kInsert stx.m_Kernels 0) 0)
              rw [kFind_insert_self]
              rfl
            · show false = !true
              rfl
          | true =>
            have hTog : ToggleSubsidyOpened stx =
                { stx with m_Kernels := kDelete stx.m_Kernels 0, m_SubsidyOpen := true } := by
              rw [ToggleSubsidyOpened, if_pos hfv]
            rw [hTog] at heq
            have hopen : st.m_SubsidyOpen = false := by
              rw [hI5, ← hf0x, hfv]
              rfl
            have hfw : bFwd = false := by rw [← hob, hopen]
            subst hfw
            rw [if_neg Bool.false_ne_true] at heq
            injection heq with h1 h2
            rw [← h1]
            refine ⟨?_, fun _ => ⟨hob, ?_⟩⟩
            · show true = !(kFind (kDelete stx.m_Kernels 0) 0)
              rw [kFind_delete_point hksx]
              simp
            · show true = !false
              rfl
        · rw [if_neg hcl] at heq
          cases bFwd with
          | true =>
            rw [if_pos rfl] at heq
            injection heq with h1 h2
            rw [← h1]
            refine ⟨?_, fun hx => absurd hx hcl⟩
            show stx.m_SubsidyOpen = !(kFind stx.m_Kernels 0)
            rw [hox, hf0x, hI5]
          | false =>
            rw [if_neg Bool.false_ne_true] at heq
            injection heq with h1 h2
            rw [← h1]
            refine ⟨?_, fun hx => absurd hx hcl⟩
            show stx.m_SubsidyOpen = !(kFind stx.m_Kernels 0)
            rw [hox, hf0x, hI5]

/-- A state for the C6 witness: subsidy open, sentinel absent. -/
def c6wSt : PState := ⟨[], [8], true, 0, 0⟩

/-- A subsidy-closing body with one nonzero output kernel. -/
def c6wBody : BlockBody :=
  { m_vInputs := [], m_vOutputs := [], m_vKernelsInput := [],
    m_vKernelsOutput := [⟨2, 0, 0⟩], m_SubsidyClosing := true,
    m_Subsidy := 0, m_Offset := 0 }

/-- Witness for C6 at the concrete state and closing body above, applied
in the reverse direction (the flag disagrees, so the call is gated). -/
theorem claim_C6_subsidy_sentinel_witness :
    (c6wBody.m_SubsidyClosing = true → c6wSt.m_SubsidyOpen ≠ false →
      HandleValidatedBlock c6wSt c6wBody 1 false false none = TxResult.failed c6wSt c6wBody) ∧
    (∀ st1 body1, HandleValidatedBlock c6wSt c6wBody 1 false false none = TxResult.ok st1 body1 →
      st1.m_SubsidyOpen = !(kFind st1.m_Kernels 0) ∧
      (c6wBody.m_SubsidyClosing = true →
        c6wSt.m_SubsidyOpen = false ∧ st1.m_SubsidyOpen = (!false))) :=
  @claim_C6_subsidy_sentinel c6wSt c6wBody 1 false false none
    (by decide) (by decide) (by decide) (by decide)

/-- `NodeProcessor::ValidateTxWrtHeight`: every output kernel must admit
the height. -/
def ValidateTxWrtHeight (tx : BlockBody) (h : Height) : Bool :=
  tx.m_vKernelsOutput.all (fun v => v.heightInRange h)

/-- The loop of `NodeProcessor::ValidateTxContextKernels`: `phv[2]` is an
alternating two-slot buffer, so each iteration compares the current
kernel id only against the previous one (`phv[1]` starts as the zero
hash), then checks membership in the live kernel set against `bInp`. -/
def validateTxContextKernelsLoop (ks : KernelSet) (bInp : Bool) : Nat → List TxKernel → Bool
  | _, [] => true
  | prev, v :: t =>
    if v.m_ID = prev then false
    else if bInp != kFind ks v.m_ID then false
    else validateTxContextKernelsLoop ks bInp v.m_ID t

/-- `NodeProcessor::ValidateTxContextKernels`. -/
def ValidateTxContextKernels (ks : KernelSet) (vec : List TxKernel) (bInp : Bool) : Bool :=
  validateTxContextKernelsLoop ks bInp 0 vec

/-- Length of the run of consecutive inputs sharing the commitment. -/
def takeComm (c : Nat) : List Input → Nat
  | [] => 0
  | v :: t => if v.m_Commitment = c then 1 + takeComm c t else 0

/-- The inputs left after the run sharing the commitment. -/
def dropComm (c : Nat) : List Input → List Input
  | [] => []
  | v :: t => if v.m_Commitment = c then dropComm c t else v :: t

/-- The `Traveler` of `ValidateTxContext`: walk the leaves of the range
`[(c,0), (c,h)]` in key order, subtracting each leaf count from the
needed count, and stop (success) once the remaining need is covered;
reaching the end of the traversal means inputs are missing. -/
def inputPresenceLoop : UtxoMap → Nat → Nat → Height → Bool
  | [], _, _, _ => false
  | e :: t, cnt, c, bound =>
    if e.1.1 = c ∧ e.1.2 ≤ bound then
      if cnt ≤ e.2 then true else inputPresenceLoop t (cnt - e.2) c bound
    else inputPresenceLoop t cnt c bound

/-- The input-presence loop of `ValidateTxContext`: inputs with equal
consecutive commitments are grouped and their multiplicity is required
from the range of the group commitment.  The fuel is the list length
(each group is nonempty, so it suffices). -/
def validateInputsLoop (m : UtxoMap) (h : Height) : Nat → List Input → Bool
  | _, [] => true
  | 0, _ :: _ => false
  | fuel + 1, v :: t =>
    inputPresenceLoop m (1 + takeComm v.m_Commitment t) v.m_Commitment h &&
      validateInputsLoop m h fuel (dropComm v.m_Commitment t)

/-- `NodeProcessor::ValidateTxContext`: height admissibility, input
presence, then both kernel vectors checked with `bInp = false`. -/
def ValidateTxContext (m : UtxoMap) (ks : KernelSet) (cursorH : Height) (tx : BlockBody) :
    Bool :=
  ValidateTxWrtHeight tx (cursorH + 1) &&
  (validateInputsLoop m (cursorH + 1) tx.m_vInputs.length tx.m_vInputs &&
   (ValidateTxContextKernels ks tx.m_vKernelsOutput false &&
    ValidateTxContextKernels ks tx.m_vKernelsInput false))

/-- Two consecutive equal kernel ids anywhere in the vector make the
kernel-context loop fail, whatever preceded them. -/
theorem ktxloop_adjdup {ks : KernelSet} {bInp : Bool} {l1 l2 : List TxKernel}
    {v w : TxKernel} (hvw : v.m_ID = w.m_ID) :
    ∀ prev, validateTxContextKernelsLoop ks bInp prev (l1 ++ v :: w :: l2) = false := by
  induction l1 with
  | nil =>
    intro prev
    rw [List.nil_append, validateTxContextKernelsLoop]
    by_cases h1 : v.m_ID = prev
    · rw [if_pos h1]
    · rw [if_neg h1]
      by_cases h2 : (bInp != kFind ks v.m_ID) = true
      · rw [if_pos h2]
      · rw [if_neg h2, validateTxContextKernelsLoop]
        rw [if_pos hvw.symm]
  | cons u t ih =>
    intro prev
    rw [List.cons_append, validateTxContextKernelsLoop]
    by_cases h1 : u.m_ID = prev
    · rw [if_pos h1]
    · rw [if_neg h1]
      by_cases h2 : (bInp != kFind ks u.m_ID) = true
      · rw [if_pos h2]
      · rw [if_neg h2]
        exact ih u.m_ID

/-- The UTXO set for the C9 accepted run. -/
def c9wUtxos : UtxoMap := [((6, 0), 1)]

/-- A transaction whose output kernel ids are `[1, 2, 1]`: equal ids at
the non-adjacent positions 0 and 2. -/
def c9wTx : BlockBody :=
  { m_vInputs := [⟨6, 0⟩], m_vOutputs := [], m_vKernelsInput := [],
    m_vKernelsOutput := [⟨1, 0, 5⟩, ⟨2, 0, 5⟩, ⟨1, 0, 5⟩], m_SubsidyClosing := false,
    m_Subsidy := 0, m_Offset := 0 }

set_option maxHeartbeats 400000 in
/-- C9: duplicate-kernel detection is adjacency-based only.  Any two
consecutive kernels with equal ids in either vector make
`ValidateTxContext` reject; yet the concrete transaction above, with
equal ids at non-adjacent positions of the output vector, every id
absent from the (empty) live kernel set and its input present, is
accepted. -/
theorem claim_C9_adjacent_duplicate_detection :
    (∀ (m : UtxoMap) (ks : KernelSet) (cursorH : Height) (tx : BlockBody)
      (l1 l2 : List TxKernel) (v w : TxKernel), v.m_ID = w.m_ID →
      (tx.m_vKernelsInput = l1 ++ v :: w :: l2 ∨ tx.m_vKernelsOutput = l1 ++ v :: w :: l2) →
      ValidateTxContext m ks cursorH tx = false) ∧
    (kIds c9wTx.m_vKernelsOutput = [1, 2, 1] ∧
     kFind ([] : KernelSet) 1 = false ∧ kFind ([] : KernelSet) 2 = false ∧
     ValidateTxContext c9wUtxos [] 0 c9wTx = true) := by
  constructor
  · intro m ks cursorH tx l1 l2 v w hvw hor
    rw [ValidateTxContext]
    rcases hor with hin | hout
    · rw [hin]
      simp only [ValidateTxContextKernels]
      rw [ktxloop_adjdup hvw 0]
      simp
    · rw [hout]
      simp only [ValidateTxContextKernels]
      rw [ktxloop_adjdup hvw 0]
      simp
  · exact ⟨rfl, rfl, rfl, by decide⟩

/-- Witness for the universal half of C9: the adjacent-duplicate
transaction below is rejected. -/
theorem claim_C9_adjacent_duplicate_detection_witness :
    ValidateTxContext c9wUtxos [] 0
      { m_vInputs := [⟨6, 0⟩], m_vOutputs := [], m_vKernelsInput := [],
        m_vKernelsOutput := [⟨3, 0, 5⟩, ⟨3, 0, 5⟩], m_SubsidyClosing := false,
        m_Subsidy := 0, m_Offset := 0 } = false :=
  claim_C9_adjacent_duplicate_detection.1 c9wUtxos [] 0 _ [] [] ⟨3, 0, 5⟩ ⟨3, 0, 5⟩ rfl
    (Or.inr rfl)

/-! ## The state store (`NodeDB` rows used by pruning and reorg)

`NodeDB` itself is not part of `src/`; the row structure is modelled
from the spec (§5, §4.3, §4.5): each state row carries its height, its
parent row, its chainwork, the `Active`/`Functional` flags, whether a
stored body is present, and whether applying its body succeeds. -/

/-- Modelled from the spec: a stored state row. -/
structure GNode where
  m_Prev : Nat
  m_Height : Height
  m_ChainWork : Nat
  m_Active : Bool
  m_Functional : Bool
  m_HasBody : Bool
  m_ApplyOk : Bool
deriving DecidableEq, Repr

/-- Modelled from the spec: the state table, keyed by row id. -/
abbrev StoreDB := List (Nat × GNode)

/-- The per-row effect of `NodeProcessor::PruneAt`: at the given height,
a non-`Active` row is marked non-`Functional`, and with `bDeleteBody`
its stored body is deleted. -/
def pruneAtNode (h : Height) (bDel : Bool) (n : GNode) : GNode :=
  if n.m_Height = h then
    if bDel then
      if n.m_Active then { n with m_HasBody := false }
      else { n with m_Functional := false, m_HasBody := false }
    else
      if n.m_Active then n else { n with m_Functional := false }
  else n

/-- `NodeProcessor::PruneAt`: walk every state at the height. -/
def PruneAt (db : StoreDB) (h : Height) (bDel : Bool) : StoreDB :=
  db.map (fun e => (e.1, pruneAtNode h bDel e.2))

/-- Modelled from the spec: `AdjustFossilEnd` is macroblock bookkeeping
outside `src/`; §4.5 describes the fossil advance without any effect of
it on the state table or the fossil parameter. -/
def AdjustFossilEnd (db : StoreDB) (_h : Height) : StoreDB := db

/-- The fossil loop of `PruneOld`: pre-increment the fossil height,
stop as soon as it would reach the target `h`, otherwise prune at the
new height and persist it.  The fuel only bounds the recursion and is
chosen large enough by the caller. -/
def pruneFossilLoop (db : StoreDB) (hFossil h : Height) : Nat → StoreDB × Height
  | 0 => (db, hFossil)
  | fuel + 1 =>
    if hFossil + 1 ≥ h then (db, hFossil)
    else pruneFossilLoop (PruneAt db (hFossil + 1) true) (hFossil + 1) h fuel

/-- The fossil section of `NodeProcessor::PruneOld` (the branching
section touches only tip rows and is independent of the fossil
parameter): guarded by the schwarzschild horizon, the target is
`min(cursor.height - schwarzschild, lo_horizon)`. -/
def PruneOldFossil (db : StoreDB) (cursorH loH fossil0 schw : Height) : StoreDB × Height :=
  if cursorH > schw + Rules.HeightGenesis - 1 then
    pruneFossilLoop
      (AdjustFossilEnd db (if cursorH - schw > loH then loH else cursorH - schw))
      fossil0 (if cursorH - schw > loH then loH else cursorH - schw)
      (if cursorH - schw > loH then loH else cursorH - schw)
  else (db, fossil0)

/-- The fossil invariant: at every height from genesis up to the fossil
height, non-`Active` rows are non-`Functional` and no stored body
remains. -/
def FossilInv (db : StoreDB) (f : Height) : Prop :=
  ∀ e ∈ db, Rules.HeightGenesis ≤ e.2.m_Height → e.2.m_Height ≤ f →
    (e.2.m_Active = false → e.2.m_Functional = false) ∧ e.2.m_HasBody = false

instance (db : StoreDB) (f : Height) : Decidable (FossilInv db f) := by
  unfold FossilInv
  infer_instance

theorem natLeOfNe {x f : Nat} (h2 : x ≤ f + 1) (hh : ¬ x = f + 1) : x ≤ f := by omega

theorem natFuelStep {f h fuel : Nat} (hx : h ≤ f + 1 + (fuel + 1)) : h ≤ f + 1 + 1 + fuel := by
  omega

theorem natPredEq {f h : Nat} (hge : ¬ f + 1 ≥ h) (h4 : f + 1 + 1 ≥ h) : f + 1 = h - 1 := by
  omega

theorem natMinIte {a b H : Nat} (hH : (if a > b then b else a) = H) : H = min a b := by
  by_cases hx : a > b
  · rw [if_pos hx] at hH
    omega
  · rw [if_neg hx] at hH
    omega

theorem natLeAddSelf (a b : Nat) : a ≤ b + 1 + a := by omega

theorem natMaxStay {fo H a b : Nat} (hmin : H = min a b) (hc : fo + 1 ≥ H) :
    fo = max fo (min a b - 1) := by omega

theorem natMaxAdv {fo H a b : Nat} (hmin : H = min a b) (hc : ¬ fo + 1 ≥ H) :
    H - 1 = max fo (min a b - 1) := by omega

/-- `PruneAt` at height `f + 1` with body deletion extends the fossil
invariant from `f` to `f + 1`. -/
theorem pruneAt_inv {db : StoreDB} {f : Height} (hinv : FossilInv db f) :
    FossilInv (PruneAt db (f + 1) true) (f + 1) := by
  intro e' he' h1 h2
  rw [PruneAt] at he'
  obtain ⟨e, he, rfl⟩ := List.mem_map.1 he'
  dsimp only at h1 h2 ⊢
  by_cases hh : e.2.m_Height = f + 1
  · cases hA : e.2.m_Active with
    | true =>
      rw [pruneAtNode, if_pos hh, if_pos rfl, if_pos hA]
      constructor
      · intro hx
        have hx' : e.2.m_Active = false := hx
        rw [hA] at hx'
        exact absurd hx' (by decide)
      · rfl
    | false =>
      rw [pruneAtNode, if_pos hh, if_pos rfl,
        if_neg (by rw [hA]; exact Bool.false_ne_true)]
      exact ⟨fun _ => rfl, rfl⟩
  · have heq : pruneAtNode (f + 1) true e.2 = e.2 := by
      rw [pruneAtNode, if_neg hh]
    rw [heq] at h1 h2 ⊢
    exact hinv e he h1 (natLeOfNe h2 hh)

/-- The fossil loop advances the parameter to `h - 1` unless it already
is at least `h - 1`, preserving the fossil invariant along the way. -/
theorem pruneFossilLoop_spec :
    ∀ (fuel : Nat) (db : StoreDB) (f h : Height), h ≤ f + 1 + fuel → FossilInv db f →
    (pruneFossilLoop db f h fuel).2 = (if f + 1 ≥ h then f else h - 1) ∧
    f ≤ (pruneFossilLoop db f h fuel).2 ∧
    FossilInv (pruneFossilLoop db f h fuel).1 (pruneFossilLoop db f h fuel).2 := by
  intro fuel
  induction fuel with
  | zero =>
    intro db f h hfuel hinv
    have hge : f + 1 ≥ h := hfuel
    rw [pruneFossilLoop]
    exact ⟨by rw [if_pos hge], le_refl f, hinv⟩
  | succ fuel ih =>
    intro db f h hfuel hinv
    rw [pruneFossilLoop]
    by_cases hge : f + 1 ≥ h
    · rw [if_pos hge]
      exact ⟨by rw [if_pos hge], le_refl f, hinv⟩
    · rw [if_neg hge]
      obtain ⟨h1, h2, h3⟩ :=
        ih (PruneAt db (f + 1) true) (f + 1) h (natFuelStep hfuel) (pruneAt_inv hinv)
      refine ⟨?_, Nat.le_of_succ_le h2, h3⟩
      rw [h1, if_neg hge]
      by_cases h4 : f + 1 + 1 ≥ h
      · rw [if_pos h4]
        exact natPredEq hge h4
      · rw [if_neg h4]

/-- The C7 counterexample run: empty store, cursor height 12,
`lo_horizon` 12, fossil parameter 0, schwarzschild horizon 2. -/
def c7cxRun : StoreDB × Height := PruneOldFossil [] 12 12 0 2

/-- C7 counterexample: with cursor height 12, schwarzschild horizon 2
and `lo_horizon` 12, the target `min(cursor.height - schwarzschild,
lo_horizon)` is 10, but the fossil parameter is advanced only to 9 (the
loop stops as soon as the pre-incremented value would reach the
target), refuting "advanced up to min(...)". -/
theorem claim_C7_fossil_pruning_counterexample :
    c7cxRun.2 = 9 ∧ min (12 - 2) 12 = 10 ∧ ¬ (c7cxRun.2 = min (12 - 2) 12) := by
  refine ⟨by decide, by decide, by decide⟩

set_option maxHeartbeats 400000 in
/-- C7 (as forced by the counterexample): the fossil parameter never
decreases, and when the schwarzschild guard passes it is advanced to
`min(cursor.height - schwarzschild, lo_horizon) - 1` (not to the
minimum itself) unless it already is at least that; the fossil
invariant — below the resulting parameter every non-`Active` row is
non-`Functional` and no stored body remains — is preserved. -/
theorem claim_C7_fossil_pruning {db : StoreDB} {cursorH loH fossil0 schw : Height}
    (hinv : FossilInv db fossil0) :
    fossil0 ≤ (PruneOldFossil db cursorH loH fossil0 schw).2 ∧
    (PruneOldFossil db cursorH loH fossil0 schw).2 =
      (if cursorH > schw + Rules.HeightGenesis - 1
       then max fossil0 (min (cursorH - schw) loH - 1) else fossil0) ∧
    FossilInv (PruneOldFossil db cursorH loH fossil0 schw).1
      (PruneOldFossil db cursorH loH fossil0 schw).2 := by
  simp only [PruneOldFossil]
  by_cases hgd : cursorH > schw + Rules.HeightGenesis - 1
  · rw [if_pos hgd]
    generalize hH : (if cursorH - schw > loH then loH else cursorH - schw) = H
    have hmin : H = min (cursorH - schw) loH := natMinIte hH
    obtain ⟨h1, h2, h3⟩ :=
      pruneFossilLoop_spec H (AdjustFossilEnd db H) fossil0 H (natLeAddSelf H fossil0) hinv
    refine ⟨h2, ?_, h3⟩
    rw [h1, if_pos hgd]
    by_cases hc : fossil0 + 1 ≥ H
    · rw [if_pos hc]
      exact natMaxStay hmin hc
    · rw [if_neg hc]
      exact natMaxAdv hmin hc
  · rw [if_neg hgd, if_neg hgd]
    exact ⟨le_refl fossil0, rfl, hinv⟩

/-- The store for the C7 witness: one non-active functional row with a
body at height 5. -/
def c7wDb : StoreDB := [(1, ⟨0, 5, 3, false, true, true, true⟩)]

/-- Witness for the amended C7 at the concrete store above. -/
theorem claim_C7_fossil_pruning_witness :
    0 ≤ (PruneOldFossil c7wDb 12 12 0 2).2 ∧
    (PruneOldFossil c7wDb 12 12 0 2).2 =
      (if 12 > 2 + Rules.HeightGenesis - 1
       then max 0 (min (12 - 2) 12 - 1) else 0) ∧
    FossilInv (PruneOldFossil c7wDb 12 12 0 2).1 (PruneOldFossil c7wDb 12 12 0 2).2 :=
  @claim_C7_fossil_pruning c7wDb 12 12 0 2 (by decide)

/-- Modelled from the spec: `Block::Body::Normalize` (core block code,
not under `src/`) sorts the element vectors and cut-throughs matching
input/output pairs; it leaves the `BodyBase` fields — subsidy, the
subsidy-closing flag, offset — unchanged.  Only that invariance matters
here, so the vector reordering is modelled as the identity. -/
def Normalize (b : BlockBody) : BlockBody := b

/-- `GenerateNewBlock(BlockContext&, Block::Body&, Height)`, the inner
assembly pass: add the coinbase emission to the subsidy, force the
closing flag off when the subsidy is already closed, then apply the
mandatory coinbase output and kernel and the optional fee output
forward.  The cryptographic construction of those elements (key
derivation, signatures — not under `src/`) is abstracted into the
`co`/`ck`/`fo` parameters; the offset accumulation is scalar crypto and
is omitted for the same reason.  A handler failure is the source's
`return 0`. -/
def GenerateNewBlockInner (st : PState) (res : BlockBody) (h : Height)
    (co : Output) (ck : TxKernel) (fo : Output) (fees : Nat) :
    Option (PState × BlockBody) :=
  let res1 := { res with
    m_Subsidy := (res.m_Subsidy + Rules.CoinbaseEmission) % subsidyMod,
    m_SubsidyClosing := if st.m_SubsidyOpen then res.m_SubsidyClosing else false }
  match HandleBlockElementOutput st co h none true with
  | none => none
  | some st1 =>
    match HandleBlockElementKernel st1 ck true false with
    | none => none
    | some st2 =>
      if fees ≠ 0 then
        match HandleBlockElementOutput st2 fo h none true with
        | none => none
        | some st3 =>
          some (st3,
            { res1 with
                m_vOutputs := res1.m_vOutputs ++ [co, fo],
                m_vKernelsOutput := res1.m_vKernelsOutput ++ [ck] })
      else
        some (st2,
          { res1 with
              m_vOutputs := res1.m_vOutputs ++ [co],
              m_vKernelsOutput := res1.m_vKernelsOutput ++ [ck] })

/-- `GenerateNewBlock(BlockContext&)`, the from-scratch overload: a
zero-initialized body with `m_SubsidyClosing = true`, assembled at the
cursor height plus one, the interpreter changes then undone (which does
not touch the body), the body normalized and size-checked.  The
serializer is abstracted into the `bodySize` parameter. -/
def GenerateNewBlockFromScratch (bodySize : BlockBody → Nat) (st : PState) (cursorH : Height)
    (co : Output) (ck : TxKernel) (fo : Output) (fees : Nat) : Option BlockBody :=
  match GenerateNewBlockInner st
      { m_vInputs := [], m_vOutputs := [], m_vKernelsInput := [], m_vKernelsOutput := [],
        m_SubsidyClosing := true, m_Subsidy := 0, m_Offset := 0 }
      (cursorH + 1) co ck fo fees with
  | none => none
  | some r =>
    if bodySize (Normalize r.2) ≤ Rules.MaxBodySize then some (Normalize r.2) else none

/-- The inner assembly pass leaves the closing flag at its gated value:
the incoming flag when the subsidy is open, `false` otherwise. -/
theorem gnbInner_closing {st : PState} {res : BlockBody} {h : Height} {co : Output}
    {ck : TxKernel} {fo : Output} {fees : Nat} {st' : PState} {r : BlockBody}
    (heq : GenerateNewBlockInner st res h co ck fo fees = some (st', r)) :
    r.m_SubsidyClosing = (if st.m_SubsidyOpen then res.m_SubsidyClosing else false) := by
  rw [GenerateNewBlockInner] at heq
  cases h1 : HandleBlockElementOutput st co h none true with
  | none => rw [h1] at heq; cases heq
  | some st1 =>
    rw [h1] at heq
    dsimp only at heq
    cases h2 : HandleBlockElementKernel st1 ck true false with
    | none => rw [h2] at heq; cases heq
    | some st2 =>
      rw [h2] at heq
      dsimp only at heq
      by_cases hf : fees ≠ 0
      · rw [if_pos hf] at heq
        cases h3 : HandleBlockElementOutput st2 fo h none true with
        | none => rw [h3] at heq; cases heq
        | some st3 =>
          rw [h3] at heq
          dsimp only at heq
          simp only [Option.some.injEq, Prod.mk.injEq] at heq
          obtain ⟨_, hr⟩ := heq
          rw [← hr]
      · rw [if_neg hf] at heq
        simp only [Option.some.injEq, Prod.mk.injEq] at heq
        obtain ⟨_, hr⟩ := heq
        rw [← hr]

/-- C10: the from-scratch overload zero-initializes the candidate with
`m_SubsidyClosing = true`, and generation forces the flag off exactly
when the subsidy is already closed, so every successfully templated
block carries `m_SubsidyClosing` equal to the subsidy-open flag at
templating time. -/
theorem claim_C10_from_scratch_subsidy_closing (bodySize : BlockBody → Nat)
    {st : PState} {cursorH : Height} {co : Output} {ck : TxKernel} {fo : Output}
    {fees : Nat} {res : BlockBody}
    (heq : GenerateNewBlockFromScratch bodySize st cursorH co ck fo fees = some res) :
    res.m_SubsidyClosing = st.m_SubsidyOpen := by
  rw [GenerateNewBlockFromScratch] at heq
  cases hi : GenerateNewBlockInner st
      { m_vInputs := [], m_vOutputs := [], m_vKernelsInput := [], m_vKernelsOutput := [],
        m_SubsidyClosing := true, m_Subsidy := 0, m_Offset := 0 }
      (cursorH + 1) co ck fo fees with
  | none => rw [hi] at heq; cases heq
  | some p =>
    rcases p with ⟨st', r⟩
    rw [hi] at heq
    dsimp only at heq
    by_cases hsz : bodySize (Normalize r) ≤ Rules.MaxBodySize
    · rw [if_pos hsz] at heq
      simp only [Option.some.injEq] at heq
      rw [← heq]
      have hcl := gnbInner_closing hi
      show r.m_SubsidyClosing = st.m_SubsidyOpen
      rw [hcl]
      cases hso : st.m_SubsidyOpen with
      | true => rw [if_pos rfl]
      | false => rw [if_neg Bool.false_ne_true]
    · rw [if_neg hsz] at heq
      cases heq

/-- The coinbase output, kernel and fee output for the C10 witness. -/
def c10wCo : Output := ⟨1, 0, true, 0⟩

/-- The coinbase kernel for the C10 witness. -/
def c10wCk : TxKernel := ⟨7, 0, 0⟩

/-- The fee output for the C10 witness. -/
def c10wFo : Output := ⟨2, 0, false, 0⟩

/-- The body the C10 witness run produces. -/
def c10wRes : BlockBody :=
  { m_vInputs := [], m_vOutputs := [c10wCo], m_vKernelsInput := [],
    m_vKernelsOutput := [c10wCk], m_SubsidyClosing := true,
    m_Subsidy := Rules.CoinbaseEmission % subsidyMod, m_Offset := 0 }

/-- Witness for C10: templating from scratch over an empty state with
the subsidy open yields a body with the closing flag set. -/
theorem claim_C10_from_scratch_subsidy_closing_witness :
    GenerateNewBlockFromScratch (fun _ => 0) ⟨[], [], true, 0, 0⟩ 0
      c10wCo c10wCk c10wFo 0 = some c10wRes ∧
    c10wRes.m_SubsidyClosing = (⟨[], [], true, 0, 0⟩ : PState).m_SubsidyOpen :=
  ⟨by decide,
    @claim_C10_from_scratch_subsidy_closing (fun _ => 0) ⟨[], [], true, 0, 0⟩ 0
      c10wCo c10wCk c10wFo 0 c10wRes (by decide)⟩

/-- Modelled from the spec: the header fields `HandleBlock` reads
(`Block::SystemState::Full` is core block code, not under `src/`).  The
difficulty is kept in packed form; the state definition is modelled by
the pair of accumulator roots it commits to. -/
structure SystemStateFull where
  m_Height : Height
  m_ChainWork : Nat
  m_DifficultyPacked : Nat
  m_TimeStamp : Nat
  m_Definition : UtxoMap × KernelSet
deriving DecidableEq, Repr

/-- Modelled from the spec: the cursor fields `HandleBlock` reads. -/
structure Cursor where
  m_ChainWork : Nat
  m_DifficultyNext : Nat
deriving DecidableEq, Repr

/-- `NodeProcessor::get_MovingMedian`: walk back from the cursor
collecting up to `WindowForMedian` timestamps (the walked chain is
passed as the list `tss`, cursor first), sort, and take the middle
element; `0` when there is no cursor row. -/
def get_MovingMedian (tss : List Nat) : Nat :=
  match tss with
  | [] => 0
  | _ :: _ =>
    let v := (tss.take Rules.WindowForMedian).insertionSort (· ≤ ·)
    v.getD (v.length / 2) 0

/-- The three first-time header-vs-state checks of `HandleBlock`, plus
context-free body verification (`VerifyBlock`, core code abstracted to
the boolean `verifyOk`): cumulative chainwork, expected packed
difficulty, and timestamp strictly above the moving median.  The
packed-to-raw difficulty conversion (core code) is the `unpack`
parameter. -/
def HandleBlockChecks (s : SystemStateFull) (cur : Cursor) (tss : List Nat)
    (unpack : Nat → Nat) (verifyOk : Bool) : Bool :=
  decide (cur.m_ChainWork + unpack s.m_DifficultyPacked = s.m_ChainWork) &&
  (decide (cur.m_DifficultyNext = s.m_DifficultyPacked) &&
   (decide (s.m_TimeStamp > get_MovingMedian tss) && verifyOk))

/-- The forward path of `NodeProcessor::HandleBlock`: with the rollback
journal absent (`bFirstTime`), run the header checks, interpret the
block, then compare the header definition against the accumulator
roots, unapplying on mismatch; with the journal present (a replay), go
straight to the interpreter. -/
def HandleBlockFwd (s : SystemStateFull) (cur : Cursor) (tss : List Nat)
    (unpack : Nat → Nat) (verifyOk : Bool) (st : PState) (body : BlockBody)
    (rbPresent : Bool) : TxResult :=
  if rbPresent then HandleValidatedBlock st body s.m_Height true true none
  else
    if HandleBlockChecks s cur tss unpack verifyOk then
      match HandleValidatedBlock st body s.m_Height true true none with
      | TxResult.ok st1 body1 =>
        if s.m_Definition = (utxoRoot st1.m_Utxos, kernelRoot st1.m_Kernels) then
          TxResult.ok st1 body1
        else
          match HandleValidatedBlock st1 body1 s.m_Height false false none with
          | TxResult.ok st2 body2 => TxResult.failed st2 body2
          | r => r
      | r => r
    else TxResult.failed st body

set_option maxHeartbeats 400000 in
/-- C4: on a first-time forward application (journal absent) a
successful `HandleBlock` implies the cumulative-chainwork check, the
expected-difficulty check and the strict timestamp-median check all
passed (and context-free verification succeeded); on a replay (journal
present) the result is the bare interpreter call, independent of every
header-vs-state input. -/
theorem claim_C4_first_time_checks
    {s : SystemStateFull} {cur : Cursor} {tss : List Nat} {unpack : Nat → Nat}
    {verifyOk : Bool} {st : PState} {body : BlockBody} :
    (∀ st1 body1,
      HandleBlockFwd s cur tss unpack verifyOk st body false = TxResult.ok st1 body1 →
      cur.m_ChainWork + unpack s.m_DifficultyPacked = s.m_ChainWork ∧
      cur.m_DifficultyNext = s.m_DifficultyPacked ∧
      s.m_TimeStamp > get_MovingMedian tss ∧ verifyOk = true) ∧
    (∀ (s2 : SystemStateFull) (cur2 : Cursor) (tss2 : List Nat) (unpack2 : Nat → Nat)
      (verifyOk2 : Bool), s2.m_Height = s.m_Height →
      HandleBlockFwd s2 cur2 tss2 unpack2 verifyOk2 st body true =
        HandleBlockFwd s cur tss unpack verifyOk st body true) := by
  constructor
  · intro st1 body1 heq
    rw [HandleBlockFwd, if_neg Bool.false_ne_true] at heq
    by_cases hc : HandleBlockChecks s cur tss unpack verifyOk = true
    · rw [HandleBlockChecks] at hc
      simp only [Bool.and_eq_true, decide_eq_true_eq] at hc
      exact ⟨hc.1, hc.2.1, hc.2.2.1, hc.2.2.2⟩
    · rw [if_neg hc] at heq
      cases heq
  · intro s2 cur2 tss2 unpack2 verifyOk2 hh
    rw [HandleBlockFwd, HandleBlockFwd, if_pos rfl, if_pos rfl, hh]

/-- Witness for C4: two replay calls at the same height but completely
different header, cursor, median chain, difficulty conversion and
verification outcome produce the same result. -/
theorem claim_C4_first_time_checks_witness :
    HandleBlockFwd ⟨3, 999, 5, 77, ([], [])⟩ ⟨123, 45⟩ [9, 9, 9] (fun x => x + 1) false
      ⟨[], [], true, 0, 0⟩ ⟨[], [], [], [], false, 0, 0⟩ true =
    HandleBlockFwd ⟨3, 0, 0, 0, ([], [])⟩ ⟨0, 0⟩ [] (fun x => x) true
      ⟨[], [], true, 0, 0⟩ ⟨[], [], [], [], false, 0, 0⟩ true :=
  (@claim_C4_first_time_checks ⟨3, 0, 0, 0, ([], [])⟩ ⟨0, 0⟩ [] (fun x => x) true
      ⟨[], [], true, 0, 0⟩ ⟨[], [], [], [], false, 0, 0⟩).2
    ⟨3, 999, 5, 77, ([], [])⟩ ⟨123, 45⟩ [9, 9, 9] (fun x => x + 1) false rfl

/-! ## Reorg engine (`NodeProcessor::TryGoUp`)

The store operations (`EnumFunctionalTips`, `get_Prev`, `MoveFwd`,
`MoveBack` — `NodeDB`, not under `src/`) are modelled from the spec.
`MoveFwd`/`MoveBack` adjust cursor bookkeeping and the `Active` flags,
which nothing in the tip/chainwork logic reads, and the interpreter
calls inside `Rollback`/`GoForward` touch only the accumulator state;
both are therefore omitted from this model, which tracks the store rows
and the cursor row.  A null row is `0`. -/

/-- Row lookup (`NodeDB::get_State`). -/
def dbGet : StoreDB → Nat → Option GNode
  | [], _ => none
  | e :: t, r => if e.1 = r then some e.2 else dbGet t r

/-- The cursor chainwork: the chainwork of the cursor row, zero at the
null cursor. -/
def cursorCW (db : StoreDB) (cur : Nat) : Nat :=
  match dbGet db cur with
  | none => 0
  | some n => n.m_ChainWork

/-- No row names this row as its parent (`r` is a tip). -/
def noKids (db : StoreDB) (r : Nat) : Bool :=
  db.all (fun e2 => decide (e2.2.m_Prev ≠ r))

/-- A `Functional` tip of the header graph. -/
def isFunctionalTip (db : StoreDB) (e : Nat × GNode) : Bool :=
  e.2.m_Functional && noKids db e.1

/-- Modelled from the spec: take the element of greatest chainwork (the
first of `EnumFunctionalTips`; ties broken deterministically). -/
def bestOf : List (Nat × GNode) → Option (Nat × GNode)
  | [] => none
  | e :: t =>
    match bestOf t with
    | none => some e
    | some b => if e.2.m_ChainWork > b.2.m_ChainWork then some e else some b

/-- The best functional tip (`EnumFunctionalTips` + first `MoveNext`). -/
def bestFunctionalTip (db : StoreDB) : Option (Nat × GNode) :=
  bestOf (db.filter (fun e => isFunctionalTip db e))

/-- `NodeProcessor::GoForward`: on `HandleBlock` success (abstracted to
the stored `m_ApplyOk` outcome of applying this body) the cursor moves
onto the row; on failure the row's body is deleted and the row loses
`Functional`. -/
def goForward (db : StoreDB) (cur row : Nat) : (StoreDB × Nat) × Bool :=
  match dbGet db row with
  | none => ((db, cur), false)
  | some n =>
    if n.m_ApplyOk then ((db, row), true)
    else
      ((db.map (fun e =>
          if e.1 = row then (e.1, { e.2 with m_Functional := false, m_HasBody := false })
          else e), cur), false)

/-- The path-climbing loop of `TryGoUp`: while the target row differs
from the cursor row, roll the cursor back while it outweighs the
target, otherwise push the target and step it to its parent (or to the
null row when there is none). -/
def tguClimb (db : StoreDB) : Nat → Nat → Nat → Nat → List Nat → Option (Nat × List Nat)
  | 0, _, _, _, _ => none
  | fuel + 1, cur, trg, wrk, acc =>
    if trg = cur then some (cur, acc)
    else if cursorCW db cur > wrk then
      match dbGet db cur with
      | none => none
      | some n => tguClimb db fuel n.m_Prev trg wrk acc
    else
      match dbGet db trg with
      | none => none
      | some n =>
        match dbGet db n.m_Prev with
        | some m => tguClimb db fuel cur n.m_Prev m.m_ChainWork (acc ++ [trg])
        | none => tguClimb db fuel cur 0 0 (acc ++ [trg])

/-- The forward replay over the reversed path. -/
def tguForward (db : StoreDB) (cur : Nat) : List Nat → (StoreDB × Nat) × Bool
  | [] => ((db, cur), true)
  | row :: rest =>
    match goForward db cur row with
    | ((db1, cur1), true) => tguForward db1 cur1 rest
    | ((db1, cur1), false) => ((db1, cur1), false)

/-- `NodeProcessor::TryGoUp`: repeat until the best functional tip is
absent or already matches the cursor chainwork; otherwise climb, replay
forward, and on a replay failure start over (the failed row lost
`Functional`).  The fuel only bounds the outer iterations. -/
def tryGoUp : Nat → StoreDB → Nat → Option (StoreDB × Nat)
  | 0, _, _ => none
  | fuel + 1, db, cur =>
    match bestFunctionalTip db with
    | none => some (db, cur)
    | some b =>
      if b.2.m_ChainWork = cursorCW db cur then some (db, cur)
      else
        match tguClimb db (db.length + db.length + 2) cur b.1 b.2.m_ChainWork [] with
        | none => none
        | some (cur1, path) =>
          match tguForward db cur1 path.reverse with
          | ((db2, cur2), true) => some (db2, cur2)
          | ((db2, cur2), false) => tryGoUp fuel db2 cur2

theorem bestOf_none {l : List (Nat × GNode)} (h : bestOf l = none) : l = [] := by
  cases l with
  | nil => rfl
  | cons e t =>
    rw [bestOf] at h
    cases hb : bestOf t with
    | none => rw [hb] at h; cases h
    | some b =>
      rw [hb] at h
      dsimp only at h
      by_cases hc : e.2.m_ChainWork > b.2.m_ChainWork
      · rw [if_pos hc] at h
        cases h
      · rw [if_neg hc] at h
        cases h

theorem bestOf_spec {l : List (Nat × GNode)} {b : Nat × GNode} (h : bestOf l = some b) :
    b ∈ l ∧ ∀ e ∈ l, e.2.m_ChainWork ≤ b.2.m_ChainWork := by
  induction l generalizing b with
  | nil => cases h
  | cons e t ih =>
    rw [bestOf] at h
    cases hb : bestOf t with
    | none =>
      rw [hb] at h
      dsimp only at h
      obtain rfl : e = b := by simpa using h
      have ht := bestOf_none hb
      subst ht
      refine ⟨List.mem_cons_self _ _, ?_⟩
      intro e' he'
      rcases List.mem_cons.1 he' with rfl | he'
      · exact le_refl _
      · cases he'
    | some b0 =>
      rw [hb] at h
      dsimp only at h
      obtain ⟨hbm, hle⟩ := ih hb
      by_cases hc : e.2.m_ChainWork > b0.2.m_ChainWork
      · rw [if_pos hc] at h
        obtain rfl : e = b := by simpa using h
        refine ⟨List.mem_cons_self _ _, ?_⟩
        intro e' he'
        rcases List.mem_cons.1 he' with rfl | he'
        · exact le_refl _
        · exact le_trans (hle e' he') (le_of_lt hc)
      · rw [if_neg hc] at h
        obtain rfl : b0 = b := by simpa using h
        refine ⟨List.mem_cons_of_mem _ hbm, ?_⟩
        intro e' he'
        rcases List.mem_cons.1 he' with rfl | he'
        · exact not_lt.1 hc
        · exact hle e' he'

theorem bestFunctionalTip_none {db : StoreDB} (h : bestFunctionalTip db = none) :
    ∀ e ∈ db, isFunctionalTip db e = false := by
  intro e he
  have hnil := bestOf_none h
  cases hB : isFunctionalTip db e with
  | false => rfl
  | true =>
    exfalso
    have hmem : e ∈ db.filter (fun e => isFunctionalTip db e) :=
      List.mem_filter.2 ⟨he, hB⟩
    rw [hnil] at hmem
    cases hmem

theorem bestFunctionalTip_some {db : StoreDB} {b : Nat × GNode}
    (h : bestFunctionalTip db = some b) :
    b ∈ db ∧ isFunctionalTip db b = true ∧
    ∀ e ∈ db, isFunctionalTip db e = true → e.2.m_ChainWork ≤ b.2.m_ChainWork := by
  obtain ⟨hbm, hle⟩ := bestOf_spec h
  rw [List.mem_filter] at hbm
  refine ⟨hbm.1, hbm.2, ?_⟩
  intro e he hf
  exact hle e (List.mem_filter.2 ⟨he, hf⟩)

theorem dbGet_nodup_mem {db : StoreDB} (hnd : (db.map Prod.fst).Nodup) {r : Nat} {n : GNode}
    (hm : (r, n) ∈ db) : dbGet db r = some n := by
  induction db with
  | nil => cases hm
  | cons e t ih =>
    rw [dbGet]
    rw [List.map_cons] at hnd
    by_cases hr : e.1 = r
    · rw [if_pos hr]
      rcases List.mem_cons.1 hm with he | hm2
      · rw [← he]
      · exfalso
        apply (List.nodup_cons.mp hnd).1
        rw [hr]
        exact List.mem_map.2 ⟨(r, n), hm2, rfl⟩
    · rw [if_neg hr]
      rcases List.mem_cons.1 hm with he | hm2
      · exfalso
        apply hr
        rw [← he]
      · exact ih (List.nodup_cons.mp hnd).2 hm2

theorem goForward_true {db : StoreDB} {cur row : Nat} {db2 : StoreDB} {cur2 : Nat}
    (h : goForward db cur row = ((db2, cur2), true)) : db2 = db ∧ cur2 = row := by
  rw [goForward] at h
  cases hg : dbGet db row with
  | none =>
    rw [hg] at h
    simp at h
  | some n =>
    rw [hg] at h
    dsimp only at h
    by_cases ha : n.m_ApplyOk = true
    · rw [if_pos ha] at h
      simp only [Prod.mk.injEq] at h
      exact ⟨h.1.1.symm, h.1.2.symm⟩
    · rw [if_neg ha] at h
      simp at h

theorem goForward_rows {db : StoreDB} {cur row : Nat} {db2 : StoreDB} {cur2 : Nat} {ok : Bool}
    (h : goForward db cur row = ((db2, cur2), ok)) :
    db2.map Prod.fst = db.map Prod.fst := by
  rw [goForward] at h
  cases hg : dbGet db row with
  | none =>
    rw [hg] at h
    simp only [Prod.mk.injEq] at h
    rw [← h.1.1]
  | some n =>
    rw [hg] at h
    dsimp only at h
    by_cases ha : n.m_ApplyOk = true
    · rw [if_pos ha] at h
      simp only [Prod.mk.injEq] at h
      rw [← h.1.1]
    · rw [if_neg ha] at h
      simp only [Prod.mk.injEq] at h
      rw [← h.1.1, List.map_map]
      refine List.map_congr_left ?_
      intro e he
      show Prod.fst (if e.1 = row then
        (e.1, { e.2 with m_Functional := false, m_HasBody := false }) else e) = e.1
      by_cases hr : e.1 = row
      · rw [if_pos hr]
      · rw [if_neg hr]

theorem tguForward_true {rows : List Nat} : ∀ {db : StoreDB} {cur : Nat} {db2 cur2},
    tguForward db cur rows = ((db2, cur2), true) →
    db2 = db ∧ cur2 = rows.getLastD cur := by
  induction rows with
  | nil =>
    intro db cur db2 cur2 h
    rw [tguForward] at h
    simp only [Prod.mk.injEq] at h
    exact ⟨h.1.1.symm, h.1.2.symm⟩
  | cons row rest ih =>
    intro db cur db2 cur2 h
    rw [tguForward] at h
    rcases hg : goForward db cur row with ⟨⟨dbA, curA⟩, okA⟩
    rw [hg] at h
    cases okA with
    | true =>
      dsimp only at h
      obtain ⟨hdbA, hcurA⟩ := goForward_true hg
      obtain ⟨h1, h2⟩ := ih h
      refine ⟨h1.trans hdbA, ?_⟩
      rw [h2, hcurA, List.getLastD_cons]
    | false =>
      dsimp only at h
      simp at h

theorem tguForward_rows {rows : List Nat} : ∀ {db : StoreDB} {cur : Nat} {db2 cur2 ok},
    tguForward db cur rows = ((db2, cur2), ok) →
    db2.map Prod.fst = db.map Prod.fst := by
  induction rows with
  | nil =>
    intro db cur db2 cur2 ok h
    rw [tguForward] at h
    simp only [Prod.mk.injEq] at h
    rw [← h.1.1]
  | cons row rest ih =>
    intro db cur db2 cur2 ok h
    rw [tguForward] at h
    rcases hg : goForward db cur row with ⟨⟨dbA, curA⟩, okA⟩
    rw [hg] at h
    cases okA with
    | true =>
      dsimp only at h
      exact (ih h).trans (goForward_rows hg)
    | false =>
      dsimp only at h
      simp only [Prod.mk.injEq] at h
      rw [← h.1.1]
      exact goForward_rows hg

theorem tguClimb_path {db : StoreDB} : ∀ (fuel : Nat) {cur trg wrk : Nat} {acc : List Nat}
    {cur1 : Nat} {path : List Nat},
    tguClimb db fuel cur trg wrk acc = some (cur1, path) →
    ∃ suf, path = acc ++ suf ∧ ((suf = [] ∧ cur1 = trg) ∨ suf.head? = some trg) := by
  intro fuel
  induction fuel with
  | zero =>
    intro cur trg wrk acc cur1 path h
    cases h
  | succ fuel ih =>
    intro cur trg wrk acc cur1 path h
    rw [tguClimb] at h
    by_cases ht : trg = cur
    · rw [if_pos ht] at h
      simp only [Option.some.injEq, Prod.mk.injEq] at h
      obtain ⟨hc, hp⟩ := h
      refine ⟨[], by rw [← hp, List.append_nil], Or.inl ⟨rfl, ?_⟩⟩
      rw [← hc, ht]
    · rw [if_neg ht] at h
      by_cases hcw : cursorCW db cur > wrk
      · rw [if_pos hcw] at h
        cases hg : dbGet db cur with
        | none => rw [hg] at h; cases h
        | some n =>
          rw [hg] at h
          dsimp only at h
          exact ih h
      · rw [if_neg hcw] at h
        cases hg : dbGet db trg with
        | none => rw [hg] at h; cases h
        | some n =>
          rw [hg] at h
          dsimp only at h
          cases hp : dbGet db n.m_Prev with
          | some m =>
            rw [hp] at h
            dsimp only at h
            obtain ⟨suf2, hps, _⟩ := ih h
            refine ⟨trg :: suf2, ?_, Or.inr rfl⟩
            rw [hps, List.append_assoc, List.singleton_append]
          | none =>
            rw [hp] at h
            dsimp only at h
            obtain ⟨suf2, hps, _⟩ := ih h
            refine ⟨trg :: suf2, ?_, Or.inr rfl⟩
            rw [hps, List.append_assoc, List.singleton_append]

theorem revGetLastD (l : List Nat) (d : Nat) : (l.reverse).getLastD d = l.headD d := by
  cases l with
  | nil => rfl
  | cons a t =>
    rw [List.reverse_cons, List.getLastD_concat]
    rfl

set_option maxHeartbeats 1000000 in
/-- C3: whenever `TryGoUp` terminates (the fuel sufficed), no
`Functional` tip of the resulting header graph has chainwork strictly
greater than the cursor: the loop only stops with no functional tip
left, with the best tip already matching the cursor chainwork, or with
the cursor moved onto the best tip itself, and replay failures strip
the failed row of `Functional` before the next round. -/
theorem claim_C3_best_tip_maximality :
    ∀ (fuel : Nat) (db : StoreDB) (cur : Nat) (db2 : StoreDB) (cur2 : Nat),
    (db.map Prod.fst).Nodup →
    tryGoUp fuel db cur = some (db2, cur2) →
    ∀ e ∈ db2, isFunctionalTip db2 e = true → e.2.m_ChainWork ≤ cursorCW db2 cur2 := by
  intro fuel
  induction fuel with
  | zero =>
    intro db cur db2 cur2 hnd h
    cases h
  | succ fuel ih =>
    intro db cur db2 cur2 hnd h
    rw [tryGoUp] at h
    cases hb : bestFunctionalTip db with
    | none =>
      rw [hb] at h
      simp only [Option.some.injEq, Prod.mk.injEq] at h
      obtain ⟨hdb, hcur⟩ := h
      subst hdb
      subst hcur
      intro e he hf
      rw [bestFunctionalTip_none hb e he] at hf
      cases hf
    | some b =>
      rw [hb] at h
      dsimp only at h
      obtain ⟨hbm, hbf, hble⟩ := bestFunctionalTip_some hb
      by_cases hEq : b.2.m_ChainWork = cursorCW db cur
      · rw [if_pos hEq] at h
        simp only [Option.some.injEq, Prod.mk.injEq] at h
        obtain ⟨hdb, hcur⟩ := h
        subst hdb
        subst hcur
        intro e he hf
        exact le_trans (hble e he hf) (le_of_eq hEq)
      · rw [if_neg hEq] at h
        cases hcl : tguClimb db (db.length + db.length + 2) cur b.1 b.2.m_ChainWork [] with
        | none => rw [hcl] at h; cases h
        | some p =>
          rcases p with ⟨cur1, path⟩
          rw [hcl] at h
          dsimp only at h
          rcases hF : tguForward db cur1 path.reverse with ⟨⟨dbA, curA⟩, okA⟩
          rw [hF] at h
          cases okA with
          | true =>
            dsimp only at h
            simp only [Option.some.injEq, Prod.mk.injEq] at h
            obtain ⟨hdb, hcur⟩ := h
            obtain ⟨hdbA, hcurA⟩ := tguForward_true hF
            have hdb2 : db2 = db := by rw [← hdb, hdbA]
            have hcur2 : cur2 = (path.reverse).getLastD cur1 := by rw [← hcur, hcurA]
            obtain ⟨suf, hps, hd⟩ := tguClimb_path _ hcl
            rw [List.nil_append] at hps
            have hend : cur2 = b.1 := by
              rcases hd with ⟨hsnil, hct⟩ | hhd
              · rw [hcur2, hps, hsnil]
                exact hct
              · rw [hcur2, hps, revGetLastD]
                cases suf with
                | nil => cases hhd
                | cons x xs =>
                  simp only [List.head?] at hhd
                  obtain rfl : x = b.1 := by simpa using hhd
                  rfl
            have hget : dbGet db b.1 = some b.2 := dbGet_nodup_mem hnd hbm
            have hcw : cursorCW db2 cur2 = b.2.m_ChainWork := by
              rw [hdb2, hend, cursorCW, hget]
            intro e he hf
            rw [hdb2] at he hf
            rw [hcw]
            exact hble e he hf
          | false =>
            dsimp only at h
            have hndA : (dbA.map Prod.fst).Nodup := by
              rw [tguForward_rows hF]
              exact hnd
            exact ih dbA curA db2 cur2 hndA h

/-- The two-row chain for the C3 witness: row 1 is the active cursor,
row 2 a functional tip of greater chainwork whose body applies. -/
def c3wDb : StoreDB :=
  [(1, ⟨0, 1, 10, true, true, true, true⟩), (2, ⟨1, 2, 25, false, true, true, true⟩)]

/-- Witness for C3: after the concrete reorg run onto row 2, the
functional tip at row 2 weighs at most the cursor. -/
theorem claim_C3_best_tip_maximality_witness :
    (2, (⟨1, 2, 25, false, true, true, true⟩ : GNode)).2.m_ChainWork ≤ cursorCW c3wDb 2 :=
  claim_C3_best_tip_maximality 2 c3wDb 1 c3wDb 2 (by decide) (by decide)
    (2, ⟨1, 2, 25, false, true, true, true⟩) (by decide) (by decide)

end Beam
